import Mathlib

/-!
# Verification of the index-list crate (arena-backed doubly-linked list)

This file gives a shallow embedding of the `index-list` Rust crate:
a doubly-linked list whose nodes live in a contiguous arena (`Vec`),
with 1-based `NonZeroU32` handles (`ListIndex`), per-slot link records
(`ListNode`), per-list end records (`ListEnds`) and the central
`IndexList` structure with its linking, unlinking, compaction and
iteration algorithms.

Machine integers are modelled as `Nat` with explicit reduction modulo
`2^32` where the Rust code performs `u32` arithmetic (release-mode
wrapping semantics).  `Vec` is modelled as `List`; reads use `getD`
(`Vec::get` returns `Option`, and the code handles `None`), writes use
`List.set`.  All theorems about stateful operations carry hypotheses
confining executions to in-bounds accesses, matching the panic-free
executions of the Rust code; the one operation whose out-of-bounds
panic is itself under scrutiny (`Vec::swap` inside `swap_data`) is
modelled in `Option`, with `none` denoting a panic.
-/

set_option maxHeartbeats 1000000

/-- `u32::MAX + 1`: the modulus of the 32-bit handle arithmetic. -/
def U32 : Nat := 4294967296

/-- `usize::MAX` on a 64-bit target, used by `IndexList::get`. -/
def USIZEMAX : Nat := 18446744073709551615

/-- `ListIndex` (src/listindex.rs): `Option<NonZeroU32>`, the stored value
is the 1-based slot number; `none` is the null handle. -/
structure ListIndex where
  ndx : Option Nat
deriving DecidableEq, Repr

namespace ListIndex

/-- `ListIndex::new()` = `Default::default()`: the null handle. -/
def new : ListIndex := ⟨none⟩

/-- `ListIndex::is_some`. -/
def isSome (i : ListIndex) : Bool := i.ndx.isSome

/-- `ListIndex::is_none`. -/
def isNone (i : ListIndex) : Bool := i.ndx.isNone

/-- `ListIndex::get`: zero-based slot number, or `none`. -/
def get (i : ListIndex) : Option Nat := i.ndx.map (· - 1)

/-- `ListIndex::set`: `self.ndx = NonZeroU32::try_from(n as u32 + 1).ok()`.
`n as u32` truncates modulo `2^32`; the `+ 1` wraps (release semantics);
`try_from` fails exactly on the value `0`.  A `None` argument leaves the
handle unchanged. -/
def set (i : ListIndex) (index : Option Nat) : ListIndex :=
  match index with
  | some n =>
    let v := (n % U32 + 1) % U32
    ⟨if v = 0 then none else some v⟩
  | none => i

/-- `From<usize> for ListIndex` (64-bit `usize`). -/
def fromNat (index : Nat) : ListIndex := ListIndex.new.set (some index)

/-- `From<u32> for ListIndex`: the argument is a `u32` value. -/
def fromU32 (index : Nat) : ListIndex := ListIndex.new.set (some (index % U32))

/-- `From<u64> for ListIndex`: the argument is a `u64` value, cast to
`usize` (identity on a 64-bit target). -/
def fromU64 (index : Nat) : ListIndex := ListIndex.new.set (some (index % 18446744073709551616))

/-- `From<Option<usize>> for ListIndex`. -/
def fromOpt (index : Option Nat) : ListIndex := ListIndex.new.set index

end ListIndex

/-- `ListNode` (src/listnode.rs): the per-slot intrusive link record. -/
structure ListNode where
  next : ListIndex
  prev : ListIndex
deriving DecidableEq, Repr

namespace ListNode

/-- `ListNode::new()` = `Default::default()`: both links null. -/
def new : ListNode := ⟨ListIndex.new, ListIndex.new⟩

instance : Inhabited ListNode := ⟨ListNode.new⟩

/-- `ListNode::new_next`: `mem::replace(&mut self.next, next)`. -/
def new_next (nd : ListNode) (next : ListIndex) : ListIndex × ListNode :=
  (nd.next, { nd with next := next })

/-- `ListNode::new_prev`: `mem::replace(&mut self.prev, prev)`. -/
def new_prev (nd : ListNode) (prev : ListIndex) : ListIndex × ListNode :=
  (nd.prev, { nd with prev := prev })

end ListNode

/-- `ListEnds` (src/listends.rs): head/tail handles of one logical list. -/
structure ListEnds where
  head : ListIndex
  tail : ListIndex
deriving DecidableEq, Repr

namespace ListEnds

/-- `ListEnds::new()`: both ends null. -/
def new : ListEnds := ⟨ListIndex.new, ListIndex.new⟩

/-- `ListEnds::is_empty`: `head.is_none()`. -/
def is_empty (e : ListEnds) : Bool := e.head.isNone

/-- `ListEnds::new_head`: replace head, return the old one. -/
def new_head (e : ListEnds) (head : ListIndex) : ListIndex × ListEnds :=
  (e.head, { e with head := head })

/-- `ListEnds::new_tail`: replace tail, return the old one. -/
def new_tail (e : ListEnds) (tail : ListIndex) : ListIndex × ListEnds :=
  (e.tail, { e with tail := tail })

/-- `ListEnds::new_both`. -/
def new_both (_e : ListEnds) (both : ListIndex) : ListEnds := ⟨both, both⟩

/-- `ListEnds::clear`. -/
def clear (e : ListEnds) : ListEnds := e.new_both ListIndex.new

end ListEnds

/-- `IndexList<T>` (src/lib.rs): element storage, link storage, the two
logical lists' ends, and the live-element counter. -/
structure IndexList (α : Type) where
  elems : List (Option α)
  nodes : List ListNode
  used : ListEnds
  free : ListEnds
  size : Nat
deriving DecidableEq, Repr

namespace IndexList

variable {α : Type}

/-- `IndexList::new()` = `Default::default()`. -/
def new : IndexList α := ⟨[], [], ListEnds.new, ListEnds.new, 0⟩

/-- `IndexList::capacity`: `self.elems.len()`. -/
def capacity (l : IndexList α) : Nat := l.elems.length

/-- `IndexList::len`: `self.size`. -/
def len (l : IndexList α) : Nat := l.size

/-- `IndexList::clear`. -/
def clear (_l : IndexList α) : IndexList α :=
  ⟨[], [], ListEnds.new.clear, ListEnds.new.clear, 0⟩

/-- `IndexList::is_empty`: `self.used.is_empty()`. -/
def is_empty (l : IndexList α) : Bool := l.used.is_empty

/-- `IndexList::first_index`: `self.used.head`. -/
def first_index (l : IndexList α) : ListIndex := l.used.head

/-- `IndexList::last_index`: `self.used.tail`. -/
def last_index (l : IndexList α) : ListIndex := l.used.tail

/-- `IndexList::next_index`: for a non-null handle, the node's `next`
field if the slot number is in range (`self.nodes.get(ndx)`), else null;
for the null handle, `first_index`. -/
def next_index (l : IndexList α) (index : ListIndex) : ListIndex :=
  match index.get with
  | some ndx =>
    match l.nodes.get? ndx with
    | some node => node.next
    | none => ListIndex.new
  | none => l.first_index

/-- `IndexList::prev_index`: symmetric to `next_index`. -/
def prev_index (l : IndexList α) (index : ListIndex) : ListIndex :=
  match index.get with
  | some ndx =>
    match l.nodes.get? ndx with
    | some node => node.prev
    | none => ListIndex.new
  | none => l.last_index

/-- Helper for `move_index`: apply `next_index` `n` times. -/
def stepNext (l : IndexList α) : Nat → ListIndex → ListIndex
  | 0, i => i
  | n + 1, i => l.stepNext n (l.next_index i)

/-- Helper for `move_index`: apply `prev_index` `n` times. -/
def stepPrev (l : IndexList α) : Nat → ListIndex → ListIndex
  | 0, i => i
  | n + 1, i => l.stepPrev n (l.prev_index i)

/-- `IndexList::move_index`: `match steps.cmp(&0)`, walking
`next_index` `steps` times when positive and `prev_index` `(0..-steps)`
times when negative.  `steps` is an `i32` (every theorem constrains the
`Int` to `[-2^31, 2^31)`), and the negation `-steps` is the wrapping
negation of release mode — written out as `(-steps + 2^31) % 2^32 - 2^31`
— so `-i32::MIN` is `i32::MIN` itself and the backward range
`(0..-steps)` is then empty (`Int.toNat` of a negative count is `0`). -/
def move_index (l : IndexList α) (index : ListIndex) (steps : Int) : ListIndex :=
  if 0 < steps then l.stepNext steps.toNat index
  else if steps < 0 then
    l.stepPrev ((-steps + 2147483648) % 4294967296 - 2147483648).toNat index
  else index

/-- `IndexList::get`: `self.elems.get(index.get().unwrap_or(usize::MAX))?.as_ref()`. -/
def get (l : IndexList α) (index : ListIndex) : Option α :=
  (l.elems.get? (index.get.getD USIZEMAX)).bind id

/-- `IndexList::is_index_used`: `self.get(index).is_some()`. -/
def is_index_used (l : IndexList α) (index : ListIndex) : Bool :=
  (l.get index).isSome

/-- `IndexList::get_first`. -/
def get_first (l : IndexList α) : Option α := l.get l.first_index

/-- `IndexList::get_last`. -/
def get_last (l : IndexList α) : Option α := l.get l.last_index

/-- `IndexList::peek_next`. -/
def peek_next (l : IndexList α) (index : ListIndex) : Option α :=
  l.get (l.next_index index)

/-- `IndexList::peek_prev`. -/
def peek_prev (l : IndexList α) (index : ListIndex) : Option α :=
  l.get (l.prev_index index)

/-- `IndexList::contains`: `self.elems.contains(&Some(elem))`. -/
def containsElem [DecidableEq α] (l : IndexList α) (elem : α) : Bool :=
  l.elems.contains (some elem)

/-- `IndexList::index_of`: position of the first occupied slot holding
`elem`, in arena-storage order. -/
def index_of [DecidableEq α] (l : IndexList α) (elem : α) : ListIndex :=
  ListIndex.fromOpt (l.elems.findIdx? (fun e => e = some elem))

end IndexList

namespace IndexList

variable {α : Type}

/-- `IndexList::is_used` (private): `self.elems[at].is_some()`. -/
def is_used (l : IndexList α) (at_ : Nat) : Bool := (l.elems.getD at_ none).isSome

/-- `IndexList::is_free` (private): `self.elems[at].is_none()`. -/
def is_free (l : IndexList α) (at_ : Nat) : Bool := (l.elems.getD at_ none).isNone

/-- `IndexList::swap_data` (private): `self.elems.swap(here, there)`.
`Vec::swap` panics when either position is out of bounds; the panic is
modelled as `none`. -/
def swap_data (l : IndexList α) (here there : Nat) : Option (IndexList α) :=
  if here < l.elems.length ∧ there < l.elems.length then
    some { l with elems := (l.elems.set here (l.elems.getD there none)).set there (l.elems.getD here none) }
  else none

/-- `IndexList::swap_index`: unwrap both handles, then `swap_data`. -/
def swap_index (l : IndexList α) (this that : ListIndex) : Option (IndexList α) :=
  match this.get with
  | some here =>
    match that.get with
    | some there => l.swap_data here there
    | none => some l
  | none => some l

/-- `IndexList::set_prev` (private): replace the `prev` field of the node
at `index` (when non-null), returning the old value.  The Rust code
indexes `self.nodes[at]`, which panics out of bounds; the model's
`getD`/`set` read a default and write nothing there, and every theorem's
hypotheses keep the accesses in bounds. -/
def set_prev (l : IndexList α) (index new_prev : ListIndex) : ListIndex × IndexList α :=
  match index.get with
  | some at_ =>
    let nd := l.nodes.getD at_ default
    (nd.prev, { l with nodes := l.nodes.set at_ { nd with prev := new_prev } })
  | none => (index, l)

/-- `IndexList::set_next` (private): like `set_prev` for `next`. -/
def set_next (l : IndexList α) (index new_next : ListIndex) : ListIndex × IndexList α :=
  match index.get with
  | some at_ =>
    let nd := l.nodes.getD at_ default
    (nd.next, { l with nodes := l.nodes.set at_ { nd with next := new_next } })
  | none => (index, l)

/-- `IndexList::linkin_tail` (private). -/
def linkin_tail (l : IndexList α) (_prev this next : ListIndex) : IndexList α :=
  if next.isNone then { l with used := (l.used.new_tail this).2 } else l

/-- `IndexList::linkin_head` (private). -/
def linkin_head (l : IndexList α) (prev this _next : ListIndex) : IndexList α :=
  if prev.isNone then { l with used := (l.used.new_head this).2 } else l

/-- `IndexList::insert_elem_at_index` (private). -/
def insert_elem_at_index (l : IndexList α) (this : ListIndex) (elem : Option α) : IndexList α :=
  match this.get with
  | some at_ => { l with elems := l.elems.set at_ elem, size := l.size + 1 }
  | none => l

/-- `IndexList::remove_elem_at_index` (private): `self.elems[at].take()?`,
decrementing `size` only when an element was actually taken. -/
def remove_elem_at_index (l : IndexList α) (this : ListIndex) : Option α × IndexList α :=
  match this.get with
  | some at_ =>
    match l.elems.getD at_ none with
    | some removed => (some removed, { l with elems := l.elems.set at_ none, size := l.size - 1 })
    | none => (none, l)
  | none => (none, l)

/-- `IndexList::linkout_node` (private): null out the node's links, then
bridge its old neighbours; returns `(prev, next)`. -/
def linkout_node (l : IndexList α) (this : ListIndex) : (ListIndex × ListIndex) × IndexList α :=
  let r1 := l.set_next this ListIndex.new
  let r2 := r1.2.set_prev this ListIndex.new
  let r3 := r2.2.set_prev r1.1 r2.1
  let r4 := r3.2.set_next r2.1 r1.1
  ((r2.1, r1.1), r4.2)

/-- `IndexList::linkout_used` (private): `linkout_node` plus used-ends fixup. -/
def linkout_used (l : IndexList α) (this : ListIndex) : IndexList α :=
  let r := l.linkout_node this
  let l2 := if r.1.2.isNone then { r.2 with used := (r.2.used.new_tail r.1.1).2 } else r.2
  if r.1.1.isNone then { l2 with used := (l2.used.new_head r.1.2).2 } else l2

/-- `IndexList::linkout_free` (private): `linkout_node` plus free-ends fixup. -/
def linkout_free (l : IndexList α) (this : ListIndex) : IndexList α :=
  let r := l.linkout_node this
  let l2 := if r.1.2.isNone then { r.2 with free := (r.2.free.new_tail r.1.1).2 } else r.2
  if r.1.1.isNone then { l2 with free := (l2.free.new_head r.1.2).2 } else l2

/-- `IndexList::new_node` (private): recycle the head of the free list,
or push a fresh slot. -/
def new_node (l : IndexList α) (elem : Option α) : ListIndex × IndexList α :=
  let reuse := l.free.head
  if reuse.isSome then
    let l1 := l.insert_elem_at_index reuse elem
    (reuse, l1.linkout_free reuse)
  else
    let pos := l.nodes.length
    (ListIndex.fromNat pos,
      { l with nodes := l.nodes ++ [ListNode.new], elems := l.elems ++ [elem],
               size := l.size + 1 })

/-- `IndexList::linkin_free` (private): append `this` at the free list's tail. -/
def linkin_free (l : IndexList α) (this : ListIndex) : IndexList α :=
  let prev := l.free.tail
  let l1 := (l.set_next prev this).2
  let l2 := (l1.set_prev this prev).2
  if l2.free.is_empty then { l2 with free := l2.free.new_both this }
  else { l2 with free := (l2.free.new_tail this).2 }

/-- `IndexList::linkin_first` (private): prepend `this` at the used head. -/
def linkin_first (l : IndexList α) (this : ListIndex) : IndexList α :=
  let next := l.used.head
  let l1 := (l.set_prev next this).2
  let l2 := (l1.set_next this next).2
  if l2.used.is_empty then { l2 with used := l2.used.new_both this }
  else { l2 with used := (l2.used.new_head this).2 }

/-- `IndexList::linkin_last` (private): append `this` at the used tail. -/
def linkin_last (l : IndexList α) (this : ListIndex) : IndexList α :=
  let prev := l.used.tail
  let l1 := (l.set_next prev this).2
  let l2 := (l1.set_prev this prev).2
  if l2.used.is_empty then { l2 with used := l2.used.new_both this }
  else { l2 with used := (l2.used.new_tail this).2 }

/-- `IndexList::linkin_this_before_that` (private). -/
def linkin_this_before_that (l : IndexList α) (this that : ListIndex) : IndexList α :=
  let r1 := l.set_prev that this
  let l2 := (r1.2.set_next r1.1 this).2
  let l3 := (l2.set_prev this r1.1).2
  let l4 := (l3.set_next this that).2
  l4.linkin_head r1.1 this that

/-- `IndexList::linkin_this_after_that` (private). -/
def linkin_this_after_that (l : IndexList α) (this that : ListIndex) : IndexList α :=
  let r1 := l.set_next that this
  let l2 := (r1.2.set_prev r1.1 this).2
  let l3 := (l2.set_prev this that).2
  let l4 := (l3.set_next this r1.1).2
  l4.linkin_tail that this r1.1

/-- `IndexList::insert_first`: new node linked in at the used head. -/
def insert_first (l : IndexList α) (elem : α) : ListIndex × IndexList α :=
  let r := l.new_node (some elem)
  (r.1, r.2.linkin_first r.1)

/-- `IndexList::insert_last`: new node linked in at the used tail. -/
def insert_last (l : IndexList α) (elem : α) : ListIndex × IndexList α :=
  let r := l.new_node (some elem)
  (r.1, r.2.linkin_last r.1)

/-- `IndexList::insert_before`. -/
def insert_before (l : IndexList α) (index : ListIndex) (elem : α) : ListIndex × IndexList α :=
  if index.isNone then l.insert_first elem
  else
    let r := l.new_node (some elem)
    (r.1, r.2.linkin_this_before_that r.1 index)

/-- `IndexList::insert_after`. -/
def insert_after (l : IndexList α) (index : ListIndex) (elem : α) : ListIndex × IndexList α :=
  if index.isNone then l.insert_last elem
  else
    let r := l.new_node (some elem)
    (r.1, r.2.linkin_this_after_that r.1 index)

/-- `IndexList::remove`: take the element, then move the slot from the
used list to the free list. -/
def remove (l : IndexList α) (index : ListIndex) : Option α × IndexList α :=
  let r := l.remove_elem_at_index index
  if r.1.isSome then (r.1, (r.2.linkout_used index).linkin_free index)
  else (r.1, r.2)

/-- `IndexList::remove_first`. -/
def remove_first (l : IndexList α) : Option α × IndexList α :=
  l.remove l.first_index

/-- `IndexList::remove_last`. -/
def remove_last (l : IndexList α) : Option α × IndexList α :=
  l.remove l.last_index

/-- `IndexList::shift_index_before`. -/
def shift_index_before (l : IndexList α) (this that : ListIndex) : Bool × IndexList α :=
  let valid := l.is_index_used this && l.is_index_used that && this ≠ that
  if valid then (valid, (l.linkout_used this).linkin_this_before_that this that)
  else (valid, l)

/-- `IndexList::shift_index_after`. -/
def shift_index_after (l : IndexList α) (this that : ListIndex) : Bool × IndexList α :=
  let valid := l.is_index_used this && l.is_index_used that && this ≠ that
  if valid then (valid, (l.linkout_used this).linkin_this_after_that this that)
  else (valid, l)

/-- `IndexList::shift_index_to_front`. -/
def shift_index_to_front (l : IndexList α) (this : ListIndex) : Bool × IndexList α :=
  let valid := l.is_index_used this
  if valid then (valid, (l.linkout_used this).linkin_first this)
  else (valid, l)

/-- `IndexList::shift_index_to_back`. -/
def shift_index_to_back (l : IndexList α) (this : ListIndex) : Bool × IndexList α :=
  let valid := l.is_index_used this
  if valid then (valid, (l.linkout_used this).linkin_last this)
  else (valid, l)

end IndexList

namespace IndexList

variable {α : Type}

/-- Number of occupied slots actually present in element storage; used as
fuel for the source's `while let` loops (each successful removal strictly
decreases it, so this fuel is never exhausted). -/
def countSome (elems : List (Option α)) : Nat := (elems.filterMap id).length

/-- `IndexList::trim_safe`: collect the trailing run of free positions in
`(len..capacity).rev()`, unlink each from the free list, then truncate
both storages.  (`i` ranges over in-bounds positions only.) -/
def trim_safe (l : IndexList α) : IndexList α :=
  let removed := ((List.range' l.len (l.capacity - l.len)).reverse).takeWhile
    (fun i => l.is_free i)
  let l1 := removed.foldl (fun acc i => acc.linkout_free (ListIndex.fromNat i)) l
  if removed.isEmpty then l1
  else
    let left := l1.capacity - removed.length
    { l1 with nodes := l1.nodes.take left, elems := l1.elems.take left }

/-- `IndexList::replace_dest_with_source` (private): unlink the free slot
`dst` and the used slot `src`, move the element of `src` into `dst`
(`self.elems[dst] = self.elems[src].take()`), and relink `dst` into the
used list at `src`'s old position. -/
def replace_dest_with_source (l : IndexList α) (src dst : Nat) : IndexList α :=
  let l1 := l.linkout_free (ListIndex.fromNat dst)
  let src_node := l1.nodes.getD src default
  let next := src_node.next
  let prev := src_node.prev
  let l2 := l1.linkout_used (ListIndex.fromNat src)
  let v := l2.elems.getD src none
  let l3 := { l2 with elems := (l2.elems.set src none).set dst v }
  let this := ListIndex.fromNat dst
  if next.isSome then l3.linkin_this_before_that this next
  else if prev.isSome then l3.linkin_this_after_that this prev
  else l3.linkin_first this

/-- `IndexList::trim_swap`: move every used slot at position `>= size`
into a free slot at position `< size` (sources and destinations paired in
ascending order), clear the free list, truncate to `size`. -/
def trim_swap (l : IndexList α) : IndexList α :=
  let need := l.size
  let dst := (((l.elems.take need).enum.filter
    (fun p => p.2.isNone && decide (p.1 < need))).map (fun p => p.1))
  let src := (((l.elems.drop need).enum.filter
    (fun p => p.2.isSome)).map (fun p => p.1 + need))
  let l1 := (src.zip dst).foldl (fun acc p => acc.replace_dest_with_source p.1 p.2) l
  { l1 with free := l1.free.new_both ListIndex.new,
            elems := l1.elems.take need, nodes := l1.nodes.take need }

/-- `IndexList::append` loop body, fuelled: `while let Some(elem) =
other.remove_first() { self.insert_last(elem); }`. -/
def appendFuel : Nat → IndexList α → IndexList α → IndexList α × IndexList α
  | 0, s, o => (s, o)
  | f + 1, s, o =>
    let r := o.remove_first
    match r.1 with
    | some x => appendFuel f (s.insert_last x).2 r.2
    | none => (s, r.2)

/-- `IndexList::append`. -/
def append (l other : IndexList α) : IndexList α × IndexList α :=
  appendFuel (countSome other.elems + 1) l other

/-- `IndexList::prepend` loop body, fuelled: `while let Some(elem) =
other.remove_last() { self.insert_first(elem); }`. -/
def prependFuel : Nat → IndexList α → IndexList α → IndexList α × IndexList α
  | 0, s, o => (s, o)
  | f + 1, s, o =>
    let r := o.remove_last
    match r.1 with
    | some x => prependFuel f (s.insert_first x).2 r.2
    | none => (s, r.2)

/-- `IndexList::prepend`. -/
def prepend (l other : IndexList α) : IndexList α × IndexList α :=
  prependFuel (countSome other.elems + 1) l other

/-- `IndexList::split` loop, fuelled: `while self.is_index_used(index) {
list.insert_first(self.remove_last().unwrap()); }`.  The `unwrap` of a
failed `remove_last` (a panic) is modelled as `none`; the fuel strictly
exceeds the number of stored elements, so it is never exhausted on a
terminating execution. -/
def splitFuel : Nat → IndexList α → ListIndex → IndexList α → Option (IndexList α × IndexList α)
  | 0, _, _, _ => none
  | f + 1, s, index, acc =>
    if s.is_index_used index then
      let r := s.remove_last
      match r.1 with
      | some x => splitFuel f r.2 index (acc.insert_first x).2
      | none => none
    else some (s, acc)

/-- `IndexList::split`: returns `(remaining prefix, split-off list)`. -/
def split (l : IndexList α) (index : ListIndex) : Option (IndexList α × IndexList α) :=
  splitFuel (countSome l.elems + 1) l index IndexList.new

/-- `IndexList::from(&mut Vec<T>)`: drain the vector, inserting each
element at the tail. -/
def fromVec (vec : List α) : IndexList α :=
  vec.foldl (fun acc e => (acc.insert_last e).2) IndexList.new

/-- `FromIterator for IndexList`: same tail-insertion loop as `fromVec`. -/
def fromIter (it : List α) : IndexList α :=
  it.foldl (fun acc e => (acc.insert_last e).2) IndexList.new

/-- `From<T> for IndexList<T>`: the one-element list. -/
def fromElem (elem : α) : IndexList α :=
  (IndexList.new.insert_last elem).2

/-- `Extend for IndexList`. -/
def extendWith (l : IndexList α) (it : List α) : IndexList α :=
  it.foldl (fun acc e => (acc.insert_last e).2) l

end IndexList

/-- `ListIter` (src/listiter.rs): the read iterator's cursor state.  The
source's fields are `start`, `end` and `len`; `end` is a Lean keyword, so
it is named `stop` here. -/
structure ListIter where
  start : ListIndex
  stop : ListIndex
  len : Nat
deriving DecidableEq, Repr

namespace ListIter

/-- `ListIter::set_empty`. -/
def set_empty (_it : ListIter) : ListIter := ⟨ListIndex.new, ListIndex.new, 0⟩

/-- `Iterator::next` for `ListIter`: yield `get(start)`; when the two
cursors have met, become empty, otherwise advance `start` via
`next_index` and decrement `len`. -/
def next {α : Type} (l : IndexList α) (it : ListIter) : Option α × ListIter :=
  match l.get it.start with
  | none => (none, it)
  | some item =>
    if it.start = it.stop then (some item, it.set_empty)
    else (some item, { it with start := l.next_index it.start, len := it.len - 1 })

/-- `DoubleEndedIterator::next_back` for `ListIter`: yield `get(end)`;
when the cursors have met, become empty, otherwise move `end` back via
`prev_index` and decrement `len`. -/
def next_back {α : Type} (l : IndexList α) (it : ListIter) : Option α × ListIter :=
  match l.get it.stop with
  | none => (none, it)
  | some item =>
    if it.start = it.stop then (some item, it.set_empty)
    else (some item, { it with stop := l.prev_index it.stop, len := it.len - 1 })

end ListIter

namespace IndexList

variable {α : Type}

/-- `IndexList::iter`: cursors at `first_index`/`last_index`, `len` many
elements remaining. -/
def iter (l : IndexList α) : ListIter :=
  ⟨l.first_index, l.last_index, l.size⟩

end IndexList

/-! ## Derived definitions used by the verification -/

/-- The concrete list `[1, 2]` with its first element removed: slot 0 is
free but in range, slot 1 holds `2`. -/
def exampleC4 : IndexList Nat := ((IndexList.fromVec [1, 2]).remove_first).2

/-- The list built from `[10, 20, 30]` after removing slots 1 and then 0:
slots 0 and 1 are on the free list (in that order), slot 2 is occupied. -/
def exampleC3 : IndexList Nat :=
  (((IndexList.fromVec [10, 20, 30]).remove (ListIndex.fromNat 1)).2.remove
    (ListIndex.fromNat 0)).2

/-- The one-element list `[7]`. -/
def exampleC2 : IndexList Nat := IndexList.fromVec [7]

/-- Length of the maximal trailing run of free (none) slots. -/
def trailingFrees {α : Type} (l : IndexList α) : Nat :=
  (l.elems.reverse.takeWhile (fun e => e.isNone)).length

/-- The list of positions `trim_safe` collects: the trailing run of free
positions in `(len..capacity).rev()`. -/
def trimRemoved {α : Type} (l : IndexList α) : List Nat :=
  ((List.range' l.len (l.capacity - l.len)).reverse).takeWhile (fun i => l.is_free i)

/-- The concrete list `[4, 8, 15, 16, 23, 42]` with its last element
removed: one trailing free slot. -/
def exampleC7 : IndexList Nat := ((IndexList.fromVec [4, 8, 15, 16, 23, 42]).remove_last).2

/-- The destination positions `trim_swap` collects: free slots below `size`. -/
def trimDst {α : Type} (l : IndexList α) : List Nat :=
  ((l.elems.take l.size).enum.filter
    (fun p => p.2.isNone && decide (p.1 < l.size))).map (fun p => p.1)

/-- The source positions `trim_swap` collects: used slots at or above `size`. -/
def trimSrc {α : Type} (l : IndexList α) : List Nat :=
  ((l.elems.drop l.size).enum.filter (fun p => p.2.isSome)).map (fun p => p.1 + l.size)

/-- The concrete list `[4, 8, 15, 16, 23, 42]` with its first element
removed: one free slot at position 0, to be filled by `trim_swap`. -/
def exampleC6 : IndexList Nat := ((IndexList.fromVec [4, 8, 15, 16, 23, 42]).remove_first).2

/-- The link records of a list holding `n` elements in slots `0..n-1`, in
storage order: slot `i` points forward to `i+1` and back to `i-1`. -/
def chainNodes (n : Nat) : List ListNode :=
  (List.range n).map (fun i =>
    ⟨if i + 1 < n then ListIndex.fromNat (i + 1) else ListIndex.new,
     if i = 0 then ListIndex.new else ListIndex.fromNat (i - 1)⟩)

/-- The full state of the list built by inserting `es` at the tail of a
fresh list, in order: values in storage order, a straight chain of links,
used ends at slots `0` and `n-1`, an empty free list. -/
def builtState {α : Type} (es : List α) : IndexList α :=
  ⟨es.map some, chainNodes es.length,
   ⟨if es.length = 0 then ListIndex.new else ListIndex.fromNat 0,
    if es.length = 0 then ListIndex.new else ListIndex.fromNat (es.length - 1)⟩,
   ListEnds.new, es.length⟩

/-- A handle value representable in the Rust type: null, or the encoding
of a slot number that fits the 32-bit width. -/
def ListIndex.Valid (i : ListIndex) : Prop :=
  i = ListIndex.new ∨ ∃ n, n + 1 < U32 ∧ i = ListIndex.fromNat n

/-! ## Chain segments

`Seg nodes p i us q j` says: starting with back-pointer `p` and cursor
`i`, the node array links the slots `us` in order (each slot's `prev`
field pointing at its predecessor, each slot's `next` field at its
successor); `q` is the handle of the last slot of `us` (or `p` when `us`
is empty) and `j` is the `next` pointer leaving the segment.  A full
well-formed list is a segment from the null handle at `head` ending at
`tail` with exit pointer null. -/
def Seg (nodes : List ListNode) : ListIndex → ListIndex → List Nat → ListIndex → ListIndex → Prop
  | p, i, [], q, j => p = q ∧ i = j
  | p, i, n :: rest, q, j =>
      i = ListIndex.fromNat n ∧ n < nodes.length ∧
      (nodes.getD n default).prev = p ∧
      Seg nodes (ListIndex.fromNat n) ((nodes.getD n default).next) rest q j

def decSeg (nodes : List ListNode) :
    (p i : ListIndex) → (us : List Nat) → (q j : ListIndex) → Decidable (Seg nodes p i us q j)
  | p, i, [], q, j => by unfold Seg; infer_instance
  | p, i, n :: rest, q, j => by
      unfold Seg
      have := decSeg nodes (ListIndex.fromNat n) ((nodes.getD n default).next) rest q j
      infer_instance

instance (nodes : List ListNode) (p i : ListIndex) (us : List Nat) (q j : ListIndex) :
    Decidable (Seg nodes p i us q j) := decSeg nodes p i us q j

/-- The two intrusive lists are well formed when each is a full segment
from head to tail. -/
def EndsOk (nodes : List ListNode) (e : ListEnds) (us : List Nat) : Prop :=
  Seg nodes ListIndex.new e.head us e.tail ListIndex.new

/-- **The structural invariants of claim C1**: both lists are well-formed
doubly-linked chains (link symmetry, `prev(head) = none`,
`next(tail) = none`), together they partition exactly the slot range
`[0, capacity)`, and `size = capacity - (length of the free list)`. -/
def StructInv {α : Type} (l : IndexList α) : Prop :=
  ∃ us fs : List Nat,
    EndsOk l.nodes l.used us ∧ EndsOk l.nodes l.free fs ∧
    List.Perm (us ++ fs) (List.range l.capacity) ∧
    l.size = l.capacity - fs.length

/-- Full well-formedness: the structural invariants plus occupancy
(used slots hold values, free slots hold none) and array alignment. -/
def Wf {α : Type} (l : IndexList α) : Prop :=
  ∃ us fs : List Nat,
    EndsOk l.nodes l.used us ∧ EndsOk l.nodes l.free fs ∧
    List.Perm (us ++ fs) (List.range l.capacity) ∧
    l.size = l.capacity - fs.length ∧
    (∀ n ∈ us, (l.elems.getD n none).isSome = true) ∧
    (∀ n ∈ fs, l.elems.getD n none = none) ∧
    l.nodes.length = l.elems.length

/-- The handle cycle of a chain: its slot handles in order, then null. -/
def cycleOf (us : List Nat) : List ListIndex :=
  us.map ListIndex.fromNat ++ [ListIndex.new]

instance (nodes : List ListNode) (e : ListEnds) (us : List Nat) : Decidable (EndsOk nodes e us) :=
  decSeg nodes ListIndex.new e.head us e.tail ListIndex.new

/-- Drive the read iterator by a list of directions (`true` = `next`,
`false` = `next_back`), collecting the yielded elements in call order. -/
def runIter {α : Type} (l : IndexList α) (it : ListIter) : List Bool → List α
  | [] => []
  | true :: ds =>
    match it.next l with
    | (none, it2) => runIter l it2 ds
    | (some x, it2) => x :: runIter l it2 ds
  | false :: ds =>
    match it.next_back l with
    | (none, it2) => runIter l it2 ds
    | (some x, it2) => x :: runIter l it2 ds

/-- Ideal two-ended consumption of a value sequence: `true` yields the
front element, `false` the back one; an exhausted sequence yields
nothing, forever. -/
def takeTwoEnded {α : Type} : List α → List Bool → List α
  | _, [] => []
  | vs, true :: ds =>
    match vs.head? with
    | none => []
    | some v => v :: takeTwoEnded vs.tail ds
  | vs, false :: ds =>
    match vs.getLast? with
    | none => []
    | some v => v :: takeTwoEnded vs.dropLast ds

/-- A list corrupted through the public API: build `[100, 200]`, remove
the first element (slot 0 goes to the free list), then call
`insert_before` with the stale handle of slot 0.  `linkin_this_before_that`
links the new node before a free-list slot, producing a self-loop. -/
def exampleC1 : IndexList Nat :=
  (((IndexList.fromVec [100, 200]).remove (ListIndex.fromNat 0)).2.insert_before
    (ListIndex.fromNat 0) 300).2

/-- Forward traversal collecting values: repeatedly `get` the current
handle and step with `next_index`, stopping at an unoccupied handle or
when the fuel runs out. -/
def IndexList.traverseFrom {α : Type} (l : IndexList α) : Nat → ListIndex → List α
  | 0, _ => []
  | fuel + 1, i =>
    match l.get i with
    | none => []
    | some v => v :: l.traverseFrom fuel (l.next_index i)

/-- A small list with an interior hole: `[10, 20, 30]` with the middle
element removed, so slot 2 (value 30) lives beyond `size = 2`. -/
def exampleC9 : IndexList Nat :=
  ((IndexList.fromVec [10, 20, 30]).remove (ListIndex.fromNat 1)).2

/-! ## Basic facts about handles -/

namespace ListIndex

theorem set_some_eq (i : ListIndex) (n : Nat) :
    i.set (some n) = ⟨if (n % U32 + 1) % U32 = 0 then none else some ((n % U32 + 1) % U32)⟩ := rfl

theorem fromNat_eq_of_lt {n : Nat} (h : n + 1 < U32) : fromNat n = ⟨some (n + 1)⟩ := by
  have hn : n < U32 := Nat.lt_of_succ_lt h
  simp [fromNat, set_some_eq, Nat.mod_eq_of_lt hn, Nat.mod_eq_of_lt h]

theorem fromNat_get {n : Nat} (h : n + 1 < U32) : (fromNat n).get = some n := by
  rw [fromNat_eq_of_lt h]; simp [get]

theorem fromNat_ne_new {n : Nat} (h : n + 1 < U32) : fromNat n ≠ ListIndex.new := by
  rw [fromNat_eq_of_lt h]; simp [ListIndex.new]

theorem fromNat_isSome {n : Nat} (h : n + 1 < U32) : (fromNat n).isSome = true := by
  rw [fromNat_eq_of_lt h]; simp [isSome]

theorem fromNat_inj {a b : Nat} (ha : a + 1 < U32) (hb : b + 1 < U32) :
    fromNat a = fromNat b ↔ a = b := by
  rw [fromNat_eq_of_lt ha, fromNat_eq_of_lt hb]
  constructor
  · intro h; injection h with h; cases h; rfl
  · intro h; cases h; rfl

theorem get_eq_none_iff (i : ListIndex) : i.get = none ↔ i.ndx = none := by
  cases i with
  | mk o => cases o <;> simp [get]

theorem isNone_iff (i : ListIndex) : i.isNone = true ↔ i.ndx = none := by
  cases i with
  | mk o => cases o <;> simp [isNone]

theorem fromU64_eq_fromNat_mod (n : Nat) : fromU64 n = fromNat (n % U32) := by
  have hdvd : U32 ∣ 18446744073709551616 := ⟨U32, by norm_num [U32]⟩
  simp [fromU64, fromNat, set_some_eq, Nat.mod_mod_of_dvd n hdvd]

end ListIndex

/-! ## C5: handle construction from unsigned integers -/

/-- **C5** (corrected).  The conversion from an unsigned integer first
truncates the value modulo `2^32` and then adds one (wrapping): it is
total, reads back as `n` whenever `n + 1` fits in 32 bits, and yields the
null handle exactly when `n ≡ 2^32 - 1 (mod 2^32)`.  For the 32-bit-wide
conversion the original claim holds in full; for wider inputs an
out-of-range `n ≥ 2^32` aliases the handle of slot `n mod 2^32` rather
than saturating to null (see the counterexample). -/
theorem C5_from_unsigned_amended :
    (∀ n : Nat, n + 1 < U32 →
      (ListIndex.fromU64 n).get = some n ∧ (ListIndex.fromU32 n).get = some n ∧
      (ListIndex.fromNat n).get = some n ∧ (ListIndex.fromU64 n).isSome = true) ∧
    (∀ n : Nat, ListIndex.fromU64 n = ListIndex.new ↔ n % U32 = U32 - 1) ∧
    (∀ n : Nat, n % U32 + 1 < U32 → (ListIndex.fromU64 n).get = some (n % U32)) := by
  have hU : 0 < U32 := by norm_num [U32]
  have key : ∀ n : Nat, n % U32 + 1 < U32 → (ListIndex.fromU64 n).get = some (n % U32) := by
    intro n h
    rw [ListIndex.fromU64_eq_fromNat_mod]
    exact ListIndex.fromNat_get h
  refine ⟨?_, ?_, key⟩
  · intro n h
    have hmod : n % U32 = n := Nat.mod_eq_of_lt (Nat.lt_of_succ_lt h)
    have h64 : (ListIndex.fromU64 n).get = some n := by
      have := key n (by rw [hmod]; exact h)
      rwa [hmod] at this
    refine ⟨h64, ?_, ListIndex.fromNat_get h, ?_⟩
    · have : ListIndex.fromU32 n = ListIndex.fromNat n := by
        simp [ListIndex.fromU32, ListIndex.fromNat, ListIndex.set_some_eq, hmod]
      rw [this]; exact ListIndex.fromNat_get h
    · rw [ListIndex.fromU64_eq_fromNat_mod, hmod]
      exact ListIndex.fromNat_isSome h
  · intro n
    rw [ListIndex.fromU64_eq_fromNat_mod]
    have hlt : n % U32 < U32 := Nat.mod_lt _ hU
    constructor
    · intro h
      by_contra hne
      have : n % U32 + 1 < U32 := by omega
      exact ListIndex.fromNat_ne_new this h
    · intro h
      rw [h]
      decide

/-- **C5** counterexample: converting the out-of-range value `2^32` (as a
`u64`) does not saturate to the null handle; it aliases the handle of
slot `0`. -/
theorem C5_counterexample :
    ListIndex.fromU64 4294967296 ≠ ListIndex.new ∧
    (ListIndex.fromU64 4294967296).get = some 0 := by decide

/-- **C5** witness: the amended theorem applied at the concrete input `5`. -/
theorem C5_witness : 5 + 1 < U32 ∧ (ListIndex.fromU64 5).get = some 5 :=
  ⟨by norm_num [U32], (C5_from_unsigned_amended.1 5 (by norm_num [U32])).1⟩

/-! ## C4: swap_index -/


/-- **C4** counterexample: `swap_index` on a handle of an in-range but
unoccupied (free) slot is not a no-op — it moves the occupied slot's
value into the free slot, changing the list state. -/
theorem C4_counterexample :
    ((ListIndex.fromNat 0).get = some 0 ∧ 0 < exampleC4.capacity ∧
      exampleC4.is_index_used (ListIndex.fromNat 0) = false) ∧
    exampleC4.swap_index (ListIndex.fromNat 1) (ListIndex.fromNat 0) ≠ some exampleC4 := by
  decide

/-- `get?` at a position known to be in bounds is `some` of the `getD` value. -/
theorem get?_some_of_lt {beta : Type} (es : List beta) {n : Nat} (d : beta) (h : n < es.length) :
    es.get? n = some (es.getD n d) := by
  rw [List.getD_eq_get?]
  cases hg : es.get? n with
  | none => exact absurd (List.get?_eq_none.mp hg) (by omega)
  | some v => simp

/-- Reading back position `i` after the two writes of a `Vec::swap`. -/
theorem swap_get?_left {beta : Type} (es : List beta) {i j : Nat} (d : beta)
    (hi : i < es.length) (hj : j < es.length) :
    ((es.set i (es.getD j d)).set j (es.getD i d)).get? i = es.get? j := by
  by_cases hij : i = j
  · subst hij
    rw [List.get?_set_eq_of_lt _ (by simpa using hi), get?_some_of_lt es d hi]
  · rw [List.get?_set_ne _ _ (fun h => hij h.symm), List.get?_set_eq_of_lt _ hi,
      get?_some_of_lt es d hj]

/-- Reading back position `j` after the two writes of a `Vec::swap`. -/
theorem swap_get?_right {beta : Type} (es : List beta) {i j : Nat} (d : beta)
    (hi : i < es.length) (hj : j < es.length) :
    ((es.set i (es.getD j d)).set j (es.getD i d)).get? j = es.get? i := by
  rw [List.get?_set_eq_of_lt _ (by simpa using hj), get?_some_of_lt es d hi]

/-- **C4** (corrected).  `swap_index` exchanges the stored contents of any
two non-null, in-range slots — whether occupied or free — and leaves the
link structure, both end records and the size unchanged (so no handle's
position in the used list changes); it is a no-op exactly when either
handle is null; and a non-null handle whose slot number is out of range
makes the underlying `Vec::swap` panic (modelled as `none`) instead of
returning. -/
theorem C4_swap_index_amended :
    (∀ (α : Type) (l : IndexList α) (a b : ListIndex) (i j : Nat),
       a.get = some i → b.get = some j → i < l.capacity → j < l.capacity →
       l.swap_index a b = some
         { l with elems := (l.elems.set i (l.elems.getD j none)).set j (l.elems.getD i none) } ∧
       ∀ l2, l.swap_index a b = some l2 →
         l2.get a = l.get b ∧ l2.get b = l.get a ∧ l2.nodes = l.nodes ∧
         l2.used = l.used ∧ l2.free = l.free ∧ l2.size = l.size) ∧
    (∀ (α : Type) (l : IndexList α) (a b : ListIndex),
       a.ndx = none ∨ b.ndx = none → l.swap_index a b = some l) ∧
    (∀ (α : Type) (l : IndexList α) (a b : ListIndex) (i j : Nat),
       a.get = some i → b.get = some j → l.capacity ≤ i ∨ l.capacity ≤ j →
       l.swap_index a b = none) := by
  refine ⟨?_, ?_, ?_⟩
  · intro α l a b i j ha hb hi hj
    simp only [IndexList.capacity] at hi hj
    have hstate : l.swap_index a b = some
        { l with elems := (l.elems.set i (l.elems.getD j none)).set j (l.elems.getD i none) } := by
      simp only [IndexList.swap_index, ha, hb, IndexList.swap_data]
      rw [if_pos ⟨hi, hj⟩]
    refine ⟨hstate, ?_⟩
    intro l2 h2
    rw [hstate] at h2
    injection h2 with h2
    subst h2
    refine ⟨?_, ?_, rfl, rfl, rfl, rfl⟩
    · simp only [IndexList.get, ha, hb, Option.getD_some]
      rw [swap_get?_left l.elems none hi hj]
    · simp only [IndexList.get, ha, hb, Option.getD_some]
      rw [swap_get?_right l.elems none hi hj]
  · intro α l a b h
    rcases h with h | h
    · have : a.get = none := (ListIndex.get_eq_none_iff a).mpr h
      simp [IndexList.swap_index, this]
    · have : b.get = none := (ListIndex.get_eq_none_iff b).mpr h
      cases hga : a.get with
      | none => simp [IndexList.swap_index, hga]
      | some i => simp [IndexList.swap_index, hga, this]
  · intro α l a b i j ha hb hor
    simp only [IndexList.capacity] at hor
    simp only [IndexList.swap_index, ha, hb, IndexList.swap_data]
    rw [if_neg]
    intro hcon
    rcases hor with h | h
    · exact absurd hcon.1 (Nat.not_lt.mpr h)
    · exact absurd hcon.2 (Nat.not_lt.mpr h)

/-- **C4** witness: the amended theorem applied to the concrete two-slot
list, swapping the occupied slot 1 with the free slot 0. -/
theorem C4_witness :
    (ListIndex.fromNat 1).get = some 1 ∧ (ListIndex.fromNat 0).get = some 0 ∧
    1 < exampleC4.capacity ∧ 0 < exampleC4.capacity ∧
    exampleC4.swap_index (ListIndex.fromNat 1) (ListIndex.fromNat 0) = some
      { exampleC4 with elems := ((exampleC4.elems.set 1 (exampleC4.elems.getD 0 none)).set 0
          (exampleC4.elems.getD 1 none)) } :=
  ⟨by decide, by decide, by decide, by decide,
    ((C4_swap_index_amended.1 Nat exampleC4 (ListIndex.fromNat 1) (ListIndex.fromNat 0) 1 0
      (by decide) (by decide) (by decide) (by decide)).1)⟩

/-! ## C3: next_index / prev_index on invalid handles -/


/-- **C3** counterexample: slot 1 of `exampleC3` is in range and
unoccupied, yet `next_index` returns the handle of slot 0 (its free-list
link), not the null handle; symmetrically `prev_index` of the free slot 0
returns the handle of slot 1. -/
theorem C3_counterexample :
    (exampleC3.is_index_used (ListIndex.fromNat 1) = false ∧
      (ListIndex.fromNat 1).get = some 1 ∧ 1 < exampleC3.capacity) ∧
    exampleC3.next_index (ListIndex.fromNat 1) = ListIndex.fromNat 0 ∧
    ListIndex.fromNat 0 ≠ ListIndex.new ∧
    exampleC3.prev_index (ListIndex.fromNat 0) = ListIndex.fromNat 1 := by decide

/-- **C3** (corrected).  `next_index`/`prev_index` return `first_index`/
`last_index` for the null handle, and the null handle for a non-null
handle whose slot number is out of range; but for any in-range slot —
occupied or not — they return the node's stored `next`/`prev` field, so
for a slot on the free list they return its free-list link, which need
not be null (see the counterexample). -/
theorem C3_next_prev_index_amended :
    (∀ (α : Type) (l : IndexList α) (h : ListIndex), h.ndx = none →
       l.next_index h = l.first_index ∧ l.prev_index h = l.last_index) ∧
    (∀ (α : Type) (l : IndexList α) (h : ListIndex) (n : Nat), h.get = some n →
       l.nodes.length ≤ n →
       l.next_index h = ListIndex.new ∧ l.prev_index h = ListIndex.new) ∧
    (∀ (α : Type) (l : IndexList α) (h : ListIndex) (n : Nat), h.get = some n →
       n < l.nodes.length →
       l.next_index h = (l.nodes.getD n default).next ∧
       l.prev_index h = (l.nodes.getD n default).prev) := by
  refine ⟨?_, ?_, ?_⟩
  · intro α l h hnone
    have : h.get = none := (ListIndex.get_eq_none_iff h).mpr hnone
    constructor <;> simp [IndexList.next_index, IndexList.prev_index, this]
  · intro α l h n hget hle
    have hn : l.nodes.get? n = none := List.get?_eq_none.mpr hle
    rw [List.get?_eq_getElem?] at hn
    constructor <;> simp [IndexList.next_index, IndexList.prev_index, hget, hn]
  · intro α l h n hget hlt
    have hn := get?_some_of_lt l.nodes default hlt
    constructor
    · simp only [IndexList.next_index, hget]
      rw [hn]
    · simp only [IndexList.prev_index, hget]
      rw [hn]

/-- **C3** witness: the amended theorem applied to the concrete state
`exampleC3` at the free slot 1. -/
theorem C3_witness :
    (ListIndex.fromNat 1).get = some 1 ∧ 1 < exampleC3.nodes.length ∧
    exampleC3.next_index (ListIndex.fromNat 1) =
      (exampleC3.nodes.getD 1 default).next :=
  ⟨by decide, by decide,
    (C3_next_prev_index_amended.2.2 Nat exampleC3 (ListIndex.fromNat 1) 1
      (by decide) (by decide)).1⟩

/-! ## C2: move_index (counterexample) -/


/-- **C2** counterexample: on a one-element list, walking two steps
forward from the first element does not short-circuit to the null handle
once the walk runs off the end; `next_index` of the null handle is
`first_index`, so the walk wraps around and lands back inside the list. -/
theorem C2_counterexample :
    exampleC2.move_index exampleC2.first_index 2 = exampleC2.first_index ∧
    exampleC2.first_index ≠ ListIndex.new := by decide

/-! ## Frame/projection lemmas: which state components each private
operation leaves untouched -/

namespace IndexList

variable {α : Type}

theorem set_prev_2_elems (l : IndexList α) (i p : ListIndex) :
    (l.set_prev i p).2.elems = l.elems := by
  cases h : i.get <;> simp [IndexList.set_prev, h]

theorem set_prev_2_size (l : IndexList α) (i p : ListIndex) :
    (l.set_prev i p).2.size = l.size := by
  cases h : i.get <;> simp [IndexList.set_prev, h]

theorem set_prev_2_used (l : IndexList α) (i p : ListIndex) :
    (l.set_prev i p).2.used = l.used := by
  cases h : i.get <;> simp [IndexList.set_prev, h]

theorem set_prev_2_free (l : IndexList α) (i p : ListIndex) :
    (l.set_prev i p).2.free = l.free := by
  cases h : i.get <;> simp [IndexList.set_prev, h]

theorem set_prev_2_nodes_length (l : IndexList α) (i p : ListIndex) :
    (l.set_prev i p).2.nodes.length = l.nodes.length := by
  cases h : i.get <;> simp [IndexList.set_prev, h]

theorem set_next_2_elems (l : IndexList α) (i p : ListIndex) :
    (l.set_next i p).2.elems = l.elems := by
  cases h : i.get <;> simp [IndexList.set_next, h]

theorem set_next_2_size (l : IndexList α) (i p : ListIndex) :
    (l.set_next i p).2.size = l.size := by
  cases h : i.get <;> simp [IndexList.set_next, h]

theorem set_next_2_used (l : IndexList α) (i p : ListIndex) :
    (l.set_next i p).2.used = l.used := by
  cases h : i.get <;> simp [IndexList.set_next, h]

theorem set_next_2_free (l : IndexList α) (i p : ListIndex) :
    (l.set_next i p).2.free = l.free := by
  cases h : i.get <;> simp [IndexList.set_next, h]

theorem set_next_2_nodes_length (l : IndexList α) (i p : ListIndex) :
    (l.set_next i p).2.nodes.length = l.nodes.length := by
  cases h : i.get <;> simp [IndexList.set_next, h]

theorem linkout_node_2_elems (l : IndexList α) (i : ListIndex) :
    (l.linkout_node i).2.elems = l.elems := by
  simp [IndexList.linkout_node, set_next_2_elems, set_prev_2_elems]

theorem linkout_node_2_size (l : IndexList α) (i : ListIndex) :
    (l.linkout_node i).2.size = l.size := by
  simp [IndexList.linkout_node, set_next_2_size, set_prev_2_size]

theorem linkout_node_2_used (l : IndexList α) (i : ListIndex) :
    (l.linkout_node i).2.used = l.used := by
  simp [IndexList.linkout_node, set_next_2_used, set_prev_2_used]

theorem linkout_node_2_free (l : IndexList α) (i : ListIndex) :
    (l.linkout_node i).2.free = l.free := by
  simp [IndexList.linkout_node, set_next_2_free, set_prev_2_free]

theorem linkout_node_2_nodes_length (l : IndexList α) (i : ListIndex) :
    (l.linkout_node i).2.nodes.length = l.nodes.length := by
  simp [IndexList.linkout_node, set_next_2_nodes_length, set_prev_2_nodes_length]

theorem linkout_used_elems (l : IndexList α) (i : ListIndex) :
    (l.linkout_used i).elems = l.elems := by
  simp only [IndexList.linkout_used]
  split <;> split <;> simp [linkout_node_2_elems]

theorem linkout_used_size (l : IndexList α) (i : ListIndex) :
    (l.linkout_used i).size = l.size := by
  simp only [IndexList.linkout_used]
  split <;> split <;> simp [linkout_node_2_size]

theorem linkout_used_free (l : IndexList α) (i : ListIndex) :
    (l.linkout_used i).free = l.free := by
  simp only [IndexList.linkout_used]
  split <;> split <;> simp [linkout_node_2_free]

theorem linkout_used_nodes_length (l : IndexList α) (i : ListIndex) :
    (l.linkout_used i).nodes.length = l.nodes.length := by
  simp only [IndexList.linkout_used]
  split <;> split <;> simp [linkout_node_2_nodes_length]

theorem linkout_free_elems (l : IndexList α) (i : ListIndex) :
    (l.linkout_free i).elems = l.elems := by
  simp only [IndexList.linkout_free]
  split <;> split <;> simp [linkout_node_2_elems]

theorem linkout_free_size (l : IndexList α) (i : ListIndex) :
    (l.linkout_free i).size = l.size := by
  simp only [IndexList.linkout_free]
  split <;> split <;> simp [linkout_node_2_size]

theorem linkout_free_used (l : IndexList α) (i : ListIndex) :
    (l.linkout_free i).used = l.used := by
  simp only [IndexList.linkout_free]
  split <;> split <;> simp [linkout_node_2_used]

theorem linkout_free_nodes_length (l : IndexList α) (i : ListIndex) :
    (l.linkout_free i).nodes.length = l.nodes.length := by
  simp only [IndexList.linkout_free]
  split <;> split <;> simp [linkout_node_2_nodes_length]

theorem linkin_free_elems (l : IndexList α) (i : ListIndex) :
    (l.linkin_free i).elems = l.elems := by
  simp only [IndexList.linkin_free]
  split <;> simp [set_next_2_elems, set_prev_2_elems]

theorem linkin_free_size (l : IndexList α) (i : ListIndex) :
    (l.linkin_free i).size = l.size := by
  simp only [IndexList.linkin_free]
  split <;> simp [set_next_2_size, set_prev_2_size]

theorem linkin_free_used (l : IndexList α) (i : ListIndex) :
    (l.linkin_free i).used = l.used := by
  simp only [IndexList.linkin_free]
  split <;> simp [set_next_2_used, set_prev_2_used]

theorem linkin_free_nodes_length (l : IndexList α) (i : ListIndex) :
    (l.linkin_free i).nodes.length = l.nodes.length := by
  simp only [IndexList.linkin_free]
  split <;> simp [set_next_2_nodes_length, set_prev_2_nodes_length]

theorem linkin_first_elems (l : IndexList α) (i : ListIndex) :
    (l.linkin_first i).elems = l.elems := by
  simp only [IndexList.linkin_first]
  split <;> simp [set_next_2_elems, set_prev_2_elems]

theorem linkin_first_size (l : IndexList α) (i : ListIndex) :
    (l.linkin_first i).size = l.size := by
  simp only [IndexList.linkin_first]
  split <;> simp [set_next_2_size, set_prev_2_size]

theorem linkin_first_free (l : IndexList α) (i : ListIndex) :
    (l.linkin_first i).free = l.free := by
  simp only [IndexList.linkin_first]
  split <;> simp [set_next_2_free, set_prev_2_free]

theorem linkin_first_nodes_length (l : IndexList α) (i : ListIndex) :
    (l.linkin_first i).nodes.length = l.nodes.length := by
  simp only [IndexList.linkin_first]
  split <;> simp [set_next_2_nodes_length, set_prev_2_nodes_length]

theorem linkin_last_elems (l : IndexList α) (i : ListIndex) :
    (l.linkin_last i).elems = l.elems := by
  simp only [IndexList.linkin_last]
  split <;> simp [set_next_2_elems, set_prev_2_elems]

theorem linkin_last_size (l : IndexList α) (i : ListIndex) :
    (l.linkin_last i).size = l.size := by
  simp only [IndexList.linkin_last]
  split <;> simp [set_next_2_size, set_prev_2_size]

theorem linkin_last_free (l : IndexList α) (i : ListIndex) :
    (l.linkin_last i).free = l.free := by
  simp only [IndexList.linkin_last]
  split <;> simp [set_next_2_free, set_prev_2_free]

theorem linkin_last_nodes_length (l : IndexList α) (i : ListIndex) :
    (l.linkin_last i).nodes.length = l.nodes.length := by
  simp only [IndexList.linkin_last]
  split <;> simp [set_next_2_nodes_length, set_prev_2_nodes_length]

theorem linkin_head_elems (l : IndexList α) (p i n : ListIndex) :
    (l.linkin_head p i n).elems = l.elems := by
  simp only [IndexList.linkin_head]; split <;> rfl

theorem linkin_head_size (l : IndexList α) (p i n : ListIndex) :
    (l.linkin_head p i n).size = l.size := by
  simp only [IndexList.linkin_head]; split <;> rfl

theorem linkin_head_free (l : IndexList α) (p i n : ListIndex) :
    (l.linkin_head p i n).free = l.free := by
  simp only [IndexList.linkin_head]; split <;> rfl

theorem linkin_head_nodes (l : IndexList α) (p i n : ListIndex) :
    (l.linkin_head p i n).nodes = l.nodes := by
  simp only [IndexList.linkin_head]; split <;> rfl

theorem linkin_tail_elems (l : IndexList α) (p i n : ListIndex) :
    (l.linkin_tail p i n).elems = l.elems := by
  simp only [IndexList.linkin_tail]; split <;> rfl

theorem linkin_tail_size (l : IndexList α) (p i n : ListIndex) :
    (l.linkin_tail p i n).size = l.size := by
  simp only [IndexList.linkin_tail]; split <;> rfl

theorem linkin_tail_free (l : IndexList α) (p i n : ListIndex) :
    (l.linkin_tail p i n).free = l.free := by
  simp only [IndexList.linkin_tail]; split <;> rfl

theorem linkin_tail_nodes (l : IndexList α) (p i n : ListIndex) :
    (l.linkin_tail p i n).nodes = l.nodes := by
  simp only [IndexList.linkin_tail]; split <;> rfl

theorem linkin_before_elems (l : IndexList α) (i j : ListIndex) :
    (l.linkin_this_before_that i j).elems = l.elems := by
  simp [IndexList.linkin_this_before_that, linkin_head_elems, set_next_2_elems,
    set_prev_2_elems]

theorem linkin_before_size (l : IndexList α) (i j : ListIndex) :
    (l.linkin_this_before_that i j).size = l.size := by
  simp [IndexList.linkin_this_before_that, linkin_head_size, set_next_2_size,
    set_prev_2_size]

theorem linkin_before_free (l : IndexList α) (i j : ListIndex) :
    (l.linkin_this_before_that i j).free = l.free := by
  simp [IndexList.linkin_this_before_that, linkin_head_free, set_next_2_free,
    set_prev_2_free]

theorem linkin_before_nodes_length (l : IndexList α) (i j : ListIndex) :
    (l.linkin_this_before_that i j).nodes.length = l.nodes.length := by
  simp [IndexList.linkin_this_before_that, linkin_head_nodes, set_next_2_nodes_length,
    set_prev_2_nodes_length]

theorem linkin_after_elems (l : IndexList α) (i j : ListIndex) :
    (l.linkin_this_after_that i j).elems = l.elems := by
  simp [IndexList.linkin_this_after_that, linkin_tail_elems, set_next_2_elems,
    set_prev_2_elems]

theorem linkin_after_size (l : IndexList α) (i j : ListIndex) :
    (l.linkin_this_after_that i j).size = l.size := by
  simp [IndexList.linkin_this_after_that, linkin_tail_size, set_next_2_size,
    set_prev_2_size]

theorem linkin_after_free (l : IndexList α) (i j : ListIndex) :
    (l.linkin_this_after_that i j).free = l.free := by
  simp [IndexList.linkin_this_after_that, linkin_tail_free, set_next_2_free,
    set_prev_2_free]

theorem linkin_after_nodes_length (l : IndexList α) (i j : ListIndex) :
    (l.linkin_this_after_that i j).nodes.length = l.nodes.length := by
  simp [IndexList.linkin_this_after_that, linkin_tail_nodes, set_next_2_nodes_length,
    set_prev_2_nodes_length]

theorem remove_elem_2_nodes (l : IndexList α) (i : ListIndex) :
    (l.remove_elem_at_index i).2.nodes = l.nodes := by
  unfold IndexList.remove_elem_at_index
  cases h : i.get
  · rfl
  · dsimp only
    split <;> rfl

theorem remove_elem_2_used (l : IndexList α) (i : ListIndex) :
    (l.remove_elem_at_index i).2.used = l.used := by
  unfold IndexList.remove_elem_at_index
  cases h : i.get
  · rfl
  · dsimp only
    split <;> rfl

theorem remove_elem_2_free (l : IndexList α) (i : ListIndex) :
    (l.remove_elem_at_index i).2.free = l.free := by
  unfold IndexList.remove_elem_at_index
  cases h : i.get
  · rfl
  · dsimp only
    split <;> rfl

theorem remove_elem_2_elems_length (l : IndexList α) (i : ListIndex) :
    (l.remove_elem_at_index i).2.elems.length = l.elems.length := by
  unfold IndexList.remove_elem_at_index
  cases h : i.get
  · rfl
  · dsimp only
    split <;> simp

end IndexList

/-! ## Pure list facts about takeWhile, used by the compaction proofs -/

theorem takeWhile_getD_true {β : Type} (P : β → Bool) (d : β) :
    ∀ (xs : List β) (k : Nat), k < (xs.takeWhile P).length → P (xs.getD k d) = true := by
  intro xs
  induction xs with
  | nil => intro k h; simp [List.takeWhile] at h
  | cons x xs ih =>
    intro k h
    cases hP : P x with
    | false => simp [List.takeWhile, hP] at h
    | true =>
      rw [List.takeWhile_cons, hP] at h
      cases k with
      | zero => simpa [List.getD] using hP
      | succ k => exact ih k (by simpa using h)

theorem takeWhile_length_stop {β : Type} (P : β → Bool) (d : β) :
    ∀ (xs : List β), (xs.takeWhile P).length < xs.length →
      P (xs.getD (xs.takeWhile P).length d) = false := by
  intro xs
  induction xs with
  | nil => intro h; simp at h
  | cons x xs ih =>
    intro h
    cases hP : P x with
    | false => simpa [List.takeWhile_cons, hP, List.getD] using hP
    | true =>
      rw [List.takeWhile_cons, hP] at h ⊢
      simpa using ih (by simpa using h)

theorem le_takeWhile_length {β : Type} (P : β → Bool) (d : β) :
    ∀ (xs : List β) (r : Nat), r ≤ xs.length → (∀ k, k < r → P (xs.getD k d) = true) →
      r ≤ (xs.takeWhile P).length := by
  intro xs
  induction xs with
  | nil => intro r h _; simpa using h
  | cons x xs ih =>
    intro r hr hall
    cases r with
    | zero => exact Nat.zero_le _
    | succ r =>
      have hx : P x = true := by simpa [List.getD] using hall 0 (Nat.succ_pos r)
      rw [List.takeWhile_cons, hx]
      simpa using ih r (by simpa using hr) (fun k hk => by
        simpa [List.getD] using hall (k + 1) (by omega))

theorem takeWhile_length_le {β : Type} (P : β → Bool) (xs : List β) :
    (xs.takeWhile P).length ≤ xs.length :=
  (List.takeWhile_sublist P).length_le

theorem takeWhile_length_le_countP {β : Type} (P : β → Bool) (xs : List β) :
    (xs.takeWhile P).length ≤ List.countP P xs := by
  have h1 : List.countP P (xs.takeWhile P) = (xs.takeWhile P).length :=
    List.countP_eq_length.mpr (fun a ha => List.mem_takeWhile_imp ha)
  calc (xs.takeWhile P).length = List.countP P (xs.takeWhile P) := h1.symm
    _ ≤ List.countP P xs := (List.takeWhile_sublist P).countP_le P

theorem countSome_eq_countP {β : Type} :
    ∀ es : List (Option β), IndexList.countSome es = List.countP (fun e => e.isSome) es := by
  intro es
  induction es with
  | nil => rfl
  | cons e es ih =>
    cases e <;> simp [IndexList.countSome, List.filterMap_cons, List.countP_cons] <;>
      simpa [IndexList.countSome] using ih

theorem countP_isNone_eq {β : Type} (es : List (Option β)) :
    List.countP (fun e => e.isNone) es = es.length - IndexList.countSome es := by
  have h := List.length_eq_countP_add_countP (fun e : Option β => e.isSome) es
  have hcongr : List.countP (fun e : Option β => decide ¬e.isSome = true) es =
      List.countP (fun e : Option β => e.isNone) es := by
    refine List.countP_congr ?_
    intro x _
    cases x <;> simp
  rw [countSome_eq_countP]
  omega

/-- Dropping `k` elements from `range' s n` (step 1). -/
theorem drop_range' (s n k : Nat) (hk : k ≤ n) :
    (List.range' s n).drop k = List.range' (s + k) (n - k) := by
  have happ : List.range' s k ++ List.range' (s + k) (n - k) = List.range' s n := by
    have := List.range'_append_1 s k (n - k)
    rwa [Nat.sub_add_cancel hk] at this
  calc (List.range' s n).drop k = (List.range' s k ++ List.range' (s + k) (n - k)).drop k := by
        rw [happ]
    _ = List.range' (s + k) (n - k) := by
        have hlen : (List.range' s k).length = k := List.length_range' s 1 k
        nth_rewrite 1 [← hlen]
        exact List.drop_left _ _

/-! ## C7: trim_safe -/



theorem trim_safe_eq {α : Type} (l : IndexList α) :
    l.trim_safe =
      (if (trimRemoved l).isEmpty then
        (trimRemoved l).foldl (fun acc i => acc.linkout_free (ListIndex.fromNat i)) l
      else
        { (trimRemoved l).foldl (fun acc i => acc.linkout_free (ListIndex.fromNat i)) l with
          nodes := (((trimRemoved l).foldl
            (fun acc i => acc.linkout_free (ListIndex.fromNat i)) l).nodes.take
              ((((trimRemoved l).foldl (fun acc i => acc.linkout_free (ListIndex.fromNat i))
                l).capacity) - (trimRemoved l).length)),
          elems := (((trimRemoved l).foldl
            (fun acc i => acc.linkout_free (ListIndex.fromNat i)) l).elems.take
              ((((trimRemoved l).foldl (fun acc i => acc.linkout_free (ListIndex.fromNat i))
                l).capacity) - (trimRemoved l).length)) }) := rfl

theorem foldl_linkout_free_elems {α : Type} :
    ∀ (ds : List Nat) (l : IndexList α),
      (ds.foldl (fun acc i => acc.linkout_free (ListIndex.fromNat i)) l).elems = l.elems := by
  intro ds
  induction ds with
  | nil => intro l; rfl
  | cons d ds ih => intro l; rw [List.foldl_cons, ih, IndexList.linkout_free_elems]

theorem foldl_linkout_free_size {α : Type} :
    ∀ (ds : List Nat) (l : IndexList α),
      (ds.foldl (fun acc i => acc.linkout_free (ListIndex.fromNat i)) l).size = l.size := by
  intro ds
  induction ds with
  | nil => intro l; rfl
  | cons d ds ih => intro l; rw [List.foldl_cons, ih, IndexList.linkout_free_size]

theorem foldl_linkout_free_used {α : Type} :
    ∀ (ds : List Nat) (l : IndexList α),
      (ds.foldl (fun acc i => acc.linkout_free (ListIndex.fromNat i)) l).used = l.used := by
  intro ds
  induction ds with
  | nil => intro l; rfl
  | cons d ds ih => intro l; rw [List.foldl_cons, ih, IndexList.linkout_free_used]

theorem trimRemoved_length_le {α : Type} (l : IndexList α) :
    (trimRemoved l).length ≤ l.capacity - l.len := by
  have := takeWhile_length_le (fun i => l.is_free i)
    ((List.range' l.len (l.capacity - l.len)).reverse)
  simpa [trimRemoved, List.length_range'] using this

/-- The collected positions are exactly the interval
`[capacity - removed.length, capacity)`, in descending order. -/
theorem trimRemoved_eq_range {α : Type} (l : IndexList α) :
    trimRemoved l = (List.range' (l.capacity - (trimRemoved l).length)
      (trimRemoved l).length).reverse := by
  set r := (trimRemoved l).length with hr
  have hrle : r ≤ l.capacity - l.len := trimRemoved_length_le l
  have hpre : trimRemoved l <+:
      ((List.range' l.len (l.capacity - l.len)).reverse) := List.takeWhile_prefix _
  have htake : trimRemoved l =
      ((List.range' l.len (l.capacity - l.len)).reverse).take r :=
    List.prefix_iff_eq_take.mp hpre
  rw [htake, List.take_reverse]
  rw [List.length_range']
  rw [drop_range' _ _ _ (Nat.sub_le _ _)]
  congr 1
  by_cases hlen : l.len ≤ l.capacity
  · congr 1 <;> omega
  · have h0 : l.capacity - l.len = 0 := by omega
    have hr0 : r = 0 := by omega
    rw [h0, hr0]
    simp

theorem trimRemoved_mem_none {α : Type} (l : IndexList α) :
    ∀ i ∈ trimRemoved l, l.elems.getD i none = none := by
  intro i hi
  have := List.mem_takeWhile_imp hi
  simpa [IndexList.is_free, Option.isNone_iff_eq_none] using this

theorem trimRemoved_length_le_cap {α : Type} (l : IndexList α) :
    (trimRemoved l).length ≤ l.capacity :=
  le_trans (trimRemoved_length_le l) (Nat.sub_le _ _)

theorem mem_trimRemoved_of_ge {α : Type} (l : IndexList α) (p : Nat)
    (h1 : l.capacity - (trimRemoved l).length ≤ p) (h2 : p < l.capacity) :
    p ∈ trimRemoved l := by
  rw [trimRemoved_eq_range l, List.mem_reverse, List.mem_range'_1]
  have := trimRemoved_length_le_cap l
  omega

theorem trim_safe_elems_get? {α : Type} (l : IndexList α) (p : Nat) :
    (l.trim_safe.elems.get? p).bind id = (l.elems.get? p).bind id := by
  rw [trim_safe_eq l]
  by_cases hemp : (trimRemoved l).isEmpty
  · rw [if_pos hemp, foldl_linkout_free_elems]
  · rw [if_neg hemp]
    dsimp only
    simp only [IndexList.capacity, foldl_linkout_free_elems]
    by_cases hp : p < l.elems.length - (trimRemoved l).length
    · rw [List.get?_take hp]
    · have hlenle : (l.elems.take (l.elems.length - (trimRemoved l).length)).length ≤ p := by
        simp only [List.length_take]
        omega
      rw [List.get?_eq_none.mpr hlenle]
      by_cases hp2 : p < l.elems.length
      · have hmem : p ∈ trimRemoved l := mem_trimRemoved_of_ge l p (by
          simp only [IndexList.capacity]; omega) (by simpa [IndexList.capacity] using hp2)
        have hnone := trimRemoved_mem_none l p hmem
        have : l.elems.get? p = some none := by
          rw [get?_some_of_lt l.elems none hp2, hnone]
        rw [this]
        rfl
      · rw [List.get?_eq_none.mpr (by omega)]

theorem trim_safe_get {α : Type} (l : IndexList α) (h : ListIndex) :
    l.trim_safe.get h = l.get h := by
  simp only [IndexList.get]
  exact trim_safe_elems_get? l _

theorem trimRemoved_le_trailingFrees {α : Type} (l : IndexList α) :
    (trimRemoved l).length ≤ trailingFrees l := by
  refine le_takeWhile_length _ none l.elems.reverse _ (by
    rw [List.length_reverse]; exact trimRemoved_length_le_cap l) ?_
  intro k hk
  have hkcap : k < l.elems.length := lt_of_lt_of_le hk (trimRemoved_length_le_cap l)
  rw [List.getD_eq_getElem?_getD, List.getElem?_reverse (by simpa using hkcap)]
  have hmem : (l.elems.length - 1 - k) ∈ trimRemoved l := by
    refine mem_trimRemoved_of_ge l _ ?_ ?_ <;> simp only [IndexList.capacity] <;> omega
  have hnone := trimRemoved_mem_none l _ hmem
  rw [List.getD_eq_getElem?_getD] at hnone
  cases hg : l.elems[l.elems.length - 1 - k]? with
  | none => simp
  | some v =>
    rw [hg] at hnone
    simp only [Option.getD_some] at hnone
    simp [hnone]

theorem trailingFrees_le_trimRemoved {α : Type} (l : IndexList α)
    (hsz : l.size = IndexList.countSome l.elems) (hle : l.size ≤ l.capacity) :
    trailingFrees l ≤ (trimRemoved l).length := by
  by_cases hcase : (trimRemoved l).length < l.capacity - l.len
  · have hstop := takeWhile_length_stop (fun i => l.is_free i) 0
      ((List.range' l.len (l.capacity - l.len)).reverse)
      (by simpa [trimRemoved, List.length_range'] using hcase)
    have hgd : ((List.range' l.len (l.capacity - l.len)).reverse).getD
        ((trimRemoved l).length) 0 = l.capacity - 1 - (trimRemoved l).length := by
      have hlt : (trimRemoved l).length < (List.range' l.len (l.capacity - l.len)).length := by
        simpa [List.length_range'] using hcase
      rw [List.getD_eq_getElem?_getD, List.getElem?_reverse (by simpa using hlt)]
      rw [List.length_range',
        List.getElem?_range' _ _ (show l.capacity - l.len - 1 - (trimRemoved l).length <
          l.capacity - l.len by omega)]
      simp only [Option.getD_some, one_mul]
      have : l.len ≤ l.capacity := hle
      omega
    rw [show ((List.range' l.len (l.capacity - l.len)).reverse).takeWhile
        (fun i => l.is_free i) = trimRemoved l from rfl, hgd] at hstop
    by_contra hlt2
    push_neg at hlt2
    have htrue := takeWhile_getD_true (fun e : Option α => e.isNone) none l.elems.reverse
      ((trimRemoved l).length) hlt2
    have hrlt : (trimRemoved l).length < l.elems.length := by
      have : l.len ≤ l.capacity := hle
      simp only [IndexList.capacity] at hcase this
      omega
    rw [List.getD_eq_getElem?_getD, List.getElem?_reverse (by simpa using hrlt)] at htrue
    simp only [IndexList.is_free, List.getD_eq_getElem?_getD, IndexList.capacity] at hstop
    exact absurd htrue (by simp [hstop])
  · have hreq : (trimRemoved l).length = l.capacity - l.len :=
      le_antisymm (trimRemoved_length_le l) (not_lt.mp hcase)
    calc trailingFrees l ≤ List.countP (fun e : Option α => e.isNone) l.elems.reverse :=
          takeWhile_length_le_countP _ _
      _ = List.countP (fun e : Option α => e.isNone) l.elems := List.countP_reverse _ _
      _ = l.elems.length - IndexList.countSome l.elems := countP_isNone_eq l.elems
      _ = l.capacity - l.size := by rw [hsz]; rfl
      _ = (trimRemoved l).length := by rw [hreq]; rfl

/-- **C7** (confirmed).  `trim_safe` changes no handle's meaning: `get`
is unchanged for every handle (so validity is preserved both ways); it is
the identity when there is no trailing run of free slots; and — for a
well-formed size field — it shrinks the capacity by exactly the length of
the maximal trailing run of free slots. -/
theorem C7_trim_safe :
    (∀ (α : Type) (l : IndexList α) (h : ListIndex), l.trim_safe.get h = l.get h) ∧
    (∀ (α : Type) (l : IndexList α) (h : ListIndex),
       l.is_index_used h = true → l.trim_safe.is_index_used h = true) ∧
    (∀ (α : Type) (l : IndexList α), trailingFrees l = 0 → l.trim_safe = l) ∧
    (∀ (α : Type) (l : IndexList α), l.size = IndexList.countSome l.elems →
       l.size ≤ l.capacity →
       l.trim_safe.capacity = l.capacity - trailingFrees l) := by
  refine ⟨?_, ?_, ?_, ?_⟩
  · intro α l h; exact trim_safe_get l h
  · intro α l h hu
    rw [IndexList.is_index_used, trim_safe_get l h]
    exact hu
  · intro α l h0
    have hr0 : (trimRemoved l).length = 0 :=
      Nat.le_zero.mp (h0 ▸ trimRemoved_le_trailingFrees l)
    have hrem : trimRemoved l = [] := List.length_eq_zero.mp hr0
    rw [trim_safe_eq l, hrem]
    rfl
  · intro α l hsz hle
    have heq : (trimRemoved l).length = trailingFrees l :=
      le_antisymm (trimRemoved_le_trailingFrees l) (trailingFrees_le_trimRemoved l hsz hle)
    rw [trim_safe_eq l]
    by_cases hemp : (trimRemoved l).isEmpty
    · have hrem : trimRemoved l = [] := by
        cases h : trimRemoved l with
        | nil => rfl
        | cons a as => rw [h] at hemp; simp [List.isEmpty] at hemp
      have ht0 : trailingFrees l = 0 := by rw [← heq, hrem]; rfl
      rw [if_pos hemp]
      simp only [IndexList.capacity, foldl_linkout_free_elems, ht0]
      omega
    · rw [if_neg hemp]
      dsimp only
      simp only [IndexList.capacity, foldl_linkout_free_elems, List.length_take, heq]
      omega


/-- **C7** witness: the hypothesis-bearing conjunct applied to the
concrete list with one trailing free slot. -/
theorem C7_witness :
    exampleC7.size = IndexList.countSome exampleC7.elems ∧
    exampleC7.size ≤ exampleC7.capacity ∧
    exampleC7.trim_safe.capacity = exampleC7.capacity - trailingFrees exampleC7 :=
  ⟨by decide, by decide, C7_trim_safe.2.2.2 Nat exampleC7 (by decide) (by decide)⟩

/-! ## Pure list facts for the trim_swap proofs -/

theorem getD_set_ne {β : Type} (es : List β) {i j : Nat} (v d : β) (h : i ≠ j) :
    (es.set i v).getD j d = es.getD j d := by
  rw [List.getD_eq_getElem?_getD, List.getD_eq_getElem?_getD, List.getElem?_set_ne h]

theorem getD_set_eq {β : Type} (es : List β) {i : Nat} (v d : β) (h : i < es.length) :
    (es.set i v).getD i d = v := by
  rw [List.getD_eq_getElem?_getD, List.getElem?_set_eq_of_lt v h]
  rfl

/-- Taking the `some` out of position `s`: the values of `es` are a
permutation of `x` together with the values of `es` with slot `s` cleared. -/
theorem filterMap_take_perm {β : Type} :
    ∀ (es : List (Option β)) (s : Nat) (x : β), es.getD s none = some x →
      List.Perm (es.filterMap id) (x :: (es.set s none).filterMap id) := by
  intro es
  induction es with
  | nil => intro s x hx; simp [List.getD] at hx
  | cons e tl ih =>
    intro s x hx
    cases s with
    | zero =>
      simp only [List.getD] at hx
      subst hx
      simp [List.filterMap_cons]
    | succ s =>
      simp only [List.getD] at hx
      cases e with
      | none =>
        simpa [List.filterMap_cons, List.set] using ih s x hx
      | some y =>
        simp only [List.filterMap_cons, List.set]
        refine List.Perm.trans ((ih s x hx).cons y) ?_
        refine List.Perm.trans (List.Perm.swap x y _) ?_
        simp [List.filterMap_cons]

/-- Putting `x` into a cleared position `d`: the values come out as `x`
together with the old values. -/
theorem filterMap_put_perm {β : Type} :
    ∀ (es : List (Option β)) (d : Nat) (x : β), d < es.length → es.getD d none = none →
      List.Perm ((es.set d (some x)).filterMap id) (x :: es.filterMap id) := by
  intro es
  induction es with
  | nil => intro d x hd _; simp at hd
  | cons e tl ih =>
    intro d x hd hnone
    cases d with
    | zero =>
      simp only [List.getD] at hnone
      subst hnone
      simp [List.filterMap_cons, List.set]
    | succ d =>
      simp only [List.getD] at hnone
      cases e with
      | none =>
        simpa [List.filterMap_cons, List.set] using ih d x (by simpa using hd) hnone
      | some y =>
        simp only [List.filterMap_cons, List.set]
        refine List.Perm.trans ((ih d x (by simpa using hd) hnone).cons y)
          (List.Perm.swap x y _)

/-- Counting a predicate on the value component over `enumFrom`. -/
theorem countP_enumFrom {β : Type} (P : β → Bool) :
    ∀ (xs : List β) (n : Nat),
      List.countP (fun p => P p.2) (List.enumFrom n xs) = List.countP P xs := by
  intro xs
  induction xs with
  | nil => intro n; rfl
  | cons x xs ih =>
    intro n
    simp only [List.enumFrom, List.countP_cons, ih]

/-- Two lists without duplicates zip into a componentwise-distinct
pairwise list. -/
theorem pairwise_zip_of_nodup {β γ : Type} :
    ∀ {xs : List β} {ys : List γ}, xs.Nodup → ys.Nodup →
      (xs.zip ys).Pairwise (fun p q => p.1 ≠ q.1 ∧ p.2 ≠ q.2) := by
  intro xs
  induction xs with
  | nil => intro ys _ _; simp
  | cons x xs ih =>
    intro ys hx hy
    cases ys with
    | nil => simp
    | cons y ys =>
      rw [List.zip_cons_cons]
      refine List.Pairwise.cons ?_ (ih (List.Nodup.of_cons hx) (List.Nodup.of_cons hy))
      intro q hq
      rcases q with ⟨a, b⟩
      obtain ⟨hq1, hq2⟩ := List.of_mem_zip hq
      constructor
      · intro hcon
        simp only at hcon
        apply (List.nodup_cons.mp hx).1
        rwa [hcon]
      · intro hcon
        simp only at hcon
        apply (List.nodup_cons.mp hy).1
        rwa [hcon]

/-! ## The element-storage effect of replace_dest_with_source -/

namespace IndexList

variable {α : Type}

theorem replace_elems (l : IndexList α) (s d : Nat) :
    (l.replace_dest_with_source s d).elems =
      ((l.elems.set s none).set d (l.elems.getD s none)) := by
  unfold IndexList.replace_dest_with_source
  dsimp only
  split
  · simp [linkin_before_elems, linkout_used_elems, linkout_free_elems]
  split
  · simp [linkin_after_elems, linkout_used_elems, linkout_free_elems]
  · simp [linkin_first_elems, linkout_used_elems, linkout_free_elems]

theorem replace_size (l : IndexList α) (s d : Nat) :
    (l.replace_dest_with_source s d).size = l.size := by
  unfold IndexList.replace_dest_with_source
  dsimp only
  split
  · simp [linkin_before_size, linkout_used_size, linkout_free_size]
  split
  · simp [linkin_after_size, linkout_used_size, linkout_free_size]
  · simp [linkin_first_size, linkout_used_size, linkout_free_size]

theorem replace_elems_length (l : IndexList α) (s d : Nat) :
    (l.replace_dest_with_source s d).elems.length = l.elems.length := by
  rw [replace_elems]
  simp

end IndexList

/-- The combined effect of a sequence of `replace_dest_with_source` moves
whose sources are pairwise distinct, whose destinations are pairwise
distinct, and whose sources never coincide with any destination: the
stored values are permuted, everything else about sizes is unchanged,
untouched positions keep their contents, and every source slot ends up
cleared. -/
theorem fold_replace_spec {α : Type} :
    ∀ (pairs : List (Nat × Nat)) (l : IndexList α),
      (∀ p ∈ pairs, p.1 < l.elems.length ∧ p.2 < l.elems.length ∧
         l.elems.getD p.2 none = none ∧ (l.elems.getD p.1 none).isSome = true) →
      pairs.Pairwise (fun p q => p.1 ≠ q.1 ∧ p.2 ≠ q.2) →
      (∀ p ∈ pairs, ∀ q ∈ pairs, p.1 ≠ q.2) →
      List.Perm ((pairs.foldl (fun acc p => acc.replace_dest_with_source p.1 p.2) l).elems.filterMap id)
        (l.elems.filterMap id) ∧
      (pairs.foldl (fun acc p => acc.replace_dest_with_source p.1 p.2) l).elems.length
        = l.elems.length ∧
      (pairs.foldl (fun acc p => acc.replace_dest_with_source p.1 p.2) l).size = l.size ∧
      (∀ j, j ∉ pairs.map Prod.fst → j ∉ pairs.map Prod.snd →
        (pairs.foldl (fun acc p => acc.replace_dest_with_source p.1 p.2) l).elems.getD j none
          = l.elems.getD j none) ∧
      (∀ p ∈ pairs,
        (pairs.foldl (fun acc p => acc.replace_dest_with_source p.1 p.2) l).elems.getD p.1 none
          = none) := by
  intro pairs
  induction pairs with
  | nil =>
    intro l _ _ _
    exact ⟨List.Perm.refl _, rfl, rfl, fun j _ _ => rfl, fun p hp => absurd hp (by simp)⟩
  | cons sd rest ih =>
    intro l hmem hpw hcross
    obtain ⟨s, d⟩ := sd
    have h0 := hmem (s, d) (List.mem_cons_self _ _)
    obtain ⟨hs, hd, hdnone, hssome⟩ := h0
    obtain ⟨x, hx⟩ := Option.isSome_iff_exists.mp hssome
    have hsd : s ≠ d := hcross (s, d) (List.mem_cons_self _ _) (s, d) (List.mem_cons_self _ _)
    set l1 := l.replace_dest_with_source s d with hl1
    have hE1 : l1.elems = (l.elems.set s none).set d (some x) := by
      rw [hl1, IndexList.replace_elems, hx]
    have hlen1 : l1.elems.length = l.elems.length := IndexList.replace_elems_length l s d
    -- facts about l1's storage
    have hgd_s : l1.elems.getD s none = none := by
      rw [hE1, getD_set_ne _ _ _ (fun h => hsd h.symm), getD_set_eq _ _ _ hs]
    have hgd_d : l1.elems.getD d none = some x := by
      rw [hE1, getD_set_eq _ _ _ (by simpa using hd)]
    have hgd_frame : ∀ j, j ≠ s → j ≠ d → l1.elems.getD j none = l.elems.getD j none := by
      intro j hjs hjd
      rw [hE1, getD_set_ne _ _ _ (fun h => hjd h.symm), getD_set_ne _ _ _ (fun h => hjs h.symm)]
    have hperm1 : List.Perm (l1.elems.filterMap id) (l.elems.filterMap id) := by
      rw [hE1]
      have hput := filterMap_put_perm (l.elems.set s none) d x
        (by simpa using hd)
        (by rw [getD_set_ne _ _ _ (fun h => hsd h)]; exact hdnone)
      have htake := filterMap_take_perm l.elems s x hx
      exact List.Perm.trans hput (List.Perm.symm (List.Perm.trans htake (List.Perm.refl _)))
    -- hypotheses for the tail
    have hpw_head := List.pairwise_cons.mp hpw
    have hmem1 : ∀ p ∈ rest, p.1 < l1.elems.length ∧ p.2 < l1.elems.length ∧
        l1.elems.getD p.2 none = none ∧ (l1.elems.getD p.1 none).isSome = true := by
      intro p hp
      obtain ⟨hp1, hp2, hp3, hp4⟩ := hmem p (List.mem_cons_of_mem _ hp)
      have hne_s_p2 : s ≠ p.2 :=
        hcross (s, d) (List.mem_cons_self _ _) p (List.mem_cons_of_mem _ hp)
      have hne_d_p2 : d ≠ p.2 := (hpw_head.1 p hp).2
      have hne_s_p1 : s ≠ p.1 := (hpw_head.1 p hp).1
      have hne_d_p1 : d ≠ p.1 := fun h =>
        (hcross p (List.mem_cons_of_mem _ hp) (s, d) (List.mem_cons_self _ _)) h.symm
      refine ⟨by omega, by omega, ?_, ?_⟩
      · rw [hgd_frame _ (fun h => hne_s_p2 h.symm) (fun h => hne_d_p2 h.symm)]
        exact hp3
      · rw [hgd_frame _ (fun h => hne_s_p1 h.symm) (fun h => hne_d_p1 h.symm)]
        exact hp4
    have ihres := ih l1 hmem1 hpw_head.2
      (fun p hp q hq => hcross p (List.mem_cons_of_mem _ hp) q (List.mem_cons_of_mem _ hq))
    rw [List.foldl_cons]
    refine ⟨List.Perm.trans ihres.1 hperm1, ?_, ?_, ?_, ?_⟩
    · rw [ihres.2.1, hlen1]
    · rw [ihres.2.2.1, IndexList.replace_size]
    · intro j hj1 hj2
      have hjs : j ≠ s := by intro h; exact hj1 (by simp [h])
      have hjd : j ≠ d := by intro h; exact hj2 (by simp [h])
      rw [ihres.2.2.2.1 j (fun h => hj1 (by simp at h ⊢; exact Or.inr h))
        (fun h => hj2 (by simp at h ⊢; exact Or.inr h))]
      exact hgd_frame j hjs hjd
    · intro p hp
      rcases List.mem_cons.mp hp with heq | hp
      · subst heq
        rw [ihres.2.2.2.1 s ?_ ?_]
        · exact hgd_s
        · intro hcon
          simp only [List.mem_map] at hcon
          obtain ⟨q, hq, hq1⟩ := hcon
          exact ((hpw_head.1 q hq).1) hq1.symm
        · intro hcon
          simp only [List.mem_map] at hcon
          obtain ⟨q, hq, hq2⟩ := hcon
          exact (hcross (s, d) (List.mem_cons_self _ _) q (List.mem_cons_of_mem _ hq)) hq2.symm
      · exact ihres.2.2.2.2 p hp

/-! ## C6: trim_swap -/



theorem trim_swap_eq {α : Type} (l : IndexList α) :
    l.trim_swap =
      { ((trimSrc l).zip (trimDst l)).foldl
          (fun acc p => acc.replace_dest_with_source p.1 p.2) l with
        free := ListEnds.new_both ((((trimSrc l).zip (trimDst l)).foldl
          (fun acc p => acc.replace_dest_with_source p.1 p.2) l).free) ListIndex.new,
        elems := ((((trimSrc l).zip (trimDst l)).foldl
          (fun acc p => acc.replace_dest_with_source p.1 p.2) l).elems.take l.size),
        nodes := ((((trimSrc l).zip (trimDst l)).foldl
          (fun acc p => acc.replace_dest_with_source p.1 p.2) l).nodes.take l.size) } := rfl

theorem mem_trimDst {α : Type} {l : IndexList α} {d : Nat} (h : d ∈ trimDst l) :
    d < l.size ∧ d < l.elems.length ∧ l.elems.getD d none = none := by
  simp only [trimDst, List.mem_map] at h
  obtain ⟨p, hp, hpd⟩ := h
  obtain ⟨henum, hcond⟩ := List.mem_filter.mp hp
  rw [List.mem_enum_iff_get?] at henum
  rw [Bool.and_eq_true, decide_eq_true_iff] at hcond
  subst hpd
  have hlt : p.1 < l.size := hcond.2
  have hget : l.elems.get? p.1 = some p.2 := by
    rw [← List.get?_take hlt]
    exact henum
  have hlen : p.1 < l.elems.length := by
    by_contra hcon
    rw [List.get?_eq_none.mpr (by omega)] at hget
    cases hget
  refine ⟨hlt, hlen, ?_⟩
  rw [List.getD_eq_get?, hget]
  simpa using Option.isNone_iff_eq_none.mp hcond.1

theorem mem_trimSrc {α : Type} {l : IndexList α} {s : Nat} (h : s ∈ trimSrc l) :
    l.size ≤ s ∧ s < l.elems.length ∧ (l.elems.getD s none).isSome = true := by
  simp only [trimSrc, List.mem_map] at h
  obtain ⟨p, hp, hps⟩ := h
  obtain ⟨henum, hcond⟩ := List.mem_filter.mp hp
  rw [List.mem_enum_iff_get?] at henum
  rw [List.get?_drop] at henum
  subst hps
  have hlen : l.size + p.1 < l.elems.length := by
    by_contra hcon
    rw [List.get?_eq_none.mpr (by omega)] at henum
    cases henum
  refine ⟨by omega, by omega, ?_⟩
  have : p.1 + l.size = l.size + p.1 := by omega
  rw [this, List.getD_eq_get?, henum]
  simpa using hcond

theorem mem_trimSrc_of {α : Type} {l : IndexList α} {j : Nat} (h1 : l.size ≤ j)
    (h2 : j < l.elems.length) (h3 : (l.elems.getD j none).isSome = true) :
    j ∈ trimSrc l := by
  simp only [trimSrc, List.mem_map]
  refine ⟨(j - l.size, l.elems.getD j none), ?_, by omega⟩
  rw [List.mem_filter, List.mem_enum_iff_get?]
  refine ⟨?_, h3⟩
  rw [List.get?_drop]
  have : l.size + (j - l.size) = j := by omega
  rw [this, get?_some_of_lt l.elems none h2]

theorem nodup_trimDst {α : Type} (l : IndexList α) : (trimDst l).Nodup := by
  have heta : (fun p : Nat × Option α => p.1) = Prod.fst := rfl
  rw [trimDst, heta]
  refine List.Nodup.sublist (List.Sublist.map _ (List.filter_sublist _)) ?_
  rw [List.enum_map_fst]
  exact List.nodup_range _

theorem nodup_trimSrc {α : Type} (l : IndexList α) : (trimSrc l).Nodup := by
  have heta : (fun p : Nat × Option α => p.1 + l.size) =
      ((fun n => n + l.size) ∘ Prod.fst) := rfl
  rw [trimSrc, heta, ← List.map_map]
  refine List.Nodup.map (add_left_injective l.size) ?_
  refine List.Nodup.sublist (List.Sublist.map _ (List.filter_sublist _)) ?_
  rw [List.enum_map_fst]
  exact List.nodup_range _

theorem trimDst_length {α : Type} (l : IndexList α) (hle : l.size ≤ l.elems.length) :
    (trimDst l).length = l.size - IndexList.countSome (l.elems.take l.size) := by
  rw [trimDst, List.length_map, ← List.countP_eq_length_filter]
  have hcongr : List.countP (fun p : Nat × Option α => p.2.isNone && decide (p.1 < l.size))
      ((l.elems.take l.size).enum) =
      List.countP (fun p : Nat × Option α => p.2.isNone) ((l.elems.take l.size).enum) := by
    refine List.countP_congr ?_
    intro x hx
    rw [List.mem_enum_iff_get?] at hx
    have hx1 : x.1 < (l.elems.take l.size).length := by
      by_contra hcon
      rw [List.get?_eq_none.mpr (by omega)] at hx
      cases hx
    have : x.1 < l.size := by
      rw [List.length_take] at hx1
      omega
    simp [this]
  rw [hcongr]
  have := countP_enumFrom (fun e : Option α => e.isNone) (l.elems.take l.size) 0
  rw [List.enum, this, countP_isNone_eq, List.length_take]
  congr 1
  omega

theorem trimSrc_length {α : Type} (l : IndexList α) :
    (trimSrc l).length = IndexList.countSome (l.elems.drop l.size) := by
  rw [trimSrc, List.length_map, ← List.countP_eq_length_filter]
  have := countP_enumFrom (fun e : Option α => e.isSome) (l.elems.drop l.size) 0
  rw [List.enum, this, countSome_eq_countP]

theorem trim_lengths_eq {α : Type} (l : IndexList α)
    (hsz : l.size = IndexList.countSome l.elems) (hle : l.size ≤ l.elems.length) :
    (trimSrc l).length = (trimDst l).length := by
  rw [trimSrc_length, trimDst_length l hle]
  have hsplit : l.elems.take l.size ++ l.elems.drop l.size = l.elems :=
    List.take_append_drop _ _
  have hcount : IndexList.countSome (l.elems.take l.size) +
      IndexList.countSome (l.elems.drop l.size) = IndexList.countSome l.elems := by
    rw [countSome_eq_countP, countSome_eq_countP, countSome_eq_countP, ← hsplit,
      List.countP_append]
    simp [hsplit]
  have htk : IndexList.countSome (l.elems.take l.size) ≤ l.size := by
    rw [countSome_eq_countP]
    calc List.countP (fun e : Option α => e.isSome) (l.elems.take l.size)
        ≤ (l.elems.take l.size).length := List.countP_le_length _
      _ ≤ l.size := by rw [List.length_take]; omega
  omega

/-- **C6** (confirmed).  For every list whose size field is consistent
with its element storage, after `trim_swap()`: `capacity() == len()`, the
free list is empty (both of its ends are null), and the multiset of
stored element values is unchanged (stated as a permutation of the value
lists). -/
theorem C6_trim_swap :
    ∀ (α : Type) (l : IndexList α), l.size = IndexList.countSome l.elems →
      l.size ≤ l.capacity →
      l.trim_swap.capacity = l.trim_swap.len ∧
      l.trim_swap.free = ListEnds.new ∧
      List.Perm (l.trim_swap.elems.filterMap id) (l.elems.filterMap id) := by
  intro α l hsz hle
  simp only [IndexList.capacity] at hle
  have hlen_eq := trim_lengths_eq l hsz hle
  -- the hypotheses of fold_replace_spec for the zipped pairs
  have hmemP : ∀ p ∈ (trimSrc l).zip (trimDst l), p.1 < l.elems.length ∧
      p.2 < l.elems.length ∧ l.elems.getD p.2 none = none ∧
      (l.elems.getD p.1 none).isSome = true := by
    intro p hp
    rcases p with ⟨s, d⟩
    obtain ⟨hs, hd⟩ := List.of_mem_zip hp
    obtain ⟨_, hs2, hs3⟩ := mem_trimSrc hs
    obtain ⟨_, hd2, hd3⟩ := mem_trimDst hd
    exact ⟨hs2, hd2, hd3, hs3⟩
  have hpwP := pairwise_zip_of_nodup (nodup_trimSrc l) (nodup_trimDst l)
  have hcrossP : ∀ p ∈ (trimSrc l).zip (trimDst l), ∀ q ∈ (trimSrc l).zip (trimDst l),
      p.1 ≠ q.2 := by
    intro p hp q hq
    rcases p with ⟨s, d⟩
    rcases q with ⟨s', d'⟩
    obtain ⟨hs, _⟩ := List.of_mem_zip hp
    obtain ⟨_, hd'⟩ := List.of_mem_zip hq
    obtain ⟨hs1, _, _⟩ := mem_trimSrc hs
    obtain ⟨hd1, _, _⟩ := mem_trimDst hd'
    simp only
    omega
  obtain ⟨hperm, hlen1, hsize1, hframe, hcleared⟩ :=
    fold_replace_spec ((trimSrc l).zip (trimDst l)) l hmemP hpwP hcrossP
  have hmapfst : ((trimSrc l).zip (trimDst l)).map Prod.fst = trimSrc l :=
    List.map_fst_zip _ _ (le_of_eq hlen_eq)
  have hmapsnd : ((trimSrc l).zip (trimDst l)).map Prod.snd = trimDst l :=
    List.map_snd_zip _ _ (le_of_eq hlen_eq.symm)
  rw [trim_swap_eq l]
  generalize ((trimSrc l).zip (trimDst l)).foldl
    (fun acc p => acc.replace_dest_with_source p.1 p.2) l = l1
    at hperm hlen1 hsize1 hframe hcleared ⊢
  refine ⟨?_, rfl, ?_⟩
  · simp only [IndexList.capacity, IndexList.len, List.length_take]
    rw [hlen1, hsize1]
    omega
  · -- every position at or above size holds none in l1
    have hhigh : ∀ j, l.size ≤ j → j < l1.elems.length → l1.elems.getD j none = none := by
      intro j hj1 hj2
      rw [hlen1] at hj2
      by_cases hcase : (l.elems.getD j none).isSome = true
      · have hjsrc : j ∈ trimSrc l := mem_trimSrc_of hj1 hj2 hcase
        rw [← hmapfst, List.mem_map] at hjsrc
        obtain ⟨p, hp, hpj⟩ := hjsrc
        have := hcleared p hp
        rwa [hpj] at this
      · have hnone : l.elems.getD j none = none := by
          cases hg : l.elems.getD j none with
          | none => rfl
          | some v => rw [hg] at hcase; simp at hcase
        rw [hframe j ?_ ?_]
        · exact hnone
        · rw [hmapfst]
          intro hcon
          obtain ⟨_, _, h3⟩ := mem_trimSrc hcon
          rw [hnone] at h3
          cases h3
        · rw [hmapsnd]
          intro hcon
          obtain ⟨h1, _, _⟩ := mem_trimDst hcon
          omega
    have hdropnil : (l1.elems.drop l.size).filterMap id = [] := by
      rw [List.filterMap_eq_nil]
      intro a ha
      obtain ⟨n, hn⟩ := List.mem_iff_get?.mp ha
      rw [List.get?_drop] at hn
      have hlt : l.size + n < l1.elems.length := by
        by_contra hcon
        rw [List.get?_eq_none.mpr (by omega)] at hn
        cases hn
      have := hhigh (l.size + n) (by omega) hlt
      rw [List.getD_eq_get?, hn] at this
      simpa using this
    have htakeeq : (l1.elems.take l.size).filterMap id = l1.elems.filterMap id := by
      have hsplit : l1.elems.take l.size ++ l1.elems.drop l.size = l1.elems :=
        List.take_append_drop _ _
      rw [← hsplit, List.filterMap_append, hdropnil, List.append_nil]
      rw [hsplit]
    simp only
    rw [htakeeq]
    exact hperm


/-- **C6** witness: the theorem applied to the concrete list. -/
theorem C6_witness :
    exampleC6.size = IndexList.countSome exampleC6.elems ∧
    exampleC6.size ≤ exampleC6.capacity ∧
    exampleC6.trim_swap.capacity = exampleC6.trim_swap.len ∧
    exampleC6.trim_swap.free = ListEnds.new ∧
    List.Perm (exampleC6.trim_swap.elems.filterMap id) (exampleC6.elems.filterMap id) :=
  ⟨by decide, by decide,
    (C6_trim_swap Nat exampleC6 (by decide) (by decide)).1,
    (C6_trim_swap Nat exampleC6 (by decide) (by decide)).2.1,
    (C6_trim_swap Nat exampleC6 (by decide) (by decide)).2.2⟩

/-! ## C10: sequential insertion into a fresh list -/



theorem chainNodes_length (n : Nat) : (chainNodes n).length = n := by
  simp [chainNodes]

theorem chainNodes_get? (n i : Nat) (h : i < n) :
    (chainNodes n).get? i = some
      ⟨if i + 1 < n then ListIndex.fromNat (i + 1) else ListIndex.new,
       if i = 0 then ListIndex.new else ListIndex.fromNat (i - 1)⟩ := by
  rw [chainNodes, List.get?_map, List.get?_range h]
  rfl

theorem chainNodes_snoc (n : Nat) (hn : n ≠ 0) :
    (((chainNodes n ++ [ListNode.new]).set (n - 1)
        { next := ListIndex.fromNat n,
          prev := ((chainNodes n ++ [ListNode.new]).getD (n - 1) default).prev }).set n
        { next := (((chainNodes n ++ [ListNode.new]).set (n - 1)
            { next := ListIndex.fromNat n,
              prev := ((chainNodes n ++ [ListNode.new]).getD (n - 1) default).prev }).getD
              n default).next,
          prev := ListIndex.fromNat (n - 1) }) = chainNodes (n + 1) := by
  have hlen : (chainNodes n).length = n := chainNodes_length n
  have hgd1 : (chainNodes n ++ [ListNode.new]).getD (n - 1) default =
      ⟨ListIndex.new, if n - 1 = 0 then ListIndex.new else ListIndex.fromNat (n - 1 - 1)⟩ := by
    rw [List.getD_eq_get?, List.get?_append (by omega), chainNodes_get? n (n - 1) (by omega)]
    simp only [Option.getD_some]
    congr 1
    rw [if_neg (by omega)]
  have hgd2 : ((chainNodes n ++ [ListNode.new]).set (n - 1)
      { (chainNodes n ++ [ListNode.new]).getD (n - 1) default with
        next := ListIndex.fromNat n }).getD n default = ListNode.new := by
    rw [List.getD_eq_get?, List.get?_set_ne _ _ (by omega : n - 1 ≠ n)]
    have hc := List.get?_concat_length (chainNodes n) ListNode.new
    rw [hlen] at hc
    rw [hc]
    rfl
  rw [hgd1] at hgd2
  rw [hgd1, hgd2]
  dsimp only
  refine List.ext_get? ?_
  intro i
  by_cases hi : i < n + 1
  · rcases Nat.lt_trichotomy i (n - 1) with hlt | heq | hgt
    · -- untouched low position
      have h1 : (chainNodes n ++ [ListNode.new]).get? i = (chainNodes n).get? i :=
        List.get?_append (by rw [hlen]; omega)
      rw [List.get?_set_ne _ _ (show n ≠ i by omega),
        List.get?_set_ne _ _ (show n - 1 ≠ i by omega), h1,
        chainNodes_get? n i (by omega), chainNodes_get? (n + 1) i hi]
      congr 2
      rw [if_pos (by omega), if_pos (by omega)]
    · -- position n - 1
      rw [heq]
      rw [List.get?_set_ne _ _ (show n ≠ n - 1 by omega),
        List.get?_set_eq_of_lt _ (by simp [hlen]; omega),
        chainNodes_get? (n + 1) (n - 1) (by omega)]
      congr 2
      · rw [if_pos (by omega)]
        congr 1
        omega
    · -- position n (hgt together with hi forces i = n)
      have hieq : i = n := by omega
      rw [hieq, List.get?_set_eq_of_lt _ (by simp [hlen]),
        chainNodes_get? (n + 1) n (by omega)]
      simp [ListNode.new, hn]
  · -- out of range on both sides
    rw [List.get?_eq_none.mpr (by simp [hlen]; omega),
      List.get?_eq_none.mpr (by rw [chainNodes_length]; omega)]

theorem insert_last_builtState {α : Type} (es : List α) (x : α) (h : es.length + 1 < U32) :
    (builtState es).insert_last x = (ListIndex.fromNat es.length, builtState (es ++ [x])) := by
  by_cases hn0 : es.length = 0
  · obtain rfl : es = [] := List.length_eq_zero.mp hn0
    rfl
  · have hthisget : (ListIndex.fromNat es.length).get = some es.length :=
      ListIndex.fromNat_get h
    have hprevget : (ListIndex.fromNat (es.length - 1)).get = some (es.length - 1) :=
      ListIndex.fromNat_get (by omega)
    have hnn : (builtState es).new_node (some x) =
        (ListIndex.fromNat es.length,
          { elems := es.map some ++ [some x],
            nodes := chainNodes es.length ++ [ListNode.new],
            used := ⟨ListIndex.fromNat 0, ListIndex.fromNat (es.length - 1)⟩,
            free := ListEnds.new,
            size := es.length + 1 }) := by
      rw [IndexList.new_node]
      rw [if_neg (by simp [builtState, ListEnds.new, ListIndex.new, ListIndex.isSome])]
      simp [builtState, chainNodes_length, hn0]
    rw [IndexList.insert_last, hnn]
    simp only [Prod.mk.injEq, true_and]
    rw [IndexList.linkin_last]
    dsimp only
    rw [IndexList.set_next]
    rw [hprevget]
    dsimp only
    rw [IndexList.set_prev]
    rw [hthisget]
    dsimp only
    have hne : ({ head := ListIndex.fromNat 0, tail := ListIndex.fromNat (es.length - 1) }
        : ListEnds).is_empty = false := by
      rw [ListEnds.is_empty, ListIndex.fromNat_eq_of_lt (show 0 + 1 < U32 by norm_num [U32])]
      rfl
    rw [if_neg (by rw [hne]; exact Bool.false_ne_true)]
    rw [chainNodes_snoc es.length hn0]
    simp only [builtState, List.map_append, List.length_append, List.length_singleton,
      List.map_cons, List.map_nil, ListEnds.new_tail]
    refine IndexList.mk.injEq .. ▸ ?_
    refine ⟨rfl, rfl, ?_, rfl, rfl⟩
    have hx0 : ¬ es.length + 1 = 0 := by omega
    rw [if_neg hx0]
    simp

theorem fromVec_eq_builtState {α : Type} :
    ∀ es : List α, es.length + 1 < U32 → IndexList.fromVec es = builtState es := by
  intro es
  induction es using List.reverseRecOn with
  | nil => intro _; rfl
  | append_singleton es x ih =>
    intro h
    have hes : es.length + 1 < U32 := by
      rw [List.length_append, List.length_singleton] at h
      omega
    rw [IndexList.fromVec, List.foldl_append]
    rw [show List.foldl (fun acc e => (acc.insert_last e).2) IndexList.new es
        = IndexList.fromVec es from rfl, ih hes]
    rw [List.foldl_cons, List.foldl_nil, insert_last_builtState es x hes]

/-- **C10** (confirmed).  Inserting a sequence in order into a fresh list
(via `from`, `FromIterator` or repeated `insert_last`) stores the `i`-th
element in arena slot `i`: the whole resulting state is the closed-form
`builtState`; the `i`-th insertion returns the handle of slot `i`;
`get` of slot `i`'s handle yields the `i`-th element; `first_index` is
the handle of slot 0; and traversal order coincides with storage order
(`next_index` of slot `i` is slot `i+1`, and null at the last slot). -/
theorem C10_sequential_insertion :
    ∀ (α : Type) (es : List α), es.length + 1 < U32 →
      IndexList.fromVec es = builtState es ∧
      IndexList.fromIter es = builtState es ∧
      (∀ (i : Nat) (x : α), es.get? i = some x →
        (IndexList.fromVec (es.take i)).insert_last x =
          (ListIndex.fromNat i, IndexList.fromVec (es.take (i + 1)))) ∧
      (∀ (i : Nat) (x : α), es.get? i = some x →
        (IndexList.fromVec es).get (ListIndex.fromNat i) = some x) ∧
      (es ≠ [] → (IndexList.fromVec es).first_index = ListIndex.fromNat 0) ∧
      (∀ i : Nat, i + 1 < es.length →
        (IndexList.fromVec es).next_index (ListIndex.fromNat i) = ListIndex.fromNat (i + 1)) ∧
      (es ≠ [] →
        (IndexList.fromVec es).next_index (ListIndex.fromNat (es.length - 1)) = ListIndex.new) := by
  intro α es h
  have hmain : IndexList.fromVec es = builtState es := fromVec_eq_builtState es h
  have hlt_of_get : ∀ (i : Nat) (x : α), es.get? i = some x → i < es.length := by
    intro i x hx
    by_contra hcon
    rw [List.get?_eq_none.mpr (by omega)] at hx
    cases hx
  refine ⟨hmain, hmain, ?_, ?_, ?_, ?_, ?_⟩
  · intro i x hx
    have hilt := hlt_of_get i x hx
    have htklen : (es.take i).length = i := by
      rw [List.length_take]
      omega
    have htk : IndexList.fromVec (es.take i) = builtState (es.take i) :=
      fromVec_eq_builtState _ (by rw [htklen]; omega)
    have hsucc : es.take (i + 1) = es.take i ++ [x] := by
      rw [List.take_succ, ← List.get?_eq_getElem?, hx]
      rfl
    rw [htk, insert_last_builtState _ _ (by rw [htklen]; omega), htklen, hsucc,
      fromVec_eq_builtState (es.take i ++ [x])
        (by rw [List.length_append, htklen, List.length_singleton]; omega)]
  · intro i x hx
    have hilt := hlt_of_get i x hx
    rw [hmain, IndexList.get, ListIndex.fromNat_get (by omega)]
    simp only [Option.getD_some, builtState]
    rw [List.get?_map, hx]
    rfl
  · intro hne
    rw [hmain]
    simp only [builtState, IndexList.first_index]
    rw [if_neg (by simpa using hne)]
  · intro i hilt
    rw [hmain, IndexList.next_index, ListIndex.fromNat_get (by omega)]
    simp only [builtState]
    rw [chainNodes_get? es.length i (by omega)]
    simp only
    rw [if_pos hilt]
  · intro hne
    have hlen0 : es.length ≠ 0 := by simpa using hne
    rw [hmain, IndexList.next_index, ListIndex.fromNat_get (by omega)]
    simp only [builtState]
    rw [chainNodes_get? es.length (es.length - 1) (by omega)]
    simp only
    rw [if_neg (by omega)]

/-- **C10** witness: the theorem applied at the concrete list `[10, 20, 30]`. -/
theorem C10_witness :
    ([10, 20, 30] : List Nat).length + 1 < U32 ∧
    IndexList.fromVec [10, 20, 30] = builtState [10, 20, 30] ∧
    (IndexList.fromVec [10, 20, 30]).next_index (ListIndex.fromNat 0) = ListIndex.fromNat 1 :=
  ⟨by norm_num [U32],
    (C10_sequential_insertion Nat [10, 20, 30] (by norm_num [U32])).1,
    (C10_sequential_insertion Nat [10, 20, 30] (by norm_num [U32])).2.2.2.2.2.1 0
      (by norm_num)⟩

/-! ## Valid handle encodings

In Rust a `ListIndex` stores `Option<NonZeroU32>`, so the payload is
always in `[1, 2^32)`.  The model's `ndx : Option Nat` admits junk values
(`some 0`, or values `≥ 2^32`) that no Rust execution can produce;
`Valid` carves out the representable handles. -/


theorem ListIndex.valid_new : ListIndex.new.Valid := Or.inl rfl

theorem ListIndex.valid_fromNat {n : Nat} (h : n + 1 < U32) : (ListIndex.fromNat n).Valid :=
  Or.inr ⟨n, h, rfl⟩

theorem ListIndex.eq_fromNat_of_valid {i : ListIndex} {n : Nat} (hv : i.Valid)
    (hg : i.get = some n) : n + 1 < U32 ∧ i = ListIndex.fromNat n := by
  rcases hv with rfl | ⟨m, hm, rfl⟩
  · simp [ListIndex.new, ListIndex.get] at hg
  · rw [ListIndex.fromNat_get hm] at hg
    injection hg with hg
    subst hg
    exact ⟨hm, rfl⟩







theorem Wf.structInv {α : Type} {l : IndexList α} (h : Wf l) : StructInv l := by
  obtain ⟨us, fs, h1, h2, h3, h4, _, _, _⟩ := h
  exact ⟨us, fs, h1, h2, h3, h4⟩

theorem seg_append {nodes : List ListNode} :
    ∀ {A B : List Nat} {p i q j : ListIndex},
      Seg nodes p i (A ++ B) q j ↔
        ∃ q' j', Seg nodes p i A q' j' ∧ Seg nodes q' j' B q j := by
  intro A
  induction A with
  | nil =>
    intro B p i q j
    constructor
    · intro h
      exact ⟨p, i, ⟨rfl, rfl⟩, h⟩
    · rintro ⟨q', j', ⟨rfl, rfl⟩, h⟩
      exact h
  | cons a A ih =>
    intro B p i q j
    constructor
    · rintro ⟨h1, h2, h3, h4⟩
      obtain ⟨q', j', h5, h6⟩ := ih.mp h4
      exact ⟨q', j', ⟨h1, h2, h3, h5⟩, h6⟩
    · rintro ⟨q', j', ⟨h1, h2, h3, h4⟩, h5⟩
      exact ⟨h1, h2, h3, ih.mpr ⟨q', j', h4, h5⟩⟩

theorem seg_frame {nodes nodes' : List ListNode} :
    ∀ {us : List Nat} {p i q j : ListIndex},
      (∀ n ∈ us, n < nodes'.length ∧ nodes'.getD n default = nodes.getD n default) →
      Seg nodes p i us q j → Seg nodes' p i us q j := by
  intro us
  induction us with
  | nil => intro p i q j _ h; exact h
  | cons n rest ih =>
    intro p i q j hf h
    obtain ⟨h1, _, h3, h4⟩ := h
    obtain ⟨hb, heq⟩ := hf n (List.mem_cons_self _ _)
    refine ⟨h1, hb, by rw [heq]; exact h3, ?_⟩
    rw [heq]
    exact ih (fun m hm => hf m (List.mem_cons_of_mem _ hm)) h4

theorem seg_mem_bound {nodes : List ListNode} :
    ∀ {us : List Nat} {p i q j : ListIndex},
      Seg nodes p i us q j → ∀ n ∈ us, n < nodes.length := by
  intro us
  induction us with
  | nil => intro p i q j _ n hn; cases hn
  | cons m rest ih =>
    intro p i q j h n hn
    obtain ⟨_, h2, _, h4⟩ := h
    rcases List.mem_cons.mp hn with rfl | hn
    · exact h2
    · exact ih h4 n hn

/-- The back-pointer after a segment is the handle of its last slot. -/
theorem seg_q_eq {nodes : List ListNode} :
    ∀ {us : List Nat} {p i q j : ListIndex},
      Seg nodes p i us q j →
      q = (match us.getLast? with
           | none => p
           | some a => ListIndex.fromNat a) := by
  intro us
  induction us with
  | nil => intro p i q j h; exact h.1.symm
  | cons n rest ih =>
    intro p i q j h
    obtain ⟨_, _, _, h4⟩ := h
    have := ih h4
    cases hrest : rest with
    | nil =>
      rw [hrest] at this
      simpa using this
    | cons b bs =>
      rw [hrest] at this
      rw [List.getLast?_cons_cons]
      rw [← hrest] at this ⊢
      rw [this]
      cases hLast : rest.getLast? with
      | none =>
        rw [hrest] at hLast
        simp [List.getLast?] at hLast
      | some a => rfl

/-- The exit pointer of a segment is the `next` field of its last slot
(or the entry pointer when the segment is empty). -/
theorem seg_j_eq {nodes : List ListNode} :
    ∀ {us : List Nat} {p i q j : ListIndex},
      Seg nodes p i us q j →
      j = (match us.getLast? with
           | none => i
           | some a => (nodes.getD a default).next) := by
  intro us
  induction us with
  | nil => intro p i q j h; exact h.2.symm
  | cons n rest ih =>
    intro p i q j h
    obtain ⟨_, _, _, h4⟩ := h
    have := ih h4
    cases hrest : rest with
    | nil =>
      rw [hrest] at this
      simpa using this
    | cons b bs =>
      rw [hrest] at this
      rw [List.getLast?_cons_cons]
      rw [← hrest] at this ⊢
      rw [this]
      cases hLast : rest.getLast? with
      | none =>
        rw [hrest] at hLast
        simp [List.getLast?] at hLast
      | some a => rfl

/-- Changing only the `prev` field of a segment's first slot retargets
its entry back-pointer. -/
theorem seg_entry_retarget {nodes : List ListNode} {b : Nat} {B' : List Nat}
    {p i q j w : ListIndex} (hnd : b ∉ B')
    (h : Seg nodes p i (b :: B') q j) :
    Seg (nodes.set b ⟨(nodes.getD b default).next, w⟩) w i (b :: B') q j := by
  obtain ⟨h1, h2, h3, h4⟩ := h
  refine ⟨h1, by simpa using h2, ?_, ?_⟩
  · rw [List.getD_eq_get?, List.get?_set_eq_of_lt _ h2]
    rfl
  · have hgd : (nodes.set b ⟨(nodes.getD b default).next, w⟩).getD b default =
        ⟨(nodes.getD b default).next, w⟩ := by
      rw [List.getD_eq_get?, List.get?_set_eq_of_lt _ h2]
      rfl
    rw [hgd]
    dsimp only
    refine seg_frame ?_ h4
    intro m hm
    have hmb : m ≠ b := fun hcon => hnd (hcon ▸ hm)
    refine ⟨by simpa using seg_mem_bound h4 m hm, ?_⟩
    rw [List.getD_eq_get?, List.getD_eq_get?, List.get?_set_ne _ _ (fun hcon => hmb hcon.symm)]
    exact (List.getD_eq_get? _ _ _).symm

/-- Changing only the `next` field of a segment's last slot retargets its
exit pointer. -/
theorem seg_exit_retarget {nodes : List ListNode} :
    ∀ {A : List Nat} {a : Nat} {p i q j v : ListIndex},
      (A ++ [a]).Nodup →
      Seg nodes p i (A ++ [a]) q j →
      Seg (nodes.set a ⟨v, (nodes.getD a default).prev⟩) p i (A ++ [a]) q v := by
  intro A
  induction A with
  | nil =>
    intro a p i q j v _ h
    obtain ⟨h1, h2, h3, h4⟩ := h
    obtain ⟨h5, _⟩ := h4
    have hgd : (nodes.set a ⟨v, (nodes.getD a default).prev⟩).getD a default =
        ⟨v, (nodes.getD a default).prev⟩ := by
      rw [List.getD_eq_get?, List.get?_set_eq_of_lt _ h2]
      rfl
    refine ⟨h1, by simpa using h2, ?_, ?_⟩
    · rw [hgd]
      dsimp only
      exact h3
    · rw [hgd]
      dsimp only
      exact ⟨h5, rfl⟩
  | cons x A ih =>
    intro a p i q j v hnd h
    obtain ⟨h1, h2, h3, h4⟩ := h
    have hxa : x ≠ a := by
      have := (List.nodup_cons.mp hnd).1
      intro hcon
      exact this (by rw [hcon]; simp)
    have hgdx : (nodes.set a ⟨v, (nodes.getD a default).prev⟩).getD x default =
        nodes.getD x default := by
      rw [List.getD_eq_get?, List.getD_eq_get?, List.get?_set_ne _ _ (fun hcon => hxa hcon.symm)]
      exact (List.getD_eq_get? _ _ _).symm
    refine ⟨h1, by simpa using h2, by rw [hgdx]; exact h3, ?_⟩
    rw [hgdx]
    exact ih (List.nodup_cons.mp hnd).2 h4

namespace IndexList

variable {α : Type}

theorem set_next_of_get {l : IndexList α} {i : ListIndex} {n : Nat}
    (h : i.get = some n) (v : ListIndex) :
    l.set_next i v = ((l.nodes.getD n default).next,
      { l with nodes := l.nodes.set n ⟨v, (l.nodes.getD n default).prev⟩ }) := by
  rw [IndexList.set_next, h]

theorem set_next_of_none {l : IndexList α} {i : ListIndex}
    (h : i.get = none) (v : ListIndex) : l.set_next i v = (i, l) := by
  rw [IndexList.set_next, h]

theorem set_prev_of_get {l : IndexList α} {i : ListIndex} {n : Nat}
    (h : i.get = some n) (v : ListIndex) :
    l.set_prev i v = ((l.nodes.getD n default).prev,
      { l with nodes := l.nodes.set n ⟨(l.nodes.getD n default).next, v⟩ }) := by
  rw [IndexList.set_prev, h]

theorem set_prev_of_none {l : IndexList α} {i : ListIndex}
    (h : i.get = none) (v : ListIndex) : l.set_prev i v = (i, l) := by
  rw [IndexList.set_prev, h]

end IndexList

theorem new_get_none : (ListIndex.new).get = none := rfl

/-- Full computation of `linkout_node` at a representable in-range slot:
returns the slot's old `(prev, next)`, zeroes the slot's links, and
bridges the two old neighbours (when non-null). -/
theorem linkout_node_eq {α : Type} (l : IndexList α) {n : Nat} (hn : n + 1 < U32)
    (hlen : n < l.nodes.length) :
    l.linkout_node (ListIndex.fromNat n) =
      (((l.nodes.getD n default).prev, (l.nodes.getD n default).next),
       { l with nodes :=
          (match ((l.nodes.getD n default).prev).get with
           | some a =>
             (match ((l.nodes.getD n default).next).get with
              | some b =>
                ((l.nodes.set n ListNode.new).set b
                  ⟨((l.nodes.set n ListNode.new).getD b default).next,
                    (l.nodes.getD n default).prev⟩)
              | none => l.nodes.set n ListNode.new).set a
               ⟨(l.nodes.getD n default).next,
                 ((match ((l.nodes.getD n default).next).get with
                   | some b =>
                     ((l.nodes.set n ListNode.new).set b
                       ⟨((l.nodes.set n ListNode.new).getD b default).next,
                         (l.nodes.getD n default).prev⟩)
                   | none => l.nodes.set n ListNode.new).getD a default).prev⟩
           | none =>
             match ((l.nodes.getD n default).next).get with
             | some b =>
               ((l.nodes.set n ListNode.new).set b
                 ⟨((l.nodes.set n ListNode.new).getD b default).next,
                   (l.nodes.getD n default).prev⟩)
             | none => l.nodes.set n ListNode.new) }) := by
  have hget : (ListIndex.fromNat n).get = some n := ListIndex.fromNat_get hn
  rw [IndexList.linkout_node]
  try dsimp only
  rw [IndexList.set_next_of_get hget]
  try dsimp only
  rw [IndexList.set_prev_of_get hget]
  try dsimp only
  rw [getD_set_eq _ _ _ hlen]
  try dsimp only
  rw [List.set_set]
  have hnew : (⟨ListIndex.new, ListIndex.new⟩ : ListNode) = ListNode.new := rfl
  rw [hnew]
  cases hnext : ((l.nodes.getD n default).next).get with
  | none =>
    rw [IndexList.set_prev_of_none hnext]
    try dsimp only
    cases hprev : ((l.nodes.getD n default).prev).get with
    | none =>
      rw [IndexList.set_next_of_none hprev]
    | some a =>
      rw [IndexList.set_next_of_get hprev]
  | some b =>
    rw [IndexList.set_prev_of_get hnext]
    try dsimp only
    cases hprev : ((l.nodes.getD n default).prev).get with
    | none =>
      rw [IndexList.set_next_of_none hprev]
    | some a =>
      rw [IndexList.set_next_of_get hprev]

/-- Transporting a segment across an update to a slot outside it. -/
theorem seg_frame_set {nodes : List ListNode} {us : List Nat} {p i q j : ListIndex}
    {k : Nat} {v : ListNode} (hk : k ∉ us) (h : Seg nodes p i us q j) :
    Seg (nodes.set k v) p i us q j := by
  refine seg_frame ?_ h
  intro m hm
  refine ⟨by simpa using seg_mem_bound h m hm, getD_set_ne _ _ _ (fun hcon => hk (hcon ▸ hm))⟩

/-- The full effect of `linkout_node` on a chain containing the slot:
it returns the neighbouring handles, deletes the slot from the chain,
zeroes the slot's own links, and touches no other slot. -/
theorem linkout_node_spec {α : Type} (l : IndexList α) {A B : List Nat} {n : Nat}
    {h0 t0 : ListIndex}
    (hseg : Seg l.nodes ListIndex.new h0 (A ++ n :: B) t0 ListIndex.new)
    (hnd : (A ++ n :: B).Nodup)
    (hbig : l.nodes.length + 1 < U32) :
    (l.linkout_node (ListIndex.fromNat n)).1.1 =
      (match A.getLast? with
       | none => ListIndex.new
       | some a => ListIndex.fromNat a) ∧
    (l.linkout_node (ListIndex.fromNat n)).1.2 =
      (match B.head? with
       | none => ListIndex.new
       | some b => ListIndex.fromNat b) ∧
    Seg (l.linkout_node (ListIndex.fromNat n)).2.nodes ListIndex.new
      (if A = [] then (l.linkout_node (ListIndex.fromNat n)).1.2 else h0) (A ++ B)
      (if B = [] then (l.linkout_node (ListIndex.fromNat n)).1.1 else t0) ListIndex.new ∧
    (l.linkout_node (ListIndex.fromNat n)).2.nodes.length = l.nodes.length ∧
    (l.linkout_node (ListIndex.fromNat n)).2.nodes.getD n default = ListNode.new ∧
    (∀ m, m ∉ A ++ n :: B →
      (l.linkout_node (ListIndex.fromNat n)).2.nodes.getD m default
        = l.nodes.getD m default) := by
  obtain ⟨qA, iA, hA, hnB⟩ := seg_append.mp hseg
  obtain ⟨hiA, hnlen, hprevn, hB⟩ := hnB
  subst hiA
  have hn1 : n + 1 < U32 := by omega
  have hqA := seg_q_eq hA
  have hndA : A.Nodup := hnd.of_append_left
  have hndnB : (n :: B).Nodup := hnd.of_append_right
  have hnB_nodup : B.Nodup := (List.nodup_cons.mp hndnB).2
  have hnnotB : n ∉ B := (List.nodup_cons.mp hndnB).1
  have hdisj : A.Disjoint (n :: B) := List.disjoint_of_nodup_append hnd
  have hnnotA : n ∉ A := fun hmem => hdisj hmem (List.mem_cons_self _ _)
  rw [linkout_node_eq l hn1 hnlen]
  dsimp only
  rw [hprevn]
  cases B with
  | nil =>
    obtain ⟨hq, hj⟩ := hB
    rw [hj]
    simp only [new_get_none]
    rcases List.eq_nil_or_concat A with rfl | ⟨A', a, rfl⟩
    · -- A = [], B = []
      obtain ⟨hqnil, hh0⟩ := hA
      rw [← hqnil]
      simp only [new_get_none]
      refine ⟨rfl, rfl, ?_, by simp, getD_set_eq _ _ _ hnlen, ?_⟩
      · simp only [List.nil_append]
        exact ⟨rfl, rfl⟩
      · intro m hm
        have hmn : n ≠ m := by
          intro hcon
          exact hm (by rw [hcon]; simp)
        exact getD_set_ne _ _ _ hmn
    · -- A = A' ++ [a], B = []
      rw [List.concat_eq_append] at hqA hndA hnnotA hA hdisj ⊢
      rw [List.getLast?_concat] at hqA
      dsimp only at hqA
      rw [hqA]
      have haA : a ∈ A' ++ [a] := by simp
      have halen : a < l.nodes.length := seg_mem_bound hA a haA
      have ha1 : a + 1 < U32 := by omega
      rw [ListIndex.fromNat_get ha1]
      simp only
      have hane : a ≠ n := by
        intro hcon
        exact hnnotA (hcon ▸ haA)
      -- the A chain in the final nodes
      have hA2 : Seg (l.nodes.set n ListNode.new) ListIndex.new h0 (A' ++ [a]) qA
          (ListIndex.fromNat n) := seg_frame_set hnnotA hA
      have hA4 := seg_exit_retarget (v := ListIndex.new) hndA hA2
      refine ⟨by rw [List.getLast?_concat], rfl, ?_, by simp, ?_, ?_⟩
      · rw [hqA] at hA4
        simpa using hA4
      · rw [getD_set_ne _ _ _ hane, getD_set_eq _ _ _ hnlen]
      · intro m hm
        have hmn : n ≠ m := fun hcon => hm (by rw [← hcon]; simp)
        have hma : a ≠ m := fun hcon => hm (by rw [← hcon]; simp)
        rw [getD_set_ne _ _ _ hma, getD_set_ne _ _ _ hmn]
  | cons b B' =>
    obtain ⟨hbval, hblen, hbprev, hB'⟩ := hB
    rw [hbval]
    have hb1 : b + 1 < U32 := by omega
    rw [ListIndex.fromNat_get hb1]
    simp only
    have hbne : b ≠ n := by
      intro hcon
      exact hnnotB (by rw [← hcon]; simp)
    -- the B chain: transport to set-n, retarget entry to qA
    have hBfull : Seg l.nodes (ListIndex.fromNat n) (ListIndex.fromNat b) (b :: B') t0
        ListIndex.new := by
      rw [← hbval]
      exact ⟨hbval, hblen, hbprev, hB'⟩
    have hB2 : Seg (l.nodes.set n ListNode.new) (ListIndex.fromNat n) (ListIndex.fromNat b)
        (b :: B') t0 ListIndex.new := seg_frame_set hnnotB hBfull
    have hB3 := seg_entry_retarget (w := qA) (List.nodup_cons.mp hnB_nodup).1 hB2
    rcases List.eq_nil_or_concat A with rfl | ⟨A', a, rfl⟩
    · -- A = [], B = b :: B'
      obtain ⟨hqnil, hh0⟩ := hA
      rw [← hqnil]
      simp only [new_get_none]
      refine ⟨rfl, rfl, ?_, by simp, ?_, ?_⟩
      · rw [List.nil_append]
        rw [← hqnil] at hB3
        exact hB3
      · rw [getD_set_ne _ _ _ hbne, getD_set_eq _ _ _ hnlen]
      · intro m hm
        have hmn : n ≠ m := fun hcon => hm (by rw [← hcon]; simp)
        have hmb : b ≠ m := fun hcon => hm (by rw [← hcon]; simp)
        rw [getD_set_ne _ _ _ hmb, getD_set_ne _ _ _ hmn]
    · -- A = A' ++ [a], B = b :: B'
      rw [List.concat_eq_append] at hqA hndA hnnotA hA hdisj ⊢
      rw [List.getLast?_concat] at hqA
      dsimp only at hqA
      rw [hqA]
      have haA : a ∈ A' ++ [a] := by simp
      have halen : a < l.nodes.length := seg_mem_bound hA a haA
      have ha1 : a + 1 < U32 := by omega
      rw [ListIndex.fromNat_get ha1]
      simp only
      have hane : a ≠ n := fun hcon => hnnotA (hcon ▸ haA)
      have hab : a ≠ b := by
        intro hcon
        exact hdisj haA (by rw [hcon]; simp)
      -- A chain: frame across set-n and set-b, then retarget exit
      have hA2 : Seg (l.nodes.set n ListNode.new) ListIndex.new h0 (A' ++ [a]) qA
          (ListIndex.fromNat n) := seg_frame_set hnnotA hA
      have hA3 : Seg ((l.nodes.set n ListNode.new).set b
          ⟨((l.nodes.set n ListNode.new).getD b default).next, qA⟩) ListIndex.new h0
          (A' ++ [a]) qA (ListIndex.fromNat n) := by
        refine seg_frame_set ?_ hA2
        intro hmem
        exact hdisj hmem (by simp)
      have hA4 := seg_exit_retarget (v := ListIndex.fromNat b) hndA hA3
      -- B chain: frame across set-a
      have hB4 : Seg (((l.nodes.set n ListNode.new).set b
            ⟨((l.nodes.set n ListNode.new).getD b default).next, qA⟩).set a
            ⟨ListIndex.fromNat b,
              (((l.nodes.set n ListNode.new).set b
                ⟨((l.nodes.set n ListNode.new).getD b default).next, qA⟩).getD a
                default).prev⟩) qA (ListIndex.fromNat b) (b :: B') t0 ListIndex.new := by
        refine seg_frame_set ?_ hB3
        intro hmem
        exact hdisj haA (List.mem_cons_of_mem _ hmem)
      refine ⟨by rw [List.getLast?_concat], rfl, ?_, by simp, ?_, ?_⟩
      · rw [hqA] at hA4 hB4
        have hjoin := seg_append.mpr ⟨ListIndex.fromNat a, ListIndex.fromNat b, hA4, hB4⟩
        simpa using hjoin
      · rw [getD_set_ne _ _ _ hane, getD_set_ne _ _ _ hbne, getD_set_eq _ _ _ hnlen]
      · intro m hm
        have hmn : n ≠ m := fun hcon => hm (by rw [← hcon]; simp)
        have hmb : b ≠ m := fun hcon => hm (by rw [← hcon]; simp)
        have hma : a ≠ m := fun hcon => hm (by rw [← hcon]; simp)
        rw [getD_set_ne _ _ _ hma, getD_set_ne _ _ _ hmb, getD_set_ne _ _ _ hmn]

/-! ## The traversal cycle (claims C2 and C8)

On a well-formed used chain `us`, `next_index` steps forward through the
handles `fromNat us₀, …, fromNat us_{m-1}, null` and then wraps back to
the front (because `next_index(null) = first_index()`); `prev_index`
steps backward the same cycle. -/



theorem cycleOf_length (us : List Nat) : (cycleOf us).length = us.length + 1 := by
  simp [cycleOf]

theorem map_getD_lt {beta gamma : Type} (f : beta → gamma) (d : beta) (d' : gamma) :
    ∀ (l : List beta) (k : Nat), k < l.length → (l.map f).getD k d' = f (l.getD k d)
  | [], k, hk => absurd hk (by simp)
  | x :: xs, 0, _ => rfl
  | x :: xs, k + 1, hk => map_getD_lt f d d' xs k (by simpa using hk)

theorem getD_mem {beta : Type} {l : List beta} {k : Nat} (d : beta) (hk : k < l.length) :
    l.getD k d ∈ l := by
  rw [List.getD_eq_get l d hk]
  exact List.get_mem l _ _

/-- The entry handle of a segment is the head of its handle cycle. -/
theorem seg_head_eq {nodes : List ListNode} {us : List Nat} {p i q j : ListIndex}
    (h : Seg nodes p i us q j) :
    i = (us.map ListIndex.fromNat ++ [j]).getD 0 ListIndex.new := by
  cases us with
  | nil => exact h.2
  | cons n rest => exact h.1

/-- The `next` field of the `k`-th slot of a segment is the `k+1`-st
handle of its cycle (the exit pointer after the last slot). -/
theorem seg_next_nth {nodes : List ListNode} :
    ∀ {us : List Nat} {p i q j : ListIndex}, Seg nodes p i us q j →
      ∀ k, k < us.length →
      (nodes.getD (us.getD k 0) default).next
        = (us.map ListIndex.fromNat ++ [j]).getD (k + 1) ListIndex.new := by
  intro us
  induction us with
  | nil => intro p i q j _ k hk; exact absurd hk (by simp)
  | cons n rest ih =>
    intro p i q j h k hk
    obtain ⟨h1, h2, h3, h4⟩ := h
    cases k with
    | zero => simpa using seg_head_eq h4
    | succ k' =>
      have hk' : k' < rest.length := by simpa using hk
      simpa using ih h4 k' hk'

/-- The `prev` field of the `k`-th slot of a segment is the `k-1`-st
handle of its cycle (the entry back-pointer before the first slot). -/
theorem seg_prev_nth {nodes : List ListNode} :
    ∀ {us : List Nat} {p i q j : ListIndex}, Seg nodes p i us q j →
      ∀ k, k < us.length →
      (nodes.getD (us.getD k 0) default).prev
        = (p :: us.map ListIndex.fromNat).getD k ListIndex.new := by
  intro us
  induction us with
  | nil => intro p i q j _ k hk; exact absurd hk (by simp)
  | cons n rest ih =>
    intro p i q j h k hk
    obtain ⟨h1, h2, h3, h4⟩ := h
    cases k with
    | zero => simpa using h3
    | succ k' =>
      have hk' : k' < rest.length := by simpa using hk
      simpa using ih h4 k' hk'

/-- `next_index` advances one position along the cycle, wrapping. -/
theorem next_index_cycle {α : Type} {l : IndexList α} {us : List Nat}
    (hE : EndsOk l.nodes l.used us) (hbig : l.nodes.length + 1 < U32)
    {k : Nat} (hk : k < us.length + 1) :
    l.next_index ((cycleOf us).getD k ListIndex.new)
      = (cycleOf us).getD ((k + 1) % (us.length + 1)) ListIndex.new := by
  rcases Nat.lt_or_ge k us.length with hlt | hge
  · have hmem : us.getD k 0 ∈ us := getD_mem 0 hlt
    have hb : us.getD k 0 < l.nodes.length := seg_mem_bound hE _ hmem
    have h1 : us.getD k 0 + 1 < U32 := by omega
    have hcyck : (cycleOf us).getD k ListIndex.new = ListIndex.fromNat (us.getD k 0) := by
      unfold cycleOf
      rw [List.getD_append _ _ _ _ (by simpa using hlt)]
      exact map_getD_lt _ 0 _ us k hlt
    rw [hcyck]
    simp only [IndexList.next_index, ListIndex.fromNat_get h1,
      get?_some_of_lt _ default hb]
    rw [seg_next_nth hE k hlt, Nat.mod_eq_of_lt (by omega)]
    rfl
  · have hkeq : k = us.length := by omega
    subst hkeq
    have hcyck : (cycleOf us).getD us.length ListIndex.new = ListIndex.new := by
      unfold cycleOf
      rw [List.getD_append_right _ _ _ _ (by simp)]
      simp
    rw [hcyck]
    have hstep : l.next_index ListIndex.new = l.first_index := rfl
    rw [hstep, Nat.mod_self]
    exact seg_head_eq hE

/-- `prev_index` retreats one position along the cycle, wrapping. -/
theorem prev_index_cycle {α : Type} {l : IndexList α} {us : List Nat}
    (hE : EndsOk l.nodes l.used us) (hbig : l.nodes.length + 1 < U32)
    {k : Nat} (hk : k < us.length + 1) :
    l.prev_index ((cycleOf us).getD k ListIndex.new)
      = (cycleOf us).getD ((k + us.length) % (us.length + 1)) ListIndex.new := by
  rcases Nat.lt_or_ge k us.length with hlt | hge
  · have hmem : us.getD k 0 ∈ us := getD_mem 0 hlt
    have hb : us.getD k 0 < l.nodes.length := seg_mem_bound hE _ hmem
    have h1 : us.getD k 0 + 1 < U32 := by omega
    have hcyck : (cycleOf us).getD k ListIndex.new = ListIndex.fromNat (us.getD k 0) := by
      unfold cycleOf
      rw [List.getD_append _ _ _ _ (by simpa using hlt)]
      exact map_getD_lt _ 0 _ us k hlt
    rw [hcyck]
    simp only [IndexList.prev_index, ListIndex.fromNat_get h1,
      get?_some_of_lt _ default hb]
    rw [seg_prev_nth hE k hlt]
    cases k with
    | zero =>
      have hmod : (0 + us.length) % (us.length + 1) = us.length := by
        rw [Nat.zero_add]
        exact Nat.mod_eq_of_lt (by omega)
      rw [hmod]
      unfold cycleOf
      rw [List.getD_append_right _ _ _ _ (by simp)]
      simp
    | succ k' =>
      have hmod : (k' + 1 + us.length) % (us.length + 1) = k' := by
        have h2 : k' + 1 + us.length = k' + 1 * (us.length + 1) := by ring
        rw [h2, Nat.add_mul_mod_self_right]
        exact Nat.mod_eq_of_lt (by omega)
      rw [hmod, List.getD_cons_succ]
      unfold cycleOf
      rw [List.getD_append _ _ _ _ (by simp; omega)]
  · have hkeq : k = us.length := by omega
    subst hkeq
    have hcyck : (cycleOf us).getD us.length ListIndex.new = ListIndex.new := by
      unfold cycleOf
      rw [List.getD_append_right _ _ _ _ (by simp)]
      simp
    rw [hcyck]
    have hstep : l.prev_index ListIndex.new = l.last_index := rfl
    rw [hstep]
    rcases Nat.eq_zero_or_pos us.length with hzero | hpos
    · have husnil : us = [] := List.length_eq_zero.mp hzero
      subst husnil
      have htail : l.used.tail = ListIndex.new := hE.1.symm
      simpa [cycleOf, IndexList.last_index] using htail
    · have hq := seg_q_eq hE
      have hlast : us.getLast? = us.get? (us.length - 1) := List.getLast?_eq_get? us
      have hlt1 : us.length - 1 < us.length := by omega
      have hget : us.get? (us.length - 1) = some (us.getD (us.length - 1) 0) := by
        rw [List.get?_eq_getElem?]
        rw [List.getD_eq_getElem?_getD]
        cases hx : us[us.length - 1]? with
        | none =>
          rw [List.getElem?_eq_none_iff] at hx
          omega
        | some v => rfl
      have hsome : us.getLast? = some (us.getD (us.length - 1) 0) := by
        rw [hlast]; exact hget
      rw [hsome] at hq
      have hmod : (us.length + us.length) % (us.length + 1) = us.length - 1 := by
        have h2 : us.length + us.length = (us.length - 1) + 1 * (us.length + 1) := by
          ring_nf; omega
        rw [h2, Nat.add_mul_mod_self_right]
        exact Nat.mod_eq_of_lt (by omega)
      have hlast_ix : l.last_index = l.used.tail := rfl
      rw [hmod, hlast_ix, hq]
      unfold cycleOf
      rw [List.getD_append _ _ _ _ (by simpa using hlt1)]
      rw [map_getD_lt _ 0 _ us _ hlt1]

/-- Iterating `next_index` `s` times moves `s` positions forward on the
cycle, modulo its length. -/
theorem stepNext_cycle {α : Type} {l : IndexList α} {us : List Nat}
    (hE : EndsOk l.nodes l.used us) (hbig : l.nodes.length + 1 < U32) :
    ∀ (s k : Nat), k < us.length + 1 →
    l.stepNext s ((cycleOf us).getD k ListIndex.new)
      = (cycleOf us).getD ((k + s) % (us.length + 1)) ListIndex.new := by
  intro s
  induction s with
  | zero =>
    intro k hk
    rw [Nat.add_zero, Nat.mod_eq_of_lt hk]
    rfl
  | succ s ih =>
    intro k hk
    show l.stepNext s (l.next_index _) = _
    rw [next_index_cycle hE hbig hk]
    rw [ih _ (Nat.mod_lt _ (by omega))]
    rw [Nat.mod_add_mod]
    have h3 : k + 1 + s = k + (s + 1) := by omega
    rw [h3]

/-- Iterating `prev_index` `s` times moves `s` positions backward on the
cycle: backward means adding `us.length` (≡ −1) per step. -/
theorem stepPrev_cycle {α : Type} {l : IndexList α} {us : List Nat}
    (hE : EndsOk l.nodes l.used us) (hbig : l.nodes.length + 1 < U32) :
    ∀ (s k : Nat), k < us.length + 1 →
    l.stepPrev s ((cycleOf us).getD k ListIndex.new)
      = (cycleOf us).getD ((k + s * us.length) % (us.length + 1)) ListIndex.new := by
  intro s
  induction s with
  | zero =>
    intro k hk
    rw [Nat.zero_mul, Nat.add_zero, Nat.mod_eq_of_lt hk]
    rfl
  | succ s ih =>
    intro k hk
    show l.stepPrev s (l.prev_index _) = _
    rw [prev_index_cycle hE hbig hk]
    rw [ih _ (Nat.mod_lt _ (by omega))]
    rw [Nat.mod_add_mod]
    have h3 : k + us.length + s * us.length = k + (s + 1) * us.length := by ring
    rw [h3]

/-- **C2 (amended)**: on a list whose used chain is the well-formed slot
sequence `us`, `move_index` acts on the handle cycle
`[fromNat us₀, …, fromNat us_{m-1}, null]` as addition of `steps` modulo
`m + 1` for every `i32` value of `steps` except `i32::MIN`: the walk
passes through the null handle and wraps back into the list instead of
stopping at the ends.  At `steps = i32::MIN` the wrapping negation of
release mode makes the backward loop `(0..-steps)` empty, so the handle
is returned unchanged. -/
theorem C2_move_index_amended {α : Type} {l : IndexList α} {us : List Nat}
    (hE : EndsOk l.nodes l.used us) (hbig : l.nodes.length + 1 < U32)
    {k : Nat} (hk : k < us.length + 1) (steps : Int)
    (hlo : -2147483648 ≤ steps) (hhi : steps < 2147483648) :
    (steps ≠ -2147483648 →
      l.move_index ((cycleOf us).getD k ListIndex.new) steps
        = (cycleOf us).getD
            (((k : Int) + steps).emod ((us.length : Int) + 1)).toNat ListIndex.new) ∧
    (steps = -2147483648 →
      l.move_index ((cycleOf us).getD k ListIndex.new) steps
        = (cycleOf us).getD k ListIndex.new) := by
  constructor
  · intro hne
    unfold IndexList.move_index
    split
    · rename_i hpos
      rw [stepNext_cycle hE hbig _ _ hk]
      congr 1
      have h1 : (k : Int) + steps = ((k + steps.toNat : Nat) : Int) := by
        push_cast
        omega
      rw [h1]
      have h2 : ((us.length : Int) + 1) = ((us.length + 1 : Nat) : Int) := by push_cast; ring
      rw [h2]
      show _ = ((((k + steps.toNat : Nat) : Int)) % (((us.length + 1 : Nat) : Int))).toNat
      rw [← Int.natCast_mod, Int.toNat_natCast]
    · split
      · rename_i hnpos hneg
        have hwrap : (-steps + 2147483648) % 4294967296 - 2147483648 = -steps := by
          omega
        rw [hwrap, stepPrev_cycle hE hbig _ _ hk]
        congr 1
        have hs : (((-steps).toNat : Nat) : Int) = -steps := Int.toNat_of_nonneg (by omega)
        have h1 : ((k + (-steps).toNat * us.length : Nat) : Int)
            = ((k : Int) + steps) + (-steps) * ((us.length : Int) + 1) := by
          push_cast
          rw [hs]
          ring
        have h2 : (((k : Int) + steps).emod ((us.length : Int) + 1))
            = ((k + (-steps).toNat * us.length : Nat) : Int).emod ((us.length : Int) + 1) := by
          rw [h1]
          exact (Int.add_mul_emod_self).symm
        rw [h2]
        have h3 : ((us.length : Int) + 1) = ((us.length + 1 : Nat) : Int) := by push_cast; ring
        rw [h3]
        show _ = ((((k + (-steps).toNat * us.length : Nat) : Int))
          % (((us.length + 1 : Nat) : Int))).toNat
        rw [← Int.natCast_mod, Int.toNat_natCast]
      · rename_i hnpos hnneg
        have hz : steps = 0 := by omega
        subst hz
        have h1 : ((k : Int) + 0).emod ((us.length : Int) + 1) = (k : Int) := by
          rw [Int.add_zero]
          exact Int.emod_eq_of_lt (by omega) (by push_cast; omega)
        rw [h1]
        rfl
  · intro heq
    subst heq
    unfold IndexList.move_index
    rw [if_neg (show ¬((0 : Int) < -2147483648) by omega),
      if_pos (show (-2147483648 : Int) < 0 by omega)]
    have hzero : ((-(-2147483648 : Int) + 2147483648) % 4294967296 - 2147483648).toNat
        = 0 := by decide
    rw [hzero]
    rfl

/-- Witness for the amended C2 at concrete inputs: on the one-element
list `[7]` (used chain `[0]`), three forward steps from the first handle
wrap through null back to the first handle, while `i32::MIN` backward
steps return the handle unchanged. -/
theorem C2_amended_witness :
    EndsOk (IndexList.fromVec [7]).nodes (IndexList.fromVec [7]).used [0] ∧
    (IndexList.fromVec [7]).nodes.length + 1 < U32 ∧
    (IndexList.fromVec [7]).move_index ((cycleOf [0]).getD 0 ListIndex.new) 3
      = (cycleOf [0]).getD (((0 : Int) + 3).emod (((0 : Nat) :: []).length + 1)).toNat
          ListIndex.new ∧
    (IndexList.fromVec [7]).move_index ((cycleOf [0]).getD 0 ListIndex.new) (-2147483648)
      = (cycleOf [0]).getD 0 ListIndex.new :=
  ⟨by decide, by decide,
    (C2_move_index_amended (l := IndexList.fromVec [7]) (by decide) (by decide)
      (k := 0) (by decide) 3 (by decide) (by decide)).1 (by decide),
    (C2_move_index_amended (l := IndexList.fromVec [7]) (by decide) (by decide)
      (k := 0) (by decide) (-2147483648) (by decide) (by decide)).2 rfl⟩

/-! ## The read iterator (claim C8)

`runIter` drives the iterator under an arbitrary interleaving of
forward (`true`) and backward (`false`) calls, collecting the yields;
`takeTwoEnded` is the ideal two-ended consumption of a value sequence.
C8 states that the iterator refines the ideal consumption. -/



theorem takeTwoEnded_nil {α : Type} : ∀ ds : List Bool, takeTwoEnded ([] : List α) ds = []
  | [] => rfl
  | true :: _ => rfl
  | false :: _ => rfl

theorem takeTwoEnded_cons_true {α : Type} (v : α) (X : List α) (ds : List Bool) :
    takeTwoEnded (v :: X) (true :: ds) = v :: takeTwoEnded X ds := rfl

theorem takeTwoEnded_concat_false {α : Type} (v : α) (X : List α) (ds : List Bool) :
    takeTwoEnded (X ++ [v]) (false :: ds) = v :: takeTwoEnded X ds := by
  show (match (X ++ [v]).getLast? with
        | none => []
        | some w => w :: takeTwoEnded (X ++ [v]).dropLast ds) = _
  simp only [List.getLast?_concat, List.dropLast_concat]

/-- The two-ended consumption yields `min` of the supply and the demand. -/
theorem takeTwoEnded_length {α : Type} :
    ∀ (ds : List Bool) (vs : List α),
    (takeTwoEnded vs ds).length = min vs.length ds.length := by
  intro ds
  induction ds with
  | nil => intro vs; simp [takeTwoEnded]
  | cons d ds ih =>
    intro vs
    rcases List.eq_nil_or_concat vs with rfl | ⟨X, v, rfl⟩
    · rw [takeTwoEnded_nil]
      simp
    · rw [List.concat_eq_append]
      cases d with
      | true =>
        cases X with
        | nil =>
          rw [List.nil_append, takeTwoEnded_cons_true]
          simp [ih, takeTwoEnded_nil]
        | cons x X' =>
          rw [List.cons_append, takeTwoEnded_cons_true]
          simp only [List.length_cons, ih]
          simp only [List.length_append, List.length_cons, List.length_nil]
          omega
      | false =>
        rw [takeTwoEnded_concat_false]
        simp only [List.length_cons, ih]
        simp only [List.length_append, List.length_cons, List.length_nil]
        omega

theorem drop_take_front {α : Type} {vs : List α} {a b : Nat} (hab : a < b) (hb : b ≤ vs.length) :
    ∃ v, vs.get? a = some v ∧
      (vs.drop a).take (b - a) = v :: ((vs.drop (a + 1)).take (b - (a + 1))) := by
  have ha : a < vs.length := by omega
  refine ⟨vs.get ⟨a, ha⟩, ?_, ?_⟩
  · rw [List.get?_eq_getElem?]
    exact List.getElem?_eq_getElem ha
  · rw [List.drop_eq_getElem_cons ha]
    have h1 : b - a = (b - (a + 1)) + 1 := by omega
    rw [h1]
    rfl

theorem drop_take_back {α : Type} {vs : List α} {a b : Nat} (hab : a < b) (hb : b ≤ vs.length) :
    ∃ v, vs.get? (b - 1) = some v ∧
      (vs.drop a).take (b - a) = ((vs.drop a).take (b - 1 - a)) ++ [v] := by
  have hb1 : b - 1 < vs.length := by omega
  refine ⟨vs.get ⟨b - 1, hb1⟩, ?_, ?_⟩
  · rw [List.get?_eq_getElem?]
    exact List.getElem?_eq_getElem hb1
  · have h1 : b - a = (b - 1 - a) + 1 := by omega
    rw [h1, List.take_succ]
    congr 1
    have h2 : (vs.drop a)[b - 1 - a]? = some (vs.get ⟨b - 1, hb1⟩) := by
      rw [List.getElem?_drop]
      have h3 : a + (b - 1 - a) = b - 1 := by omega
      rw [h3]
      exact List.getElem?_eq_getElem hb1
    rw [h2]
    rfl

theorem nodup_getD_inj {l : List Nat} (hnd : l.Nodup) {i j : Nat} (hi : i < l.length)
    (hj : j < l.length) (heq : l.getD i 0 = l.getD j 0) : i = j := by
  rw [List.getD_eq_get _ _ hi, List.getD_eq_get _ _ hj] at heq
  have h := (hnd.get_inj_iff).mp heq
  exact congrArg Fin.val h

theorem get_new_eq_none {α : Type} (l : IndexList α) (hlen : l.elems.length ≤ USIZEMAX) :
    l.get ListIndex.new = none := by
  show (l.elems.get? ((ListIndex.new.get).getD USIZEMAX)).bind id = none
  show (l.elems.get? USIZEMAX).bind id = none
  rw [List.get?_eq_getElem?, List.getElem?_eq_none hlen]
  rfl

theorem get_slot {α : Type} {l : IndexList α} {n : Nat} (hn1 : n + 1 < U32)
    (hlt : n < l.elems.length) :
    l.get (ListIndex.fromNat n) = l.elems.getD n none := by
  show (l.elems.get? (((ListIndex.fromNat n).get).getD USIZEMAX)).bind id = _
  rw [ListIndex.fromNat_get hn1]
  show (l.elems.get? n).bind id = _
  rw [get?_some_of_lt _ none hlt]
  rfl

theorem chain_val {α : Type} {l : IndexList α} {us : List Nat} {vs : List α}
    (hvals : us.map (fun n => l.elems.getD n none) = vs.map some)
    {k : Nat} (hk : k < us.length) :
    ∃ v, vs.get? k = some v ∧ l.elems.getD (us.getD k 0) none = some v := by
  have hlen : vs.length = us.length := by
    have h := congrArg List.length hvals
    simpa using h.symm
  have h := congrArg (fun t => t.get? k) hvals
  simp only [List.get?_map] at h
  rw [get?_some_of_lt us 0 hk] at h
  cases hv : vs.get? k with
  | none =>
    rw [List.get?_eq_none] at hv
    omega
  | some v =>
    rw [hv] at h
    simp only [Option.map_some'] at h
    exact ⟨v, rfl, by injection h⟩

/-- The iterator refinement: from a cursor state covering positions
`[a, b)` of the used chain (or the cleared state when `a = b`), driving
the iterator yields exactly the ideal two-ended consumption of the
corresponding value segment. -/
theorem runIter_spec {α : Type} {l : IndexList α} {us : List Nat} {vs : List α}
    (hE : EndsOk l.nodes l.used us) (hnd : us.Nodup)
    (hbig : l.nodes.length + 1 < U32) (helems : l.nodes.length = l.elems.length)
    (hvals : us.map (fun n => l.elems.getD n none) = vs.map some) :
    ∀ (ds : List Bool) (a b : Nat) (it : ListIter), b ≤ us.length →
    ((a < b ∧ it = ⟨ListIndex.fromNat (us.getD a 0), ListIndex.fromNat (us.getD (b - 1) 0),
        b - a⟩)
      ∨ (a = b ∧ it = ⟨ListIndex.new, ListIndex.new, 0⟩)) →
    runIter l it ds = takeTwoEnded ((vs.drop a).take (b - a)) ds := by
  have hU32 : U32 = 4294967296 := rfl
  have hUSZ : USIZEMAX = 18446744073709551615 := rfl
  have hlenvs : vs.length = us.length := by
    have h := congrArg List.length hvals
    simpa using h.symm
  have hgetnew : l.get ListIndex.new = none := by
    refine get_new_eq_none l ?_
    omega
  intro ds
  induction ds with
  | nil =>
    intro a b it hb hinv
    rfl
  | cons d ds ih =>
    intro a b it hb hinv
    rcases hinv with ⟨hab, hit⟩ | ⟨hab, hit⟩
    · subst hit
      have ha_m : a < us.length := by omega
      have hb1_m : b - 1 < us.length := by omega
      have hbound_a : us.getD a 0 < l.nodes.length := seg_mem_bound hE _ (getD_mem 0 ha_m)
      have hbound_b : us.getD (b - 1) 0 < l.nodes.length :=
        seg_mem_bound hE _ (getD_mem 0 hb1_m)
      have ha1 : us.getD a 0 + 1 < U32 := by omega
      have hb1 : us.getD (b - 1) 0 + 1 < U32 := by omega
      obtain ⟨va, hva_get, hva⟩ := chain_val hvals ha_m
      obtain ⟨vb, hvb_get, hvb⟩ := chain_val hvals hb1_m
      have hgeta : l.get (ListIndex.fromNat (us.getD a 0)) = some va := by
        rw [get_slot ha1 (by omega), hva]
      have hgetb : l.get (ListIndex.fromNat (us.getD (b - 1) 0)) = some vb := by
        rw [get_slot hb1 (by omega), hvb]
      cases d with
      | true =>
        obtain ⟨v, hvget, hseg⟩ := @drop_take_front _ vs _ _ (show a < b from hab) (by omega)
        have hvva : v = va := by
          rw [hvget] at hva_get
          injection hva_get
        rcases Nat.lt_or_ge a (b - 1) with hlt2 | hge2
        · -- two or more elements remain: the start cursor advances
          have hne : ListIndex.fromNat (us.getD a 0)
              ≠ ListIndex.fromNat (us.getD (b - 1) 0) := by
            intro hcon
            have h := nodup_getD_inj hnd ha_m hb1_m ((ListIndex.fromNat_inj ha1 hb1).mp hcon)
            omega
          have ha1m : a + 1 < us.length := by omega
          have hnext : l.next_index (ListIndex.fromNat (us.getD a 0))
              = ListIndex.fromNat (us.getD (a + 1) 0) := by
            simp only [IndexList.next_index, ListIndex.fromNat_get ha1,
              get?_some_of_lt _ default hbound_a]
            rw [seg_next_nth hE a ha_m]
            rw [List.getD_append _ _ _ _ (by simpa using ha1m)]
            rw [map_getD_lt _ 0 _ us _ ha1m]
          have hstep : ListIter.next l ⟨ListIndex.fromNat (us.getD a 0),
              ListIndex.fromNat (us.getD (b - 1) 0), b - a⟩
              = (some va, ⟨ListIndex.fromNat (us.getD (a + 1) 0),
                  ListIndex.fromNat (us.getD (b - 1) 0), b - (a + 1)⟩) := by
            simp only [ListIter.next, hgeta]
            rw [if_neg hne]
            rw [hnext]
            have hlen1 : b - a - 1 = b - (a + 1) := by omega
            rw [hlen1]
          show runIter l _ (true :: ds) = _
          simp only [runIter, hstep]
          rw [hseg, takeTwoEnded_cons_true, hvva]
          congr 1
          exact ih (a + 1) b _ hb (Or.inl ⟨by omega, rfl⟩)
        · -- exactly one element remains: the cursors have met
          have haeq : a = b - 1 := by omega
          have heq : ListIndex.fromNat (us.getD a 0)
              = ListIndex.fromNat (us.getD (b - 1) 0) := by rw [haeq]
          have hstep : ListIter.next l ⟨ListIndex.fromNat (us.getD a 0),
              ListIndex.fromNat (us.getD (b - 1) 0), b - a⟩
              = (some va, ⟨ListIndex.new, ListIndex.new, 0⟩) := by
            simp only [ListIter.next, hgeta]
            rw [if_pos heq]
            rfl
          show runIter l _ (true :: ds) = _
          simp only [runIter, hstep]
          rw [hseg, takeTwoEnded_cons_true, hvva]
          congr 1
          have htail : (vs.drop (a + 1)).take (b - (a + 1)) = [] := by
            have hz : b - (a + 1) = 0 := by omega
            rw [hz, List.take_zero]
          rw [htail, takeTwoEnded_nil]
          have h0 : (vs.drop b).take (b - b) = [] := by
            rw [Nat.sub_self, List.take_zero]
          have h := ih b b _ hb (Or.inr ⟨rfl, rfl⟩)
          rw [h0, takeTwoEnded_nil] at h
          exact h
      | false =>
        obtain ⟨v, hvget, hseg⟩ := @drop_take_back _ vs _ _ (show a < b from hab) (by omega)
        have hvvb : v = vb := by
          rw [hvget] at hvb_get
          injection hvb_get
        rcases Nat.lt_or_ge a (b - 1) with hlt2 | hge2
        · -- two or more elements remain: the back cursor retreats
          have hne : ListIndex.fromNat (us.getD a 0)
              ≠ ListIndex.fromNat (us.getD (b - 1) 0) := by
            intro hcon
            have h := nodup_getD_inj hnd ha_m hb1_m ((ListIndex.fromNat_inj ha1 hb1).mp hcon)
            omega
          have hb2_m : b - 1 - 1 < us.length := by omega
          have hprev : l.prev_index (ListIndex.fromNat (us.getD (b - 1) 0))
              = ListIndex.fromNat (us.getD (b - 1 - 1) 0) := by
            simp only [IndexList.prev_index, ListIndex.fromNat_get hb1,
              get?_some_of_lt _ default hbound_b]
            rw [seg_prev_nth hE (b - 1) hb1_m]
            have hcons : (ListIndex.new :: us.map ListIndex.fromNat).getD (b - 1) ListIndex.new
                = (us.map ListIndex.fromNat).getD (b - 1 - 1) ListIndex.new := by
              cases hbb : b - 1 with
              | zero => omega
              | succ c =>
                rw [List.getD_cons_succ]
                exact congrArg (fun k => (us.map ListIndex.fromNat).getD k ListIndex.new)
                  (by omega)
            rw [hcons]
            rw [map_getD_lt _ 0 _ us _ (by omega)]
          have hstep : ListIter.next_back l ⟨ListIndex.fromNat (us.getD a 0),
              ListIndex.fromNat (us.getD (b - 1) 0), b - a⟩
              = (some vb, ⟨ListIndex.fromNat (us.getD a 0),
                  ListIndex.fromNat (us.getD (b - 1 - 1) 0), b - 1 - a⟩) := by
            simp only [ListIter.next_back, hgetb]
            rw [if_neg hne]
            rw [hprev]
            have hlen1 : b - a - 1 = b - 1 - a := by omega
            rw [hlen1]
          show runIter l _ (false :: ds) = _
          simp only [runIter, hstep]
          rw [hseg, takeTwoEnded_concat_false, hvvb]
          congr 1
          have h := ih a (b - 1) _ (by omega) (Or.inl ⟨by omega, rfl⟩)
          exact h
        · -- exactly one element remains: the cursors have met
          have haeq : a = b - 1 := by omega
          have heq : ListIndex.fromNat (us.getD a 0)
              = ListIndex.fromNat (us.getD (b - 1) 0) := by rw [haeq]
          have hstep : ListIter.next_back l ⟨ListIndex.fromNat (us.getD a 0),
              ListIndex.fromNat (us.getD (b - 1) 0), b - a⟩
              = (some vb, ⟨ListIndex.new, ListIndex.new, 0⟩) := by
            simp only [ListIter.next_back, hgetb]
            rw [if_pos heq]
            rfl
          show runIter l _ (false :: ds) = _
          simp only [runIter, hstep]
          rw [hseg, takeTwoEnded_concat_false, hvvb]
          congr 1
          have hfront : (vs.drop a).take (b - 1 - a) = [] := by
            have hz : b - 1 - a = 0 := by omega
            rw [hz, List.take_zero]
          rw [hfront, takeTwoEnded_nil]
          have h0 : (vs.drop b).take (b - b) = [] := by
            rw [Nat.sub_self, List.take_zero]
          have h := ih b b _ hb (Or.inr ⟨rfl, rfl⟩)
          rw [h0, takeTwoEnded_nil] at h
          exact h
    · -- cleared iterator: every further call yields nothing
      subst hit
      have hempty : (vs.drop a).take (b - a) = [] := by
        have hz : b - a = 0 := by omega
        rw [hz, List.take_zero]
      have hstep_t : ListIter.next l ⟨ListIndex.new, ListIndex.new, 0⟩
          = (none, ⟨ListIndex.new, ListIndex.new, 0⟩) := by
        simp only [ListIter.next, hgetnew]
      have hstep_b : ListIter.next_back l ⟨ListIndex.new, ListIndex.new, 0⟩
          = (none, ⟨ListIndex.new, ListIndex.new, 0⟩) := by
        simp only [ListIter.next_back, hgetnew]
      have h := ih a b _ hb (Or.inr ⟨hab, rfl⟩)
      cases d with
      | true =>
        show runIter l _ (true :: ds) = _
        simp only [runIter, hstep_t]
        rw [h, hempty, takeTwoEnded_nil, takeTwoEnded_nil]
      | false =>
        show runIter l _ (false :: ds) = _
        simp only [runIter, hstep_b]
        rw [h, hempty, takeTwoEnded_nil, takeTwoEnded_nil]

/-- The exit handle of a nonempty segment names its last slot. -/
theorem seg_q_getD {nodes : List ListNode} {us : List Nat} {p i q j : ListIndex}
    (h : Seg nodes p i us q j) (hpos : 0 < us.length) :
    q = ListIndex.fromNat (us.getD (us.length - 1) 0) := by
  have hq := seg_q_eq h
  have hlast : us.getLast? = some (us.getD (us.length - 1) 0) := by
    rw [List.getLast?_eq_get?]
    rw [List.get?_eq_getElem?, List.getD_eq_getElem?_getD]
    cases hx : us[us.length - 1]? with
    | none =>
      rw [List.getElem?_eq_none_iff] at hx
      omega
    | some v => rfl
  rw [hlast] at hq
  exact hq

/-- The entry handle of a nonempty segment names its first slot. -/
theorem seg_i_getD {nodes : List ListNode} {us : List Nat} {p i q j : ListIndex}
    (h : Seg nodes p i us q j) (hpos : 0 < us.length) :
    i = ListIndex.fromNat (us.getD 0 0) := by
  have hh := seg_head_eq h
  cases us with
  | nil => exact absurd hpos (by simp)
  | cons n rest => exact hh

/-- **C8**: under any interleaving of forward and backward calls the
read iterator yields exactly the ideal two-ended consumption of the
list's value sequence: forward yields follow list order, backward yields
reverse order, the boundary element is yielded once, the iterator is
empty forever afterwards, and the total yield count is
`min len() (number of calls)`. -/
theorem C8_read_iterator {α : Type} {l : IndexList α} {us : List Nat} {vs : List α}
    (hE : EndsOk l.nodes l.used us) (hnd : us.Nodup)
    (hbig : l.nodes.length + 1 < U32) (helems : l.nodes.length = l.elems.length)
    (hvals : us.map (fun n => l.elems.getD n none) = vs.map some)
    (hsize : l.size = us.length) :
    ∀ ds : List Bool,
      runIter l l.iter ds = takeTwoEnded vs ds ∧
      (runIter l l.iter ds).length = min l.len ds.length := by
  have hlenvs : vs.length = us.length := by
    have h := congrArg List.length hvals
    simpa using h.symm
  have hinv : (0 < us.length ∧ l.iter = ⟨ListIndex.fromNat (us.getD 0 0),
      ListIndex.fromNat (us.getD (us.length - 1) 0), us.length - 0⟩)
      ∨ (0 = us.length ∧ l.iter = ⟨ListIndex.new, ListIndex.new, 0⟩) := by
    rcases Nat.eq_zero_or_pos us.length with hzero | hpos
    · right
      refine ⟨hzero.symm, ?_⟩
      have husnil : us = [] := List.length_eq_zero.mp hzero
      subst husnil
      obtain ⟨h1, h2⟩ := hE
      show (⟨l.first_index, l.last_index, l.size⟩ : ListIter) = _
      have hf : l.first_index = ListIndex.new := h2
      have hl : l.last_index = ListIndex.new := h1.symm
      rw [hf, hl, hsize]
      rfl
    · left
      refine ⟨hpos, ?_⟩
      show (⟨l.first_index, l.last_index, l.size⟩ : ListIter) = _
      have hf : l.first_index = ListIndex.fromNat (us.getD 0 0) := seg_i_getD hE hpos
      have hl : l.last_index = ListIndex.fromNat (us.getD (us.length - 1) 0) :=
        seg_q_getD hE hpos
      rw [hf, hl, hsize, Nat.sub_zero]
  have hmain : ∀ ds : List Bool, runIter l l.iter ds = takeTwoEnded vs ds := by
    intro ds
    have h := runIter_spec hE hnd hbig helems hvals ds 0 us.length l.iter (le_refl _) hinv
    rw [h, List.drop_zero, Nat.sub_zero, ← hlenvs, List.take_length]
  intro ds
  refine ⟨hmain ds, ?_⟩
  rw [hmain ds, takeTwoEnded_length]
  show min vs.length ds.length = min l.size ds.length
  rw [hsize, hlenvs]

/-- Witness for C8 at a concrete input: the two-element list `[5, 6]`
consumed by `next`, `next_back`, `next` yields `[5, 6]` and stops. -/
theorem C8_witness :
    ([0, 1].map (fun n => (IndexList.fromVec [5, 6]).elems.getD n none) = [5, 6].map some) ∧
    runIter (IndexList.fromVec [5, 6]) (IndexList.fromVec [5, 6]).iter [true, false, true]
      = takeTwoEnded [5, 6] [true, false, true] ∧
    (runIter (IndexList.fromVec [5, 6]) (IndexList.fromVec [5, 6]).iter
        [true, false, true]).length
      = min (IndexList.fromVec [5, 6]).len [true, false, true].length :=
  ⟨by decide,
   (@C8_read_iterator Nat (IndexList.fromVec [5, 6]) [0, 1] [5, 6]
      (by decide) (by decide) (by decide) (by decide) (by decide) (by decide)
      [true, false, true]).1,
   (@C8_read_iterator Nat (IndexList.fromVec [5, 6]) [0, 1] [5, 6]
      (by decide) (by decide) (by decide) (by decide) (by decide) (by decide)
      [true, false, true]).2⟩

/-! ## Claim C1: the structural invariants -/


/-- **C1 (counterexample)**: after the public-API sequence of
`exampleC1` the structural invariants do not hold: no pair of chains can
satisfy them, because slot 0's `next` points back to slot 0 itself. -/
theorem C1_counterexample : ¬ StructInv exampleC1 := by
  rintro ⟨us, fs, hused, hfree, hperm, hsize⟩
  have hcap : exampleC1.capacity = 2 := by decide
  have hsz : exampleC1.size = 2 := by decide
  rw [hcap, hsz] at *
  have hrange : List.range exampleC1.capacity = [0, 1] := by decide
  rw [hrange] at hperm
  have hlens : us.length + fs.length = 2 := by
    have h := hperm.length_eq
    simpa using h
  have hsize2 : (2 : Nat) = 2 - fs.length := by
    rw [← hcap, ← hsz]
    exact hsize
  have hfs0 : fs.length = 0 := by omega
  have hfsnil : fs = [] := List.length_eq_zero.mp hfs0
  subst hfsnil
  rw [List.append_nil] at hperm
  have hus2 : us.length = 2 := by omega
  have hnd : us.Nodup := hperm.nodup_iff.mpr (by decide)
  cases us with
  | nil => simp at hus2
  | cons x rest =>
    cases rest with
    | nil => simp at hus2
    | cons y rest2 =>
      cases rest2 with
      | cons z r3 => simp at hus2
      | nil =>
        have hx : x = 0 ∨ x = 1 := by
          have h := hperm.mem_iff.mp (show x ∈ [x, y] by simp)
          simpa using h
        have hy : y = 0 ∨ y = 1 := by
          have h := hperm.mem_iff.mp (show y ∈ [x, y] by simp)
          simpa using h
        have hxy : x ≠ y := by
          have h := List.nodup_cons.mp hnd
          simpa using h.1
        rcases hx with rfl | rfl <;> rcases hy with rfl | rfl
        · exact hxy rfl
        · exact absurd hused (by decide)
        · exact absurd hused (by decide)
        · exact hxy rfl

theorem ListIndex.fromNat_isNone {n : Nat} (h : n + 1 < U32) :
    (ListIndex.fromNat n).isNone = false := by
  rw [ListIndex.fromNat_eq_of_lt h]
  rfl

/-- `linkout_used` on a slot of the used chain: the slot leaves the
chain, the used ends are repaired, the slot's links are zeroed, and
nothing else (free ends, elements, size, other slots) changes. -/
theorem linkout_used_spec {α : Type} {l : IndexList α} {A B : List Nat} {n : Nat}
    (hE : EndsOk l.nodes l.used (A ++ n :: B))
    (hnd : (A ++ n :: B).Nodup)
    (hbig : l.nodes.length + 1 < U32) :
    EndsOk (l.linkout_used (ListIndex.fromNat n)).nodes
      (l.linkout_used (ListIndex.fromNat n)).used (A ++ B) ∧
    (l.linkout_used (ListIndex.fromNat n)).free = l.free ∧
    (l.linkout_used (ListIndex.fromNat n)).elems = l.elems ∧
    (l.linkout_used (ListIndex.fromNat n)).size = l.size ∧
    (l.linkout_used (ListIndex.fromNat n)).nodes.length = l.nodes.length ∧
    (l.linkout_used (ListIndex.fromNat n)).nodes.getD n default = ListNode.new ∧
    (∀ m, m ∉ A ++ n :: B →
      (l.linkout_used (ListIndex.fromNat n)).nodes.getD m default
        = l.nodes.getD m default) := by
  have hnodes_eq : (l.linkout_used (ListIndex.fromNat n)).nodes
      = (l.linkout_node (ListIndex.fromNat n)).2.nodes := by
    simp only [IndexList.linkout_used]
    split <;> split <;> rfl
  obtain ⟨h11, h12, hseg, hlen, hzero, hframe⟩ := linkout_node_spec l hE hnd hbig
  refine ⟨?_, IndexList.linkout_used_free l _, IndexList.linkout_used_elems l _,
    IndexList.linkout_used_size l _, IndexList.linkout_used_nodes_length l _,
    by rw [hnodes_eq]; exact hzero,
    fun m hm => by rw [hnodes_eq]; exact hframe m hm⟩
  show Seg _ ListIndex.new _ (A ++ B) _ ListIndex.new
  rw [hnodes_eq]
  have hcondnew : ListIndex.new.isNone = true := rfl
  rcases List.eq_nil_or_concat A with rfl | ⟨A', a, rfl⟩
  · cases B with
    | nil =>
      have h11' : (l.linkout_node (ListIndex.fromNat n)).1.1 = ListIndex.new := h11
      have h12' : (l.linkout_node (ListIndex.fromNat n)).1.2 = ListIndex.new := h12
      have hused : (l.linkout_used (ListIndex.fromNat n)).used
          = ⟨ListIndex.new, ListIndex.new⟩ := by
        simp only [IndexList.linkout_used, h11', h12']
        rw [if_pos hcondnew, if_pos hcondnew]
        rfl
      rw [hused]
      exact ⟨rfl, rfl⟩
    | cons b B' =>
      have hb : b < l.nodes.length := seg_mem_bound hE b (by simp)
      have hb1 : b + 1 < U32 := by omega
      have hcondb : ¬((ListIndex.fromNat b).isNone = true) := by
        rw [ListIndex.fromNat_isNone hb1]
        simp
      have h11' : (l.linkout_node (ListIndex.fromNat n)).1.1 = ListIndex.new := h11
      have h12' : (l.linkout_node (ListIndex.fromNat n)).1.2 = ListIndex.fromNat b := h12
      have hused : (l.linkout_used (ListIndex.fromNat n)).used
          = ⟨ListIndex.fromNat b, l.used.tail⟩ := by
        simp only [IndexList.linkout_used, h11', h12']
        rw [if_neg hcondb, if_pos hcondnew, IndexList.linkout_node_2_used]
        rfl
      rw [hused]
      rw [if_pos rfl, if_neg (List.cons_ne_nil b B'), h12'] at hseg
      exact hseg
  · rw [List.concat_eq_append] at h11 hseg ⊢
    have ha : a < l.nodes.length := by
      refine seg_mem_bound hE a ?_
      rw [List.concat_eq_append]
      simp
    have ha1 : a + 1 < U32 := by omega
    have hconda : ¬((ListIndex.fromNat a).isNone = true) := by
      rw [ListIndex.fromNat_isNone ha1]
      simp
    rw [List.getLast?_concat] at h11
    dsimp only at h11
    cases B with
    | nil =>
      have h12' : (l.linkout_node (ListIndex.fromNat n)).1.2 = ListIndex.new := h12
      have hused : (l.linkout_used (ListIndex.fromNat n)).used
          = ⟨l.used.head, ListIndex.fromNat a⟩ := by
        simp only [IndexList.linkout_used, h11, h12']
        rw [if_pos hcondnew, if_neg hconda, IndexList.linkout_node_2_used]
        rfl
      rw [hused]
      rw [if_neg (by simp), if_pos rfl, h11, List.append_nil] at hseg
      rw [List.append_nil]
      exact hseg
    | cons b B' =>
      have hb : b < l.nodes.length := seg_mem_bound hE b (by simp)
      have hb1 : b + 1 < U32 := by omega
      have hcondb : ¬((ListIndex.fromNat b).isNone = true) := by
        rw [ListIndex.fromNat_isNone hb1]
        simp
      have h12' : (l.linkout_node (ListIndex.fromNat n)).1.2 = ListIndex.fromNat b := h12
      have hused : (l.linkout_used (ListIndex.fromNat n)).used = l.used := by
        simp only [IndexList.linkout_used, h11, h12']
        rw [if_neg hcondb, if_neg hconda]
        exact IndexList.linkout_node_2_used l _
      rw [hused]
      rw [if_neg (by simp), if_neg (List.cons_ne_nil b B')] at hseg
      exact hseg

/-- `linkout_free` on a slot of the free chain: mirror of
`linkout_used_spec` for the free list. -/
theorem linkout_free_spec {α : Type} {l : IndexList α} {A B : List Nat} {n : Nat}
    (hE : EndsOk l.nodes l.free (A ++ n :: B))
    (hnd : (A ++ n :: B).Nodup)
    (hbig : l.nodes.length + 1 < U32) :
    EndsOk (l.linkout_free (ListIndex.fromNat n)).nodes
      (l.linkout_free (ListIndex.fromNat n)).free (A ++ B) ∧
    (l.linkout_free (ListIndex.fromNat n)).used = l.used ∧
    (l.linkout_free (ListIndex.fromNat n)).elems = l.elems ∧
    (l.linkout_free (ListIndex.fromNat n)).size = l.size ∧
    (l.linkout_free (ListIndex.fromNat n)).nodes.length = l.nodes.length ∧
    (l.linkout_free (ListIndex.fromNat n)).nodes.getD n default = ListNode.new ∧
    (∀ m, m ∉ A ++ n :: B →
      (l.linkout_free (ListIndex.fromNat n)).nodes.getD m default
        = l.nodes.getD m default) := by
  have hnodes_eq : (l.linkout_free (ListIndex.fromNat n)).nodes
      = (l.linkout_node (ListIndex.fromNat n)).2.nodes := by
    simp only [IndexList.linkout_free]
    split <;> split <;> rfl
  obtain ⟨h11, h12, hseg, hlen, hzero, hframe⟩ := linkout_node_spec l hE hnd hbig
  refine ⟨?_, IndexList.linkout_free_used l _, IndexList.linkout_free_elems l _,
    IndexList.linkout_free_size l _, IndexList.linkout_free_nodes_length l _,
    by rw [hnodes_eq]; exact hzero,
    fun m hm => by rw [hnodes_eq]; exact hframe m hm⟩
  show Seg _ ListIndex.new _ (A ++ B) _ ListIndex.new
  rw [hnodes_eq]
  have hcondnew : ListIndex.new.isNone = true := rfl
  rcases List.eq_nil_or_concat A with rfl | ⟨A', a, rfl⟩
  · cases B with
    | nil =>
      have h11' : (l.linkout_node (ListIndex.fromNat n)).1.1 = ListIndex.new := h11
      have h12' : (l.linkout_node (ListIndex.fromNat n)).1.2 = ListIndex.new := h12
      have hfree : (l.linkout_free (ListIndex.fromNat n)).free
          = ⟨ListIndex.new, ListIndex.new⟩ := by
        simp only [IndexList.linkout_free, h11', h12']
        rw [if_pos hcondnew, if_pos hcondnew]
        rfl
      rw [hfree]
      exact ⟨rfl, rfl⟩
    | cons b B' =>
      have hb : b < l.nodes.length := seg_mem_bound hE b (by simp)
      have hb1 : b + 1 < U32 := by omega
      have hcondb : ¬((ListIndex.fromNat b).isNone = true) := by
        rw [ListIndex.fromNat_isNone hb1]
        simp
      have h11' : (l.linkout_node (ListIndex.fromNat n)).1.1 = ListIndex.new := h11
      have h12' : (l.linkout_node (ListIndex.fromNat n)).1.2 = ListIndex.fromNat b := h12
      have hfree : (l.linkout_free (ListIndex.fromNat n)).free
          = ⟨ListIndex.fromNat b, l.free.tail⟩ := by
        simp only [IndexList.linkout_free, h11', h12']
        rw [if_neg hcondb, if_pos hcondnew, IndexList.linkout_node_2_free]
        rfl
      rw [hfree]
      rw [if_pos rfl, if_neg (List.cons_ne_nil b B'), h12'] at hseg
      exact hseg
  · rw [List.concat_eq_append] at h11 hseg ⊢
    have ha : a < l.nodes.length := by
      refine seg_mem_bound hE a ?_
      rw [List.concat_eq_append]
      simp
    have ha1 : a + 1 < U32 := by omega
    have hconda : ¬((ListIndex.fromNat a).isNone = true) := by
      rw [ListIndex.fromNat_isNone ha1]
      simp
    rw [List.getLast?_concat] at h11
    dsimp only at h11
    cases B with
    | nil =>
      have h12' : (l.linkout_node (ListIndex.fromNat n)).1.2 = ListIndex.new := h12
      have hfree : (l.linkout_free (ListIndex.fromNat n)).free
          = ⟨l.free.head, ListIndex.fromNat a⟩ := by
        simp only [IndexList.linkout_free, h11, h12']
        rw [if_pos hcondnew, if_neg hconda, IndexList.linkout_node_2_free]
        rfl
      rw [hfree]
      rw [if_neg (by simp), if_pos rfl, h11, List.append_nil] at hseg
      rw [List.append_nil]
      exact hseg
    | cons b B' =>
      have hb : b < l.nodes.length := seg_mem_bound hE b (by simp)
      have hb1 : b + 1 < U32 := by omega
      have hcondb : ¬((ListIndex.fromNat b).isNone = true) := by
        rw [ListIndex.fromNat_isNone hb1]
        simp
      have h12' : (l.linkout_node (ListIndex.fromNat n)).1.2 = ListIndex.fromNat b := h12
      have hfree : (l.linkout_free (ListIndex.fromNat n)).free = l.free := by
        simp only [IndexList.linkout_free, h11, h12']
        rw [if_neg hcondb, if_neg hconda]
        exact IndexList.linkout_node_2_free l _
      rw [hfree]
      rw [if_neg (by simp), if_neg (List.cons_ne_nil b B')] at hseg
      exact hseg

/-- `linkin_last` appends a detached slot (null `next` link) at the tail
of the used chain; elements, size, free ends and other slots are
untouched. -/
theorem linkin_last_spec {α : Type} {l : IndexList α} {us : List Nat} {n : Nat}
    (hE : EndsOk l.nodes l.used us) (hndus : us.Nodup)
    (hn : n < l.nodes.length) (hnotin : n ∉ us)
    (hnext : (l.nodes.getD n default).next = ListIndex.new)
    (hbig : l.nodes.length + 1 < U32) :
    EndsOk (l.linkin_last (ListIndex.fromNat n)).nodes
      (l.linkin_last (ListIndex.fromNat n)).used (us ++ [n]) ∧
    (l.linkin_last (ListIndex.fromNat n)).free = l.free ∧
    (l.linkin_last (ListIndex.fromNat n)).elems = l.elems ∧
    (l.linkin_last (ListIndex.fromNat n)).size = l.size ∧
    (l.linkin_last (ListIndex.fromNat n)).nodes.length = l.nodes.length ∧
    (∀ m, m ∉ us ++ [n] →
      (l.linkin_last (ListIndex.fromNat n)).nodes.getD m default
        = l.nodes.getD m default) := by
  have hn1 : n + 1 < U32 := by omega
  rcases List.eq_nil_or_concat us with rfl | ⟨U, u, husu⟩
  · obtain ⟨h1, h2⟩ := hE
    have hget_tail : l.used.tail.get = none := by
      rw [← h1]
      rfl
    have hval : l.linkin_last (ListIndex.fromNat n)
        = { l with
            nodes := (l.nodes.set n ⟨(l.nodes.getD n default).next, l.used.tail⟩),
            used := ⟨ListIndex.fromNat n, ListIndex.fromNat n⟩ } := by
      simp only [IndexList.linkin_last]
      rw [IndexList.set_next_of_none hget_tail]
      rw [IndexList.set_prev_of_get (ListIndex.fromNat_get hn1)]
      rw [if_pos (show ListEnds.is_empty l.used = true by
        rw [ListEnds.is_empty, h2]; rfl)]
      rfl
    rw [hval]
    refine ⟨?_, rfl, rfl, rfl, by simp, ?_⟩
    · show Seg _ ListIndex.new (ListIndex.fromNat n) ([] ++ [n]) (ListIndex.fromNat n)
        ListIndex.new
      refine ⟨rfl, by simpa using hn, ?_, ?_⟩
      · rw [getD_set_eq _ _ _ hn]
        dsimp only
        exact h1.symm
      · rw [getD_set_eq _ _ _ hn]
        dsimp only
        exact ⟨rfl, hnext⟩
    · intro m hm
      have hmn : n ≠ m := fun hcon => hm (by rw [← hcon]; simp)
      exact getD_set_ne _ _ _ hmn
  · rw [List.concat_eq_append] at husu
    subst husu
    have hu : u < l.nodes.length := seg_mem_bound hE u (by simp)
    have hu1 : u + 1 < U32 := by omega
    have hnu : n ≠ u := fun hcon => hnotin (by rw [hcon]; simp)
    have htail : l.used.tail = ListIndex.fromNat u := by
      have hq := seg_q_eq hE
      rw [List.getLast?_concat] at hq
      exact hq
    have hhead : l.used.head = ListIndex.fromNat ((U ++ [u]).getD 0 0) :=
      seg_i_getD hE (by simp)
    have hh0 : (U ++ [u]).getD 0 0 ∈ U ++ [u] := getD_mem 0 (by simp)
    have hh0b : (U ++ [u]).getD 0 0 < l.nodes.length := seg_mem_bound hE _ hh0
    have hh01 : (U ++ [u]).getD 0 0 + 1 < U32 := by omega
    have hval : l.linkin_last (ListIndex.fromNat n)
        = { l with
            nodes := ((l.nodes.set u
                ⟨ListIndex.fromNat n, (l.nodes.getD u default).prev⟩).set n
              ⟨((l.nodes.set u
                  ⟨ListIndex.fromNat n, (l.nodes.getD u default).prev⟩).getD n
                  default).next, ListIndex.fromNat u⟩),
            used := ⟨l.used.head, ListIndex.fromNat n⟩ } := by
      simp only [IndexList.linkin_last]
      rw [htail]
      rw [IndexList.set_next_of_get (ListIndex.fromNat_get hu1)]
      rw [IndexList.set_prev_of_get (ListIndex.fromNat_get hn1)]
      rw [if_neg (show ¬(ListEnds.is_empty l.used = true) by
        rw [ListEnds.is_empty, hhead, ListIndex.fromNat_isNone hh01]; simp)]
      rfl
    rw [hval]
    have hgdn : ((l.nodes.set u
        ⟨ListIndex.fromNat n, (l.nodes.getD u default).prev⟩).getD n default)
        = l.nodes.getD n default := getD_set_ne _ _ _ (fun hcon => hnu hcon.symm)
    refine ⟨?_, rfl, rfl, rfl, by simp, ?_⟩
    · show Seg _ ListIndex.new l.used.head ((U ++ [u]) ++ [n]) (ListIndex.fromNat n)
        ListIndex.new
      refine seg_append.mpr ⟨ListIndex.fromNat u, ListIndex.fromNat n, ?_, ?_⟩
      · have hE2 : Seg l.nodes ListIndex.new l.used.head (U ++ [u]) l.used.tail
            ListIndex.new := hE
        rw [htail] at hE2
        have hA := seg_exit_retarget (v := ListIndex.fromNat n) hndus hE2
        exact seg_frame_set hnotin hA
      · refine ⟨rfl, by simpa using hn, ?_, ?_⟩
        · rw [getD_set_eq _ _ _ (by simpa using hn)]
        · rw [getD_set_eq _ _ _ (by simpa using hn)]
          dsimp only
          rw [hgdn]
          exact ⟨rfl, hnext⟩
    · intro m hm
      have hmn : n ≠ m := fun hcon => hm (by rw [← hcon]; simp)
      have hmu : u ≠ m := fun hcon => hm (by rw [← hcon]; simp)
      rw [getD_set_ne _ _ _ hmn, getD_set_ne _ _ _ hmu]

/-- `linkin_free` appends a detached slot (null `next` link) at the tail
of the free chain; mirror of `linkin_last_spec`. -/
theorem linkin_free_spec {α : Type} {l : IndexList α} {fs : List Nat} {n : Nat}
    (hE : EndsOk l.nodes l.free fs) (hndfs : fs.Nodup)
    (hn : n < l.nodes.length) (hnotin : n ∉ fs)
    (hnext : (l.nodes.getD n default).next = ListIndex.new)
    (hbig : l.nodes.length + 1 < U32) :
    EndsOk (l.linkin_free (ListIndex.fromNat n)).nodes
      (l.linkin_free (ListIndex.fromNat n)).free (fs ++ [n]) ∧
    (l.linkin_free (ListIndex.fromNat n)).used = l.used ∧
    (l.linkin_free (ListIndex.fromNat n)).elems = l.elems ∧
    (l.linkin_free (ListIndex.fromNat n)).size = l.size ∧
    (l.linkin_free (ListIndex.fromNat n)).nodes.length = l.nodes.length ∧
    (∀ m, m ∉ fs ++ [n] →
      (l.linkin_free (ListIndex.fromNat n)).nodes.getD m default
        = l.nodes.getD m default) := by
  have hn1 : n + 1 < U32 := by omega
  rcases List.eq_nil_or_concat fs with rfl | ⟨U, u, husu⟩
  · obtain ⟨h1, h2⟩ := hE
    have hget_tail : l.free.tail.get = none := by
      rw [← h1]
      rfl
    have hval : l.linkin_free (ListIndex.fromNat n)
        = { l with
            nodes := (l.nodes.set n ⟨(l.nodes.getD n default).next, l.free.tail⟩),
            free := ⟨ListIndex.fromNat n, ListIndex.fromNat n⟩ } := by
      simp only [IndexList.linkin_free]
      rw [IndexList.set_next_of_none hget_tail]
      rw [IndexList.set_prev_of_get (ListIndex.fromNat_get hn1)]
      rw [if_pos (show ListEnds.is_empty l.free = true by
        rw [ListEnds.is_empty, h2]; rfl)]
      rfl
    rw [hval]
    refine ⟨?_, rfl, rfl, rfl, by simp, ?_⟩
    · show Seg _ ListIndex.new (ListIndex.fromNat n) ([] ++ [n]) (ListIndex.fromNat n)
        ListIndex.new
      refine ⟨rfl, by simpa using hn, ?_, ?_⟩
      · rw [getD_set_eq _ _ _ hn]
        dsimp only
        exact h1.symm
      · rw [getD_set_eq _ _ _ hn]
        dsimp only
        exact ⟨rfl, hnext⟩
    · intro m hm
      have hmn : n ≠ m := fun hcon => hm (by rw [← hcon]; simp)
      exact getD_set_ne _ _ _ hmn
  · rw [List.concat_eq_append] at husu
    subst husu
    have hu : u < l.nodes.length := seg_mem_bound hE u (by simp)
    have hu1 : u + 1 < U32 := by omega
    have hnu : n ≠ u := fun hcon => hnotin (by rw [hcon]; simp)
    have htail : l.free.tail = ListIndex.fromNat u := by
      have hq := seg_q_eq hE
      rw [List.getLast?_concat] at hq
      exact hq
    have hhead : l.free.head = ListIndex.fromNat ((U ++ [u]).getD 0 0) :=
      seg_i_getD hE (by simp)
    have hh0 : (U ++ [u]).getD 0 0 ∈ U ++ [u] := getD_mem 0 (by simp)
    have hh0b : (U ++ [u]).getD 0 0 < l.nodes.length := seg_mem_bound hE _ hh0
    have hh01 : (U ++ [u]).getD 0 0 + 1 < U32 := by omega
    have hval : l.linkin_free (ListIndex.fromNat n)
        = { l with
            nodes := ((l.nodes.set u
                ⟨ListIndex.fromNat n, (l.nodes.getD u default).prev⟩).set n
              ⟨((l.nodes.set u
                  ⟨ListIndex.fromNat n, (l.nodes.getD u default).prev⟩).getD n
                  default).next, ListIndex.fromNat u⟩),
            free := ⟨l.free.head, ListIndex.fromNat n⟩ } := by
      simp only [IndexList.linkin_free]
      rw [htail]
      rw [IndexList.set_next_of_get (ListIndex.fromNat_get hu1)]
      rw [IndexList.set_prev_of_get (ListIndex.fromNat_get hn1)]
      rw [if_neg (show ¬(ListEnds.is_empty l.free = true) by
        rw [ListEnds.is_empty, hhead, ListIndex.fromNat_isNone hh01]; simp)]
      rfl
    rw [hval]
    have hgdn : ((l.nodes.set u
        ⟨ListIndex.fromNat n, (l.nodes.getD u default).prev⟩).getD n default)
        = l.nodes.getD n default := getD_set_ne _ _ _ (fun hcon => hnu hcon.symm)
    refine ⟨?_, rfl, rfl, rfl, by simp, ?_⟩
    · show Seg _ ListIndex.new l.free.head ((U ++ [u]) ++ [n]) (ListIndex.fromNat n)
        ListIndex.new
      refine seg_append.mpr ⟨ListIndex.fromNat u, ListIndex.fromNat n, ?_, ?_⟩
      · have hE2 : Seg l.nodes ListIndex.new l.free.head (U ++ [u]) l.free.tail
            ListIndex.new := hE
        rw [htail] at hE2
        have hA := seg_exit_retarget (v := ListIndex.fromNat n) hndfs hE2
        exact seg_frame_set hnotin hA
      · refine ⟨rfl, by simpa using hn, ?_, ?_⟩
        · rw [getD_set_eq _ _ _ (by simpa using hn)]
        · rw [getD_set_eq _ _ _ (by simpa using hn)]
          dsimp only
          rw [hgdn]
          exact ⟨rfl, hnext⟩
    · intro m hm
      have hmn : n ≠ m := fun hcon => hm (by rw [← hcon]; simp)
      have hmu : u ≠ m := fun hcon => hm (by rw [← hcon]; simp)
      rw [getD_set_ne _ _ _ hmn, getD_set_ne _ _ _ hmu]

/-- `linkin_first` prepends a detached slot (null `prev` link) at the
head of the used chain. -/
theorem linkin_first_spec {α : Type} {l : IndexList α} {us : List Nat} {n : Nat}
    (hE : EndsOk l.nodes l.used us) (hndus : us.Nodup)
    (hn : n < l.nodes.length) (hnotin : n ∉ us)
    (hprev : (l.nodes.getD n default).prev = ListIndex.new)
    (hbig : l.nodes.length + 1 < U32) :
    EndsOk (l.linkin_first (ListIndex.fromNat n)).nodes
      (l.linkin_first (ListIndex.fromNat n)).used (n :: us) ∧
    (l.linkin_first (ListIndex.fromNat n)).free = l.free ∧
    (l.linkin_first (ListIndex.fromNat n)).elems = l.elems ∧
    (l.linkin_first (ListIndex.fromNat n)).size = l.size ∧
    (l.linkin_first (ListIndex.fromNat n)).nodes.length = l.nodes.length ∧
    (∀ m, m ∉ n :: us →
      (l.linkin_first (ListIndex.fromNat n)).nodes.getD m default
        = l.nodes.getD m default) := by
  have hn1 : n + 1 < U32 := by omega
  cases us with
  | nil =>
    obtain ⟨h1, h2⟩ := hE
    have hget_head : l.used.head.get = none := by
      rw [h2]
      rfl
    have hval : l.linkin_first (ListIndex.fromNat n)
        = { l with
            nodes := (l.nodes.set n ⟨l.used.head, (l.nodes.getD n default).prev⟩),
            used := ⟨ListIndex.fromNat n, ListIndex.fromNat n⟩ } := by
      simp only [IndexList.linkin_first]
      rw [IndexList.set_prev_of_none hget_head]
      rw [IndexList.set_next_of_get (ListIndex.fromNat_get hn1)]
      rw [if_pos (show ListEnds.is_empty l.used = true by
        rw [ListEnds.is_empty, h2]; rfl)]
      rfl
    rw [hval]
    refine ⟨?_, rfl, rfl, rfl, by simp, ?_⟩
    · show Seg _ ListIndex.new (ListIndex.fromNat n) [n] (ListIndex.fromNat n)
        ListIndex.new
      refine ⟨rfl, by simpa using hn, ?_, ?_⟩
      · rw [getD_set_eq _ _ _ hn]
        dsimp only
        exact hprev
      · rw [getD_set_eq _ _ _ hn]
        dsimp only
        exact ⟨rfl, h2⟩
    · intro m hm
      have hmn : n ≠ m := fun hcon => hm (by rw [← hcon]; simp)
      exact getD_set_ne _ _ _ hmn
  | cons u0 us' =>
    have hu0 : u0 < l.nodes.length := seg_mem_bound hE u0 (by simp)
    have hu01 : u0 + 1 < U32 := by omega
    have hnu0 : n ≠ u0 := fun hcon => hnotin (by rw [hcon]; simp)
    have hhead : l.used.head = ListIndex.fromNat u0 := hE.1
    have hval : l.linkin_first (ListIndex.fromNat n)
        = { l with
            nodes := ((l.nodes.set u0
                ⟨(l.nodes.getD u0 default).next, ListIndex.fromNat n⟩).set n
              ⟨ListIndex.fromNat u0,
               ((l.nodes.set u0
                  ⟨(l.nodes.getD u0 default).next, ListIndex.fromNat n⟩).getD n
                  default).prev⟩),
            used := ⟨ListIndex.fromNat n, l.used.tail⟩ } := by
      simp only [IndexList.linkin_first]
      rw [hhead]
      rw [IndexList.set_prev_of_get (ListIndex.fromNat_get hu01)]
      rw [IndexList.set_next_of_get (ListIndex.fromNat_get hn1)]
      rw [if_neg (show ¬(ListEnds.is_empty l.used = true) by
        rw [ListEnds.is_empty, hhead, ListIndex.fromNat_isNone hu01]; simp)]
      rfl
    rw [hval]
    have hgdn : ((l.nodes.set u0
        ⟨(l.nodes.getD u0 default).next, ListIndex.fromNat n⟩).getD n default)
        = l.nodes.getD n default := getD_set_ne _ _ _ (fun hcon => hnu0 hcon.symm)
    refine ⟨?_, rfl, rfl, rfl, by simp, ?_⟩
    · show Seg _ ListIndex.new (ListIndex.fromNat n) (n :: u0 :: us') l.used.tail
        ListIndex.new
      refine ⟨rfl, by simpa using hn, ?_, ?_⟩
      · rw [getD_set_eq _ _ _ (by simpa using hn)]
        dsimp only
        rw [hgdn]
        exact hprev
      · rw [getD_set_eq _ _ _ (by simpa using hn)]
        dsimp only
        have hE2 : Seg l.nodes ListIndex.new (ListIndex.fromNat u0) (u0 :: us')
            l.used.tail ListIndex.new := by
          rw [← hhead]
          exact hE
        have hu0notin : u0 ∉ us' := (List.nodup_cons.mp hndus).1
        have hB := seg_entry_retarget (w := ListIndex.fromNat n) hu0notin hE2
        exact seg_frame_set hnotin hB
    · intro m hm
      have hmn : n ≠ m := fun hcon => hm (by rw [← hcon]; simp)
      have hmu : u0 ≠ m := fun hcon => hm (by rw [← hcon]; simp)
      rw [getD_set_ne _ _ _ hmn, getD_set_ne _ _ _ hmu]

/-- `linkin_this_before_that` splices a detached slot `n` immediately
before the used-chain slot `t`, fixing the head end when `t` was first. -/
theorem linkin_before_spec {α : Type} {l : IndexList α} {A B : List Nat} {t n : Nat}
    (hE : EndsOk l.nodes l.used (A ++ t :: B))
    (hnd : (A ++ t :: B).Nodup)
    (hn : n < l.nodes.length) (hnotin : n ∉ A ++ t :: B)
    (hbig : l.nodes.length + 1 < U32) :
    EndsOk (l.linkin_this_before_that (ListIndex.fromNat n) (ListIndex.fromNat t)).nodes
      (l.linkin_this_before_that (ListIndex.fromNat n) (ListIndex.fromNat t)).used
      (A ++ n :: t :: B) ∧
    (l.linkin_this_before_that (ListIndex.fromNat n) (ListIndex.fromNat t)).free = l.free ∧
    (l.linkin_this_before_that (ListIndex.fromNat n) (ListIndex.fromNat t)).elems = l.elems ∧
    (l.linkin_this_before_that (ListIndex.fromNat n) (ListIndex.fromNat t)).size = l.size ∧
    (l.linkin_this_before_that (ListIndex.fromNat n)
      (ListIndex.fromNat t)).nodes.length = l.nodes.length ∧
    (∀ m, m ∉ A ++ n :: t :: B →
      (l.linkin_this_before_that (ListIndex.fromNat n)
        (ListIndex.fromNat t)).nodes.getD m default = l.nodes.getD m default) := by
  have hn1 : n + 1 < U32 := by omega
  have ht : t < l.nodes.length := seg_mem_bound hE t (by simp)
  have ht1 : t + 1 < U32 := by omega
  have hnt : n ≠ t := fun hcon => hnotin (by rw [hcon]; simp)
  obtain ⟨qA, iT, hA, hT⟩ := seg_append.mp hE
  obtain ⟨hiT, _, hprevt, hB⟩ := hT
  subst hiT
  have hndA : A.Nodup := hnd.of_append_left
  have hndtB : (t :: B).Nodup := hnd.of_append_right
  have htnotB : t ∉ B := (List.nodup_cons.mp hndtB).1
  have hdisj : A.Disjoint (t :: B) := List.disjoint_of_nodup_append hnd
  have htnotA : t ∉ A := fun hmem => hdisj hmem (List.mem_cons_self _ _)
  have hnnotA : n ∉ A := fun hmem => hnotin (by simp [hmem])
  have hnnotB : n ∉ B := fun hmem => hnotin (by simp [hmem])
  rcases List.eq_nil_or_concat A with rfl | ⟨A2, a, rfl⟩
  · -- `t` was the first used slot: the head end moves to `n`
    obtain ⟨hqAnil, hh0⟩ := hA
    simp only [IndexList.linkin_this_before_that, IndexList.linkin_head]
    rw [IndexList.set_prev_of_get (ListIndex.fromNat_get ht1), hprevt, ← hqAnil]
    dsimp only
    rw [IndexList.set_next_of_none (show ListIndex.new.get = none from rfl)]
    dsimp only
    set N1 := l.nodes.set t ⟨(l.nodes.getD t default).next, ListIndex.fromNat n⟩ with hN1
    have hN1len : N1.length = l.nodes.length := by rw [hN1]; simp
    have hN1n : N1.getD n default = l.nodes.getD n default := by
      rw [hN1]
      exact getD_set_ne _ _ _ (fun hcon => hnt hcon.symm)
    rw [IndexList.set_prev_of_get (ListIndex.fromNat_get hn1)]
    dsimp only
    rw [hN1n]
    set N2 := N1.set n ⟨(l.nodes.getD n default).next, ListIndex.new⟩ with hN2
    have hN2len : N2.length = l.nodes.length := by rw [hN2]; simp [hN1len]
    have hN2n : N2.getD n default = ⟨(l.nodes.getD n default).next, ListIndex.new⟩ := by
      rw [hN2]
      exact getD_set_eq _ _ _ (by rw [hN1len]; exact hn)
    rw [IndexList.set_next_of_get (ListIndex.fromNat_get hn1)]
    dsimp only
    rw [hN2n]
    dsimp only
    rw [if_pos (show ListIndex.new.isNone = true from rfl)]
    set N3 := N2.set n ⟨ListIndex.fromNat t, ListIndex.new⟩ with hN3
    have hN3len : N3.length = l.nodes.length := by rw [hN3]; simp [hN2len]
    have hN3n : N3.getD n default = ⟨ListIndex.fromNat t, ListIndex.new⟩ := by
      rw [hN3]
      exact getD_set_eq _ _ _ (by rw [hN2len]; exact hn)
    have hN3t : N3.getD t default
        = ⟨(l.nodes.getD t default).next, ListIndex.fromNat n⟩ := by
      rw [hN3, hN2, hN1]
      rw [getD_set_ne _ _ _ hnt, getD_set_ne _ _ _ hnt, getD_set_eq _ _ _ ht]
    have hN3other : ∀ m, m ≠ n → m ≠ t → N3.getD m default = l.nodes.getD m default := by
      intro m hmn hmt
      rw [hN3, hN2, hN1]
      rw [getD_set_ne _ _ _ (fun hcon => hmn hcon.symm),
        getD_set_ne _ _ _ (fun hcon => hmn hcon.symm),
        getD_set_ne _ _ _ (fun hcon => hmt hcon.symm)]
    refine ⟨?_, rfl, rfl, rfl, hN3len, ?_⟩
    · refine ⟨rfl, by rw [hN3len]; exact hn, by rw [hN3n], ?_⟩
      rw [hN3n]
      dsimp only
      refine ⟨rfl, by rw [hN3len]; exact ht, by rw [hN3t], ?_⟩
      rw [hN3t]
      dsimp only
      refine seg_frame ?_ hB
      intro m hm
      have hmt : m ≠ t := fun hcon => htnotB (hcon ▸ hm)
      have hmn : m ≠ n := fun hcon => hnnotB (hcon ▸ hm)
      refine ⟨?_, hN3other m hmn hmt⟩
      rw [hN3len]
      exact seg_mem_bound hB m hm
    · intro m hm
      have hmn : m ≠ n := fun hcon => hm (by rw [hcon]; simp)
      have hmt : m ≠ t := fun hcon => hm (by rw [hcon]; simp)
      exact hN3other m hmn hmt
  · -- `t` had a predecessor `a`: pure middle splice, ends unchanged
    rw [List.concat_eq_append] at hA hndA htnotA hnnotA hdisj ⊢
    have hqA := seg_q_eq hA
    rw [List.getLast?_concat] at hqA
    dsimp only at hqA
    have ha : a < l.nodes.length := seg_mem_bound hA a (by simp)
    have ha1 : a + 1 < U32 := by omega
    have hat : a ≠ t := fun hcon => htnotA (by rw [← hcon]; simp)
    have han : a ≠ n := fun hcon => hnnotA (by rw [← hcon]; simp)
    simp only [IndexList.linkin_this_before_that, IndexList.linkin_head]
    rw [IndexList.set_prev_of_get (ListIndex.fromNat_get ht1), hprevt, hqA]
    dsimp only
    set N1 := l.nodes.set t ⟨(l.nodes.getD t default).next, ListIndex.fromNat n⟩ with hN1
    have hN1len : N1.length = l.nodes.length := by rw [hN1]; simp
    have hN1a : N1.getD a default = l.nodes.getD a default := by
      rw [hN1]
      exact getD_set_ne _ _ _ (fun hcon => hat (hcon.symm))
    rw [IndexList.set_next_of_get (ListIndex.fromNat_get ha1)]
    dsimp only
    rw [hN1a]
    set N2 := N1.set a ⟨ListIndex.fromNat n, (l.nodes.getD a default).prev⟩ with hN2
    have hN2len : N2.length = l.nodes.length := by rw [hN2]; simp [hN1len]
    have hN2n : N2.getD n default = l.nodes.getD n default := by
      rw [hN2, hN1]
      rw [getD_set_ne _ _ _ han, getD_set_ne _ _ _ (fun hcon => hnt hcon.symm)]
    rw [IndexList.set_prev_of_get (ListIndex.fromNat_get hn1)]
    dsimp only
    rw [hN2n]
    set N3 := N2.set n ⟨(l.nodes.getD n default).next, ListIndex.fromNat a⟩ with hN3
    have hN3len : N3.length = l.nodes.length := by rw [hN3]; simp [hN2len]
    have hN3n : N3.getD n default
        = ⟨(l.nodes.getD n default).next, ListIndex.fromNat a⟩ := by
      rw [hN3]
      exact getD_set_eq _ _ _ (by rw [hN2len]; exact hn)
    rw [IndexList.set_next_of_get (ListIndex.fromNat_get hn1)]
    dsimp only
    rw [hN3n]
    dsimp only
    rw [if_neg (show ¬((ListIndex.fromNat a).isNone = true) by
      rw [ListIndex.fromNat_isNone ha1]; simp)]
    set N4 := N3.set n ⟨ListIndex.fromNat t, ListIndex.fromNat a⟩ with hN4
    have hN4len : N4.length = l.nodes.length := by rw [hN4]; simp [hN3len]
    have hN4n : N4.getD n default = ⟨ListIndex.fromNat t, ListIndex.fromNat a⟩ := by
      rw [hN4]
      exact getD_set_eq _ _ _ (by rw [hN3len]; exact hn)
    have hN4t : N4.getD t default
        = ⟨(l.nodes.getD t default).next, ListIndex.fromNat n⟩ := by
      rw [hN4, hN3, hN2, hN1]
      rw [getD_set_ne _ _ _ hnt, getD_set_ne _ _ _ hnt, getD_set_ne _ _ _ hat,
        getD_set_eq _ _ _ ht]
    have hN4a : N4.getD a default
        = ⟨ListIndex.fromNat n, (l.nodes.getD a default).prev⟩ := by
      rw [hN4, hN3]
      rw [getD_set_ne _ _ _ (fun hcon => han (hcon.symm)),
        getD_set_ne _ _ _ (fun hcon => han (hcon.symm))]
      rw [hN2]
      exact getD_set_eq _ _ _ (by rw [hN1len]; exact ha)
    have hN4other : ∀ m, m ≠ n → m ≠ t → m ≠ a →
        N4.getD m default = l.nodes.getD m default := by
      intro m hmn hmt hma
      rw [hN4, hN3, hN2, hN1]
      rw [getD_set_ne _ _ _ (fun hcon => hmn hcon.symm),
        getD_set_ne _ _ _ (fun hcon => hmn hcon.symm),
        getD_set_ne _ _ _ (fun hcon => hma hcon.symm),
        getD_set_ne _ _ _ (fun hcon => hmt hcon.symm)]
    refine ⟨?_, rfl, rfl, rfl, hN4len, ?_⟩
    · refine seg_append.mpr ⟨ListIndex.fromNat a, ListIndex.fromNat n, ?_, ?_⟩
      · -- the prefix chain, exit retargeted from `t` to `n`
        rw [hqA] at hA
        have hA1 : Seg N1 ListIndex.new l.used.head (A2 ++ [a]) (ListIndex.fromNat a)
            (ListIndex.fromNat t) := by
          rw [hN1]
          exact seg_frame_set htnotA hA
        have hA2 := seg_exit_retarget (v := ListIndex.fromNat n) hndA hA1
        rw [hN1a] at hA2
        have hA3 : Seg N3 ListIndex.new l.used.head (A2 ++ [a]) (ListIndex.fromNat a)
            (ListIndex.fromNat n) := by
          rw [hN3]
          refine seg_frame_set hnnotA ?_
          rw [hN2]
          exact hA2
        rw [hN4]
        exact seg_frame_set hnnotA hA3
      · refine ⟨rfl, by rw [hN4len]; exact hn, by rw [hN4n], ?_⟩
        rw [hN4n]
        dsimp only
        refine ⟨rfl, by rw [hN4len]; exact ht, by rw [hN4t], ?_⟩
        rw [hN4t]
        dsimp only
        refine seg_frame ?_ hB
        intro m hm
        have hmt : m ≠ t := fun hcon => htnotB (hcon ▸ hm)
        have hmn : m ≠ n := fun hcon => hnnotB (hcon ▸ hm)
        have hma : m ≠ a := fun hcon =>
          hdisj (show a ∈ A2 ++ [a] by simp) (hcon ▸ List.mem_cons_of_mem _ hm)
        refine ⟨?_, hN4other m hmn hmt hma⟩
        rw [hN4len]
        exact seg_mem_bound hB m hm
    · intro m hm
      have hmn : m ≠ n := fun hcon => hm (by rw [hcon]; simp)
      have hmt : m ≠ t := fun hcon => hm (by rw [hcon]; simp)
      have hma : m ≠ a := fun hcon => hm (by rw [hcon]; simp)
      exact hN4other m hmn hmt hma

/-- `linkin_this_after_that` splices a detached slot `n` immediately
after the used-chain slot `t`, fixing the tail end when `t` was last. -/
theorem linkin_after_spec {α : Type} {l : IndexList α} {A B : List Nat} {t n : Nat}
    (hE : EndsOk l.nodes l.used (A ++ t :: B))
    (hnd : (A ++ t :: B).Nodup)
    (hn : n < l.nodes.length) (hnotin : n ∉ A ++ t :: B)
    (hbig : l.nodes.length + 1 < U32) :
    EndsOk (l.linkin_this_after_that (ListIndex.fromNat n) (ListIndex.fromNat t)).nodes
      (l.linkin_this_after_that (ListIndex.fromNat n) (ListIndex.fromNat t)).used
      (A ++ t :: n :: B) ∧
    (l.linkin_this_after_that (ListIndex.fromNat n) (ListIndex.fromNat t)).free = l.free ∧
    (l.linkin_this_after_that (ListIndex.fromNat n) (ListIndex.fromNat t)).elems = l.elems ∧
    (l.linkin_this_after_that (ListIndex.fromNat n) (ListIndex.fromNat t)).size = l.size ∧
    (l.linkin_this_after_that (ListIndex.fromNat n)
      (ListIndex.fromNat t)).nodes.length = l.nodes.length ∧
    (∀ m, m ∉ A ++ t :: n :: B →
      (l.linkin_this_after_that (ListIndex.fromNat n)
        (ListIndex.fromNat t)).nodes.getD m default = l.nodes.getD m default) := by
  have hn1 : n + 1 < U32 := by omega
  have ht : t < l.nodes.length := seg_mem_bound hE t (by simp)
  have ht1 : t + 1 < U32 := by omega
  have hnt : n ≠ t := fun hcon => hnotin (by rw [hcon]; simp)
  obtain ⟨qA, iT, hA, hT⟩ := seg_append.mp hE
  obtain ⟨hiT, _, hprevt, hB⟩ := hT
  subst hiT
  have hndA : A.Nodup := hnd.of_append_left
  have hndtB : (t :: B).Nodup := hnd.of_append_right
  have htnotB : t ∉ B := (List.nodup_cons.mp hndtB).1
  have hndB : B.Nodup := (List.nodup_cons.mp hndtB).2
  have hdisj : A.Disjoint (t :: B) := List.disjoint_of_nodup_append hnd
  have htnotA : t ∉ A := fun hmem => hdisj hmem (List.mem_cons_self _ _)
  have hnnotA : n ∉ A := fun hmem => hnotin (by simp [hmem])
  have hnnotB : n ∉ B := fun hmem => hnotin (by simp [hmem])
  cases B with
  | nil =>
    obtain ⟨hqt, hjnil⟩ := hB
    simp only [IndexList.linkin_this_after_that, IndexList.linkin_tail]
    rw [IndexList.set_next_of_get (ListIndex.fromNat_get ht1), hjnil]
    dsimp only
    rw [IndexList.set_prev_of_none (show ListIndex.new.get = none from rfl)]
    dsimp only
    set N1 := l.nodes.set t ⟨ListIndex.fromNat n, (l.nodes.getD t default).prev⟩ with hN1
    have hN1len : N1.length = l.nodes.length := by rw [hN1]; simp
    have hN1n : N1.getD n default = l.nodes.getD n default := by
      rw [hN1]
      exact getD_set_ne _ _ _ (fun hcon => hnt hcon.symm)
    rw [IndexList.set_prev_of_get (ListIndex.fromNat_get hn1)]
    dsimp only
    rw [hN1n]
    set N2 := N1.set n ⟨(l.nodes.getD n default).next, ListIndex.fromNat t⟩ with hN2
    have hN2len : N2.length = l.nodes.length := by rw [hN2]; simp [hN1len]
    have hN2n : N2.getD n default
        = ⟨(l.nodes.getD n default).next, ListIndex.fromNat t⟩ := by
      rw [hN2]
      exact getD_set_eq _ _ _ (by rw [hN1len]; exact hn)
    rw [IndexList.set_next_of_get (ListIndex.fromNat_get hn1)]
    dsimp only
    rw [hN2n]
    dsimp only
    rw [if_pos (show ListIndex.new.isNone = true from rfl)]
    set N3 := N2.set n ⟨ListIndex.new, ListIndex.fromNat t⟩ with hN3
    have hN3len : N3.length = l.nodes.length := by rw [hN3]; simp [hN2len]
    have hN3n : N3.getD n default = ⟨ListIndex.new, ListIndex.fromNat t⟩ := by
      rw [hN3]
      exact getD_set_eq _ _ _ (by rw [hN2len]; exact hn)
    have hN3t : N3.getD t default
        = ⟨ListIndex.fromNat n, (l.nodes.getD t default).prev⟩ := by
      rw [hN3, hN2, hN1]
      rw [getD_set_ne _ _ _ hnt, getD_set_ne _ _ _ hnt, getD_set_eq _ _ _ ht]
    have hN3other : ∀ m, m ≠ n → m ≠ t → N3.getD m default = l.nodes.getD m default := by
      intro m hmn hmt
      rw [hN3, hN2, hN1]
      rw [getD_set_ne _ _ _ (fun hcon => hmn hcon.symm),
        getD_set_ne _ _ _ (fun hcon => hmn hcon.symm),
        getD_set_ne _ _ _ (fun hcon => hmt hcon.symm)]
    refine ⟨?_, rfl, rfl, rfl, hN3len, ?_⟩
    · refine seg_append.mpr ⟨qA, ListIndex.fromNat t, ?_, ?_⟩
      · have hA1 : Seg N1 ListIndex.new l.used.head A qA (ListIndex.fromNat t) := by
          rw [hN1]
          exact seg_frame_set htnotA hA
        have hA2 : Seg N2 ListIndex.new l.used.head A qA (ListIndex.fromNat t) := by
          rw [hN2]
          exact seg_frame_set hnnotA hA1
        rw [hN3]
        exact seg_frame_set hnnotA hA2
      · refine ⟨rfl, by rw [hN3len]; exact ht, by rw [hN3t]; dsimp only; exact hprevt, ?_⟩
        rw [hN3t]
        dsimp only
        refine ⟨rfl, by rw [hN3len]; exact hn, by rw [hN3n], ?_⟩
        rw [hN3n]
        exact ⟨rfl, rfl⟩
    · intro m hm
      have hmn : m ≠ n := fun hcon => hm (by rw [hcon]; simp)
      have hmt : m ≠ t := fun hcon => hm (by rw [hcon]; simp)
      exact hN3other m hmn hmt
  | cons b B' =>
    obtain ⟨hbi, hb, hbprev, hB'⟩ := hB
    have hb1 : b + 1 < U32 := by omega
    have hbt : b ≠ t := fun hcon => htnotB (by rw [← hcon]; simp)
    have hbn : b ≠ n := fun hcon => hnnotB (by rw [← hcon]; simp)
    have hbnotB' : b ∉ B' := (List.nodup_cons.mp hndB).1
    simp only [IndexList.linkin_this_after_that, IndexList.linkin_tail]
    rw [IndexList.set_next_of_get (ListIndex.fromNat_get ht1), hbi]
    dsimp only
    set N1 := l.nodes.set t ⟨ListIndex.fromNat n, (l.nodes.getD t default).prev⟩ with hN1
    have hN1len : N1.length = l.nodes.length := by rw [hN1]; simp
    have hN1b : N1.getD b default = l.nodes.getD b default := by
      rw [hN1]
      exact getD_set_ne _ _ _ hbt.symm
    rw [IndexList.set_prev_of_get (ListIndex.fromNat_get hb1)]
    dsimp only
    rw [hN1b]
    set N2 := N1.set b ⟨(l.nodes.getD b default).next, ListIndex.fromNat n⟩ with hN2
    have hN2len : N2.length = l.nodes.length := by rw [hN2]; simp [hN1len]
    have hN2n : N2.getD n default = l.nodes.getD n default := by
      rw [hN2, hN1]
      rw [getD_set_ne _ _ _ hbn, getD_set_ne _ _ _ (fun hcon => hnt hcon.symm)]
    rw [IndexList.set_prev_of_get (ListIndex.fromNat_get hn1)]
    dsimp only
    rw [hN2n]
    set N3 := N2.set n ⟨(l.nodes.getD n default).next, ListIndex.fromNat t⟩ with hN3
    have hN3len : N3.length = l.nodes.length := by rw [hN3]; simp [hN2len]
    have hN3n : N3.getD n default
        = ⟨(l.nodes.getD n default).next, ListIndex.fromNat t⟩ := by
      rw [hN3]
      exact getD_set_eq _ _ _ (by rw [hN2len]; exact hn)
    rw [IndexList.set_next_of_get (ListIndex.fromNat_get hn1)]
    dsimp only
    rw [hN3n]
    dsimp only
    rw [if_neg (show ¬((ListIndex.fromNat b).isNone = true) by
      rw [ListIndex.fromNat_isNone hb1]; simp)]
    set N4 := N3.set n ⟨ListIndex.fromNat b, ListIndex.fromNat t⟩ with hN4
    have hN4len : N4.length = l.nodes.length := by rw [hN4]; simp [hN3len]
    have hN4n : N4.getD n default = ⟨ListIndex.fromNat b, ListIndex.fromNat t⟩ := by
      rw [hN4]
      exact getD_set_eq _ _ _ (by rw [hN3len]; exact hn)
    have hN4t : N4.getD t default
        = ⟨ListIndex.fromNat n, (l.nodes.getD t default).prev⟩ := by
      rw [hN4, hN3, hN2, hN1]
      rw [getD_set_ne _ _ _ hnt, getD_set_ne _ _ _ hnt, getD_set_ne _ _ _ hbt,
        getD_set_eq _ _ _ ht]
    have hN4b : N4.getD b default
        = ⟨(l.nodes.getD b default).next, ListIndex.fromNat n⟩ := by
      rw [hN4, hN3]
      rw [getD_set_ne _ _ _ (fun hcon => hbn hcon.symm),
        getD_set_ne _ _ _ (fun hcon => hbn hcon.symm)]
      rw [hN2]
      exact getD_set_eq _ _ _ (by rw [hN1len]; exact hb)
    have hN4other : ∀ m, m ≠ n → m ≠ t → m ≠ b →
        N4.getD m default = l.nodes.getD m default := by
      intro m hmn hmt hmb
      rw [hN4, hN3, hN2, hN1]
      rw [getD_set_ne _ _ _ (fun hcon => hmn hcon.symm),
        getD_set_ne _ _ _ (fun hcon => hmn hcon.symm),
        getD_set_ne _ _ _ (fun hcon => hmb hcon.symm),
        getD_set_ne _ _ _ (fun hcon => hmt hcon.symm)]
    refine ⟨?_, rfl, rfl, rfl, hN4len, ?_⟩
    · refine seg_append.mpr ⟨qA, ListIndex.fromNat t, ?_, ?_⟩
      · have hA1 : Seg N1 ListIndex.new l.used.head A qA (ListIndex.fromNat t) := by
          rw [hN1]
          exact seg_frame_set htnotA hA
        have hA2 : Seg N2 ListIndex.new l.used.head A qA (ListIndex.fromNat t) := by
          rw [hN2]
          refine seg_frame_set ?_ hA1
          intro hmem
          exact hdisj hmem (by simp)
        have hA3 : Seg N3 ListIndex.new l.used.head A qA (ListIndex.fromNat t) := by
          rw [hN3]
          exact seg_frame_set hnnotA hA2
        rw [hN4]
        exact seg_frame_set hnnotA hA3
      · refine ⟨rfl, by rw [hN4len]; exact ht, by rw [hN4t]; dsimp only; exact hprevt, ?_⟩
        rw [hN4t]
        dsimp only
        refine ⟨rfl, by rw [hN4len]; exact hn, by rw [hN4n], ?_⟩
        rw [hN4n]
        dsimp only
        refine ⟨rfl, by rw [hN4len]; exact hb, by rw [hN4b], ?_⟩
        rw [hN4b]
        dsimp only
        refine seg_frame ?_ hB'
        intro m hm
        have hmb : m ≠ b := fun hcon => hbnotB' (hcon ▸ hm)
        have hmt : m ≠ t := fun hcon => htnotB (hcon ▸ List.mem_cons_of_mem _ hm)
        have hmn : m ≠ n := fun hcon => hnnotB (hcon ▸ List.mem_cons_of_mem _ hm)
        refine ⟨?_, hN4other m hmn hmt hmb⟩
        rw [hN4len]
        exact seg_mem_bound hB' m hm
    · intro m hm
      have hmn : m ≠ n := fun hcon => hm (by rw [hcon]; simp)
      have hmt : m ≠ t := fun hcon => hm (by rw [hcon]; simp)
      have hmb : m ≠ b := fun hcon => hm (by rw [hcon]; simp)
      exact hN4other m hmn hmt hmb

/-- `new_node`: recycles the head of the free list (clearing its links
and storing the element) or pushes a fresh slot; either way it returns
the handle of a zeroed slot holding `elem`, the free chain loses that
slot, and the used chain, the other slots and the remaining free slots
are untouched. -/
theorem new_node_spec {α : Type} {l : IndexList α} {fs : List Nat} (elem : Option α)
    (hEf : EndsOk l.nodes l.free fs) (hndfs : fs.Nodup)
    (hbig : l.nodes.length + 1 < U32) :
    ∃ k fs',
    (l.new_node elem).1 = ListIndex.fromNat k ∧
    ((fs = k :: fs' ∧ (l.new_node elem).2.nodes.length = l.nodes.length ∧
        (l.new_node elem).2.elems = l.elems.set k elem)
      ∨ (fs = [] ∧ fs' = [] ∧ k = l.nodes.length ∧
        (l.new_node elem).2.nodes.length = l.nodes.length + 1 ∧
        (l.new_node elem).2.elems = l.elems ++ [elem])) ∧
    EndsOk (l.new_node elem).2.nodes (l.new_node elem).2.free fs' ∧
    (l.new_node elem).2.used = l.used ∧
    (l.new_node elem).2.size = l.size + 1 ∧
    (l.new_node elem).2.nodes.getD k default = ListNode.new ∧
    k < (l.new_node elem).2.nodes.length ∧
    (∀ m, m ∉ fs → m ≠ k →
      (l.new_node elem).2.nodes.getD m default = l.nodes.getD m default) := by
  cases fs with
  | nil =>
    obtain ⟨h1, h2⟩ := hEf
    have hval : l.new_node elem
        = (ListIndex.fromNat l.nodes.length,
           { l with nodes := l.nodes ++ [ListNode.new], elems := l.elems ++ [elem],
                    size := l.size + 1 }) := by
      simp only [IndexList.new_node]
      rw [if_neg (show ¬(l.free.head.isSome = true) by
        rw [h2]; simp [ListIndex.isSome, ListIndex.new])]
    refine ⟨l.nodes.length, [], ?_, Or.inr ⟨rfl, rfl, rfl, ?_, ?_⟩, ?_, ?_, ?_, ?_, ?_, ?_⟩
    · rw [hval]
    · rw [hval]; simp
    · rw [hval]
    · rw [hval]
      exact ⟨h1, h2⟩
    · rw [hval]
    · rw [hval]
    · rw [hval]
      show (l.nodes ++ [ListNode.new]).getD l.nodes.length default = ListNode.new
      rw [List.getD_append_right _ _ _ _ (le_refl _), Nat.sub_self]
      rfl
    · rw [hval]
      simp
    · intro m _ hmk
      rw [hval]
      show (l.nodes ++ [ListNode.new]).getD m default = l.nodes.getD m default
      rcases Nat.lt_or_ge m l.nodes.length with hlt | hge
      · exact List.getD_append _ _ _ _ hlt
      · have hgt : l.nodes.length < m := by
          rcases Nat.eq_or_lt_of_le hge with heq | hlt2
          · exact absurd heq.symm hmk
          · exact hlt2
        rw [List.getD_eq_getElem?_getD, List.getD_eq_getElem?_getD]
        rw [List.getElem?_eq_none (by simp; omega), List.getElem?_eq_none (by omega)]
  | cons f fs' =>
    have hf : f < l.nodes.length := seg_mem_bound hEf f (by simp)
    have hf1 : f + 1 < U32 := by omega
    have hhead : l.free.head = ListIndex.fromNat f := hEf.1
    have hl1 : l.insert_elem_at_index l.free.head elem
        = { l with
            elems := (l.elems.set f elem),
            size := l.size + 1 } := by
      simp only [IndexList.insert_elem_at_index]
      rw [hhead, ListIndex.fromNat_get hf1]
    have hval : l.new_node elem
        = (ListIndex.fromNat f,
           (l.insert_elem_at_index l.free.head elem).linkout_free
             (ListIndex.fromNat f)) := by
      simp only [IndexList.new_node]
      rw [if_pos (show l.free.head.isSome = true by
        rw [hhead]; exact ListIndex.fromNat_isSome hf1)]
      rw [hhead]
    rw [hl1] at hval
    have hspec := linkout_free_spec (A := ([] : List Nat)) (B := fs') (n := f)
      (l :=
        { l with
          elems := (l.elems.set f elem),
          size := l.size + 1 })
      (show EndsOk l.nodes l.free ([] ++ f :: fs') from hEf) (by simpa using hndfs)
      hbig
    obtain ⟨hE', hused', helems', hsize', hlen', hzero', hframe'⟩ := hspec
    refine ⟨f, fs', ?_, Or.inl ⟨rfl, ?_, ?_⟩, ?_, ?_, ?_, ?_, ?_, ?_⟩
    · rw [hval]
    · rw [hval]
      exact hlen'
    · rw [hval]
      exact helems'
    · rw [hval]
      simpa using hE'
    · rw [hval]
      exact hused'
    · rw [hval]
      exact hsize'
    · rw [hval]
      exact hzero'
    · rw [hval, hlen']
      exact hf
    · intro m hm hmk
      rw [hval]
      refine (hframe' m ?_).trans rfl
      simp only [List.nil_append, List.mem_cons]
      rintro (rfl | hmem)
      · exact hmk rfl
      · exact hm (List.mem_cons_of_mem _ hmem)

/-! ## Well-formedness preservation of the public operations (claim C1) -/

theorem perm_facts {us fs : List Nat} {cap : Nat}
    (hperm : List.Perm (us ++ fs) (List.range cap)) :
    (∀ m ∈ us, m < cap) ∧ (∀ m ∈ fs, m < cap) ∧ us.length + fs.length = cap ∧
    us.Nodup ∧ fs.Nodup ∧ us.Disjoint fs := by
  have hnd : (us ++ fs).Nodup := hperm.nodup_iff.mpr (List.nodup_range cap)
  obtain ⟨hndus, hndfs, hdisj⟩ := List.nodup_append.mp hnd
  refine ⟨?_, ?_, ?_, hndus, hndfs, hdisj⟩
  · intro m hm
    have h := hperm.mem_iff.mp (List.mem_append_left fs hm)
    exact List.mem_range.mp h
  · intro m hm
    have h := hperm.mem_iff.mp (List.mem_append_right us hm)
    exact List.mem_range.mp h
  · have h := hperm.length_eq
    simpa using h

theorem getD_append_elem {β : Type} (xs : List β) (y d : β) {m : Nat}
    (hm : m ≠ xs.length) : (xs ++ [y]).getD m d = xs.getD m d := by
  rcases Nat.lt_or_ge m xs.length with hlt | hge
  · exact List.getD_append _ _ _ _ hlt
  · have hgt : xs.length < m := by
      rcases Nat.eq_or_lt_of_le hge with heq | hlt2
      · exact absurd heq.symm hm
      · exact hlt2
    rw [List.getD_eq_getElem?_getD, List.getD_eq_getElem?_getD]
    rw [List.getElem?_eq_none (by simp; omega), List.getElem?_eq_none (by omega)]

theorem getD_append_last {β : Type} (xs : List β) (y d : β) :
    (xs ++ [y]).getD xs.length d = y := by
  rw [List.getD_append_right _ _ _ _ (le_refl _), Nat.sub_self]
  rfl

/-- `insert_last` preserves well-formedness (given two spare handle
values of headroom). -/
theorem Wf_insert_last {α : Type} {l : IndexList α} (x : α) (h : Wf l)
    (hbig : l.nodes.length + 2 < U32) : Wf (l.insert_last x).2 := by
  obtain ⟨us, fs, hEu, hEf, hperm, hsize, hoccU, hoccF, hlen⟩ := h
  obtain ⟨huslt, hfslt, hlensum, hndus, hndfs, hdisjuf⟩ := perm_facts hperm
  obtain ⟨k, fs', hk1, hcase, hEf', hused', hsize', hzero', hklt, hframe'⟩ :=
    new_node_spec (l := l) (some x) hEf hndfs (by omega)
  have hknotus : k ∉ us := by
    rcases hcase with ⟨hfs, _, _⟩ | ⟨_, _, hkcap, _, _⟩
    · intro hmem
      exact hdisjuf hmem (by rw [hfs]; simp)
    · intro hmem
      have := huslt k hmem
      simp only [IndexList.capacity] at this
      omega
  have hlen' : (l.new_node (some x)).2.nodes.length = l.nodes.length
      ∨ (l.new_node (some x)).2.nodes.length = l.nodes.length + 1 := by
    rcases hcase with ⟨_, hl, _⟩ | ⟨_, _, _, hl, _⟩
    · exact Or.inl hl
    · exact Or.inr hl
  have hbig2 : (l.new_node (some x)).2.nodes.length + 1 < U32 := by
    rcases hlen' with hl | hl <;> rw [hl] <;> omega
  have hEu2 : EndsOk (l.new_node (some x)).2.nodes (l.new_node (some x)).2.used us := by
    rw [hused']
    refine seg_frame ?_ hEu
    intro m hm
    have hmfs : m ∉ fs := fun hmem => hdisjuf hm hmem
    have hmk : m ≠ k := fun hcon => hknotus (hcon ▸ hm)
    refine ⟨?_, hframe' m hmfs hmk⟩
    have := seg_mem_bound hEu m hm
    rcases hlen' with hl | hl <;> omega
  have hfs'sub : ∀ m ∈ fs', m ∈ fs := by
    rcases hcase with ⟨hfs, _, _⟩ | ⟨_, hfs', _, _, _⟩
    · intro m hm; rw [hfs]; exact List.mem_cons_of_mem _ hm
    · intro m hm; rw [hfs'] at hm; cases hm
  have hknotfs' : k ∉ fs' := by
    rcases hcase with ⟨hfs, _, _⟩ | ⟨_, hfs', _, _, _⟩
    · intro hmem
      have := hndfs
      rw [hfs] at this
      exact (List.nodup_cons.mp this).1 hmem
    · intro hmem; rw [hfs'] at hmem; cases hmem
  obtain ⟨hseg'', hfree'', helems'', hsize'', hlen'', hframe''⟩ :=
    linkin_last_spec (l := (l.new_node (some x)).2) (n := k)
      hEu2 hndus hklt hknotus (by rw [hzero']; rfl) hbig2
  show Wf ((l.new_node (some x)).2.linkin_last (l.new_node (some x)).1)
  rw [hk1]
  refine ⟨us ++ [k], fs', hseg'', ?_, ?_, ?_, ?_, ?_, ?_⟩
  · -- the free chain survives both steps
    rw [hfree'']
    refine seg_frame ?_ hEf'
    intro m hm
    have hmm : m ∉ us ++ [k] := by
      simp only [List.mem_append, List.mem_singleton]
      rintro (hmem | rfl)
      · exact hdisjuf hmem (hfs'sub m hm)
      · exact hknotfs' hm
    refine ⟨?_, hframe'' m hmm⟩
    rw [hlen'']
    exact seg_mem_bound hEf' m hm
  · -- the chains still partition the slot range
    simp only [IndexList.capacity]
    rw [helems'']
    rcases hcase with ⟨hfs, _, helems⟩ | ⟨hfs, hfs', hkcap, _, helems⟩
    · rw [helems]
      have hcap : (l.elems.set k (some x)).length = l.capacity := by
        simp [IndexList.capacity]
      rw [hcap]
      refine List.Perm.trans ?_ hperm
      rw [hfs]
      have h1 : List.Perm ((us ++ [k]) ++ fs') (us ++ k :: fs') := by
        rw [List.append_assoc]
        exact List.Perm.append_left us (by simpa using List.perm_middle)
      exact h1
    · rw [helems, hfs']
      have hcap : (l.elems ++ [some x]).length = l.capacity + 1 := by
        simp [IndexList.capacity]
      rw [hcap, List.range_succ, List.append_nil, hkcap, hlen]
      show List.Perm (us ++ [l.elems.length]) (List.range l.capacity ++ [l.elems.length])
      refine List.Perm.append ?_ (List.Perm.refl _)
      have h1 := hperm
      rw [hfs, List.append_nil] at h1
      exact h1
  · -- size accounting
    simp only [IndexList.capacity] at hsize hlensum ⊢
    rw [hsize'', hsize', hsize, helems'']
    rcases hcase with ⟨hfs, _, helems⟩ | ⟨hfs, hfs', hkcap, _, helems⟩
    · rw [helems]
      have hfsl : fs.length = fs'.length + 1 := by rw [hfs]; rfl
      simp only [List.length_set]
      omega
    · rw [helems, hfs']
      have hfsl : fs.length = 0 := by rw [hfs]; rfl
      simp only [List.length_append, List.length_cons, List.length_nil]
      omega
  · -- used slots hold values
    intro m hm
    rw [helems'']
    rcases List.mem_append.mp hm with hmem | hmem
    · have hmk : m ≠ k := fun hcon => hknotus (hcon ▸ hmem)
      rcases hcase with ⟨_, _, helems⟩ | ⟨_, _, hkcap, _, helems⟩
      · rw [helems, getD_set_ne _ _ _ (fun hcon => hmk hcon.symm)]
        exact hoccU m hmem
      · rw [helems, getD_append_elem _ _ _ (by
          have := huslt m hmem
          simp only [IndexList.capacity] at this
          omega)]
        exact hoccU m hmem
    · have hmk : m = k := by simpa using hmem
      subst hmk
      rcases hcase with ⟨hfs, _, helems⟩ | ⟨_, _, hkcap, _, helems⟩
      · rw [helems]
        have hkcapb : m < l.elems.length := by
          have := hfslt m (by rw [hfs]; simp)
          simpa [IndexList.capacity] using this
        rw [getD_set_eq _ _ _ hkcapb]
        rfl
      · rw [helems, hkcap, hlen, getD_append_last]
        rfl
  · -- free slots hold nothing
    intro m hm
    rw [helems'']
    have hmfs : m ∈ fs := hfs'sub m hm
    have hmk : m ≠ k := fun hcon => hknotfs' (hcon ▸ hm)
    rcases hcase with ⟨_, _, helems⟩ | ⟨_, _, hkcap, _, helems⟩
    · rw [helems, getD_set_ne _ _ _ (fun hcon => hmk hcon.symm)]
      exact hoccF m hmfs
    · rw [helems, getD_append_elem _ _ _ (by
        have := hfslt m hmfs
        simp only [IndexList.capacity] at this
        omega)]
      exact hoccF m hmfs
  · -- array alignment
    rw [hlen'', helems'']
    rcases hcase with ⟨_, hnl, helems⟩ | ⟨_, _, _, hnl, helems⟩
    · rw [hnl, helems]
      simp [hlen]
    · rw [hnl, helems]
      simp [hlen]

/-- `insert_first` preserves well-formedness. -/
theorem Wf_insert_first {α : Type} {l : IndexList α} (x : α) (h : Wf l)
    (hbig : l.nodes.length + 2 < U32) : Wf (l.insert_first x).2 := by
  obtain ⟨us, fs, hEu, hEf, hperm, hsize, hoccU, hoccF, hlen⟩ := h
  obtain ⟨huslt, hfslt, hlensum, hndus, hndfs, hdisjuf⟩ := perm_facts hperm
  obtain ⟨k, fs', hk1, hcase, hEf', hused', hsize', hzero', hklt, hframe'⟩ :=
    new_node_spec (l := l) (some x) hEf hndfs (by omega)
  have hknotus : k ∉ us := by
    rcases hcase with ⟨hfs, _, _⟩ | ⟨_, _, hkcap, _, _⟩
    · intro hmem
      exact hdisjuf hmem (by rw [hfs]; simp)
    · intro hmem
      have := huslt k hmem
      simp only [IndexList.capacity] at this
      omega
  have hlen' : (l.new_node (some x)).2.nodes.length = l.nodes.length
      ∨ (l.new_node (some x)).2.nodes.length = l.nodes.length + 1 := by
    rcases hcase with ⟨_, hl, _⟩ | ⟨_, _, _, hl, _⟩
    · exact Or.inl hl
    · exact Or.inr hl
  have hbig2 : (l.new_node (some x)).2.nodes.length + 1 < U32 := by
    rcases hlen' with hl | hl <;> rw [hl] <;> omega
  have hEu2 : EndsOk (l.new_node (some x)).2.nodes (l.new_node (some x)).2.used us := by
    rw [hused']
    refine seg_frame ?_ hEu
    intro m hm
    have hmfs : m ∉ fs := fun hmem => hdisjuf hm hmem
    have hmk : m ≠ k := fun hcon => hknotus (hcon ▸ hm)
    refine ⟨?_, hframe' m hmfs hmk⟩
    have := seg_mem_bound hEu m hm
    rcases hlen' with hl | hl <;> omega
  have hfs'sub : ∀ m ∈ fs', m ∈ fs := by
    rcases hcase with ⟨hfs, _, _⟩ | ⟨_, hfs', _, _, _⟩
    · intro m hm; rw [hfs]; exact List.mem_cons_of_mem _ hm
    · intro m hm; rw [hfs'] at hm; cases hm
  have hknotfs' : k ∉ fs' := by
    rcases hcase with ⟨hfs, _, _⟩ | ⟨_, hfs', _, _, _⟩
    · intro hmem
      have hx := hndfs
      rw [hfs] at hx
      exact (List.nodup_cons.mp hx).1 hmem
    · intro hmem; rw [hfs'] at hmem; cases hmem
  obtain ⟨hseg'', hfree'', helems'', hsize'', hlen'', hframe''⟩ :=
    linkin_first_spec (l := (l.new_node (some x)).2) (n := k)
      hEu2 hndus hklt hknotus (by rw [hzero']; rfl) hbig2
  show Wf ((l.new_node (some x)).2.linkin_first (l.new_node (some x)).1)
  rw [hk1]
  refine ⟨k :: us, fs', hseg'', ?_, ?_, ?_, ?_, ?_, ?_⟩
  · rw [hfree'']
    refine seg_frame ?_ hEf'
    intro m hm
    have hmm : m ∉ k :: us := by
      simp only [List.mem_cons]
      rintro (rfl | hmem)
      · exact hknotfs' hm
      · exact hdisjuf hmem (hfs'sub m hm)
    refine ⟨?_, hframe'' m hmm⟩
    rw [hlen'']
    exact seg_mem_bound hEf' m hm
  · simp only [IndexList.capacity]
    rw [helems'']
    rcases hcase with ⟨hfs, _, helems⟩ | ⟨hfs, hfs', hkcap, _, helems⟩
    · rw [helems]
      have hcap : (l.elems.set k (some x)).length = l.capacity := by
        simp [IndexList.capacity]
      rw [hcap]
      refine List.Perm.trans ?_ hperm
      rw [hfs]
      show List.Perm ((k :: us) ++ fs') (us ++ k :: fs')
      exact List.perm_middle.symm
    · rw [helems, hfs']
      have hcap : (l.elems ++ [some x]).length = l.capacity + 1 := by
        simp [IndexList.capacity]
      rw [hcap, List.range_succ, List.append_nil]
      have hkeq : k = l.capacity := by
        simp [IndexList.capacity, hkcap, hlen]
      have h1 : List.Perm (k :: us) (us ++ [k]) :=
        (List.perm_append_singleton k us).symm
      have h2 := hperm
      rw [hfs, List.append_nil] at h2
      refine h1.trans ?_
      rw [hkeq]
      exact List.Perm.append h2 (List.Perm.refl _)
  · simp only [IndexList.capacity] at hsize hlensum ⊢
    rw [hsize'', hsize', hsize, helems'']
    rcases hcase with ⟨hfs, _, helems⟩ | ⟨hfs, hfs', hkcap, _, helems⟩
    · rw [helems]
      have hfsl : fs.length = fs'.length + 1 := by rw [hfs]; rfl
      simp only [List.length_set]
      omega
    · rw [helems, hfs']
      have hfsl : fs.length = 0 := by rw [hfs]; rfl
      simp only [List.length_append, List.length_cons, List.length_nil]
      omega
  · intro m hm
    rw [helems'']
    rcases List.mem_cons.mp hm with rfl | hmem
    · rcases hcase with ⟨hfs, _, helems⟩ | ⟨_, _, hkcap, _, helems⟩
      · rw [helems]
        have hkcapb : m < l.elems.length := by
          have := hfslt m (by rw [hfs]; simp)
          simpa [IndexList.capacity] using this
        rw [getD_set_eq _ _ _ hkcapb]
        rfl
      · rw [helems, hkcap, hlen, getD_append_last]
        rfl
    · have hmk : m ≠ k := fun hcon => hknotus (hcon ▸ hmem)
      rcases hcase with ⟨_, _, helems⟩ | ⟨_, _, hkcap, _, helems⟩
      · rw [helems, getD_set_ne _ _ _ (fun hcon => hmk hcon.symm)]
        exact hoccU m hmem
      · rw [helems, getD_append_elem _ _ _ (by
          have := huslt m hmem
          simp only [IndexList.capacity] at this
          omega)]
        exact hoccU m hmem
  · intro m hm
    rw [helems'']
    have hmfs : m ∈ fs := hfs'sub m hm
    have hmk : m ≠ k := fun hcon => hknotfs' (hcon ▸ hm)
    rcases hcase with ⟨_, _, helems⟩ | ⟨_, _, hkcap, _, helems⟩
    · rw [helems, getD_set_ne _ _ _ (fun hcon => hmk hcon.symm)]
      exact hoccF m hmfs
    · rw [helems, getD_append_elem _ _ _ (by
        have := hfslt m hmfs
        simp only [IndexList.capacity] at this
        omega)]
      exact hoccF m hmfs
  · rw [hlen'', helems'']
    rcases hcase with ⟨_, hnl, helems⟩ | ⟨_, _, _, hnl, helems⟩
    · rw [hnl, helems]
      simp [hlen]
    · rw [hnl, helems]
      simp [hlen]

/-- `remove` preserves well-formedness for every representable handle;
no occupancy precondition is needed because unoccupied handles are
no-ops. -/
theorem Wf_remove {α : Type} {l : IndexList α} (index : ListIndex) (h : Wf l)
    (hbig : l.nodes.length + 1 < U32) (hv : index.Valid) : Wf (l.remove index).2 := by
  obtain ⟨us, fs, hEu, hEf, hperm, hsize, hoccU, hoccF, hlen⟩ := h
  obtain ⟨huslt, hfslt, hlensum, hndus, hndfs, hdisjuf⟩ := perm_facts hperm
  cases hget : index.get with
  | none =>
    have hval : l.remove index = (none, l) := by
      simp only [IndexList.remove, IndexList.remove_elem_at_index, hget]
      rfl
    rw [hval]
    exact ⟨us, fs, hEu, hEf, hperm, hsize, hoccU, hoccF, hlen⟩
  | some s =>
    obtain ⟨hs1, hidx⟩ := ListIndex.eq_fromNat_of_valid hv hget
    subst hidx
    cases hD : l.elems.getD s none with
    | none =>
      have hval : l.remove (ListIndex.fromNat s) = (none, l) := by
        simp only [IndexList.remove, IndexList.remove_elem_at_index,
          ListIndex.fromNat_get hs1, hD]
        rfl
      rw [hval]
      exact ⟨us, fs, hEu, hEf, hperm, hsize, hoccU, hoccF, hlen⟩
    | some v =>
      have hslt : s < l.elems.length := by
        by_contra hcon
        rw [List.getD_eq_getElem?_getD, List.getElem?_eq_none (by omega)] at hD
        cases hD
      have hsus : s ∈ us := by
        have hrange : s ∈ List.range l.capacity := by
          simp only [IndexList.capacity]
          exact List.mem_range.mpr hslt
        rcases List.mem_append.mp (hperm.mem_iff.mpr hrange) with h1 | h1
        · exact h1
        · rw [hoccF s h1] at hD
          cases hD
      obtain ⟨A, B, husAB⟩ := List.append_of_mem hsus
      subst husAB
      have hsnotfs : s ∉ fs := fun hmem => hdisjuf hsus hmem
      have hsnotA : s ∉ A := by
        intro hmem
        have := List.disjoint_of_nodup_append hndus hmem (List.mem_cons_self _ _)
        exact this
      have hsnotB : s ∉ B := by
        have := hndus.of_append_right
        exact (List.nodup_cons.mp this).1
      have hval : l.remove (ListIndex.fromNat s)
          = (some v,
             (({ l with
                 elems := (l.elems.set s none),
                 size := l.size - 1 } : IndexList α).linkout_used
               (ListIndex.fromNat s)).linkin_free (ListIndex.fromNat s)) := by
        simp only [IndexList.remove, IndexList.remove_elem_at_index,
          ListIndex.fromNat_get hs1, hD]
        rfl
      rw [hval]
      obtain ⟨hE2, hfree2, helems2, hsize2, hlen2, hzero2, hframe2⟩ :=
        linkout_used_spec (A := A) (B := B) (n := s)
          (l :=
            { l with
              elems := (l.elems.set s none),
              size := l.size - 1 })
          (show EndsOk l.nodes l.used (A ++ s :: B) from hEu) hndus hbig
      have hEf2 : EndsOk (({ l with
          elems := (l.elems.set s none),
          size := l.size - 1 } : IndexList α).linkout_used
            (ListIndex.fromNat s)).nodes
          (({ l with
              elems := (l.elems.set s none),
              size := l.size - 1 } : IndexList α).linkout_used
            (ListIndex.fromNat s)).free fs := by
        rw [hfree2]
        show Seg _ ListIndex.new l.free.head fs l.free.tail ListIndex.new
        refine seg_frame ?_ hEf
        intro m hm
        have hmm : m ∉ A ++ s :: B := fun hmem => hdisjuf hmem hm
        refine ⟨?_, hframe2 m hmm⟩
        rw [hlen2]
        exact seg_mem_bound hEf m hm
      obtain ⟨hE3, hused3, helems3, hsize3, hlen3, hframe3⟩ :=
        linkin_free_spec (n := s) hEf2 hndfs
          (by rw [hlen2]; show s < l.nodes.length; omega) hsnotfs
          (by rw [hzero2]; rfl)
          (by rw [hlen2]; show l.nodes.length + 1 < U32; omega)
      refine ⟨A ++ B, fs ++ [s], ?_, hE3, ?_, ?_, ?_, ?_, ?_⟩
      · -- the used chain, framed through the free relink
        rw [hused3]
        refine seg_frame ?_ hE2
        intro m hm
        have hmm : m ∉ fs ++ [s] := by
          simp only [List.mem_append, List.mem_singleton]
          rintro (hmem | rfl)
          · exact hdisjuf (by
              rcases List.mem_append.mp hm with h1 | h1
              · exact List.mem_append_left _ h1
              · exact List.mem_append_right _ (List.mem_cons_of_mem _ h1)) hmem
          · rcases List.mem_append.mp hm with h1 | h1
            · exact hsnotA h1
            · exact hsnotB h1
        refine ⟨?_, hframe3 m hmm⟩
        rw [hlen3]
        exact seg_mem_bound hE2 m hm
      · -- partition
        simp only [IndexList.capacity]
        rw [helems3, helems2]
        show List.Perm ((A ++ B) ++ (fs ++ [s])) (List.range (l.elems.set s none).length)
        rw [List.length_set]
        refine List.Perm.trans ?_ hperm
        have h1 : List.Perm ((A ++ B) ++ (fs ++ [s])) (s :: ((A ++ B) ++ fs)) := by
          have h2 : (A ++ B) ++ (fs ++ [s]) = ((A ++ B) ++ fs) ++ [s] := by
            simp [List.append_assoc]
          rw [h2]
          exact List.perm_append_singleton s _
        refine h1.trans ?_
        have h3 : (A ++ s :: B) ++ fs = A ++ s :: (B ++ fs) := by
          simp [List.append_assoc]
        rw [h3]
        have h4 : s :: ((A ++ B) ++ fs) = s :: (A ++ (B ++ fs)) := by
          simp [List.append_assoc]
        rw [h4]
        exact List.perm_middle.symm
      · -- size accounting
        simp only [IndexList.capacity] at hsize hlensum ⊢
        rw [hsize3, hsize2, helems3, helems2]
        show l.size - 1 = (l.elems.set s none).length - (fs ++ [s]).length
        rw [List.length_set, List.length_append]
        simp only [List.length_cons, List.length_append] at hlensum
        simp only [List.length_singleton]
        omega
      · -- used slots hold values
        intro m hm
        rw [helems3, helems2]
        show ((l.elems.set s none).getD m none).isSome = true
        have hms : m ≠ s := by
          rcases List.mem_append.mp hm with h1 | h1
          · exact fun hcon => hsnotA (hcon ▸ h1)
          · exact fun hcon => hsnotB (hcon ▸ h1)
        rw [getD_set_ne _ _ _ (fun hcon => hms hcon.symm)]
        refine hoccU m ?_
        rcases List.mem_append.mp hm with h1 | h1
        · exact List.mem_append_left _ h1
        · exact List.mem_append_right _ (List.mem_cons_of_mem _ h1)
      · -- free slots hold nothing
        intro m hm
        rw [helems3, helems2]
        show (l.elems.set s none).getD m none = none
        rcases List.mem_append.mp hm with h1 | h1
        · have hms : m ≠ s := fun hcon => hsnotfs (hcon ▸ h1)
          rw [getD_set_ne _ _ _ (fun hcon => hms hcon.symm)]
          exact hoccF m h1
        · have hms : m = s := by simpa using h1
          subst hms
          rw [getD_set_eq _ _ _ hslt]
      · -- alignment
        rw [hlen3, hlen2, helems3, helems2]
        show l.nodes.length = (l.elems.set s none).length
        rw [List.length_set]
        exact hlen

/-- Occupancy check for a representable handle, read off `elems`. -/
theorem is_index_used_getD {α : Type} {l : IndexList α} {t : Nat} (ht1 : t + 1 < U32)
    (h : l.is_index_used (ListIndex.fromNat t) = true) :
    ∃ v, l.elems.getD t none = some v ∧ t < l.elems.length := by
  unfold IndexList.is_index_used IndexList.get at h
  rw [ListIndex.fromNat_get ht1] at h
  simp only [Option.getD_some] at h
  cases hq : l.elems.get? t with
  | none =>
    rw [hq] at h
    cases h
  | some o =>
    rw [hq] at h
    cases o with
    | none => cases h
    | some v =>
      refine ⟨v, ?_, ?_⟩
      · rw [List.getD_eq_getElem?_getD, ← List.get?_eq_getElem?, hq]
        rfl
      · by_contra hcon
        rw [List.get?_eq_getElem?, List.getElem?_eq_none (by omega)] at hq
        cases hq

/-- A used handle is non-null, representable, and names a used slot. -/
theorem valid_used_slot {α : Type} {l : IndexList α} {i : ListIndex} (hv : i.Valid)
    (hsmall : l.elems.length ≤ USIZEMAX)
    (h : l.is_index_used i = true) :
    ∃ t v, i = ListIndex.fromNat t ∧ t + 1 < U32 ∧
      l.elems.getD t none = some v ∧ t < l.elems.length := by
  rcases hv with rfl | ⟨t, ht1, rfl⟩
  · exfalso
    unfold IndexList.is_index_used IndexList.get at h
    have hnone : (ListIndex.new.get).getD USIZEMAX = USIZEMAX := rfl
    rw [hnone] at h
    cases hq : l.elems.get? USIZEMAX with
    | none =>
      rw [hq] at h
      cases h
    | some o =>
      rw [List.get?_eq_getElem?] at hq
      rw [List.getElem?_eq_none hsmall] at hq
      cases hq
  · obtain ⟨v, h1, h2⟩ := is_index_used_getD ht1 h
    exact ⟨t, v, rfl, ht1, h1, h2⟩
  
/-- Reassembling well-formedness after a pure used-chain reordering. -/
theorem Wf_reassemble {α : Type} {l' : IndexList α} {us' us fs : List Nat}
    (hEu' : EndsOk l'.nodes l'.used us') (hEf' : EndsOk l'.nodes l'.free fs)
    (hperm' : List.Perm us' us)
    (hperm : List.Perm (us ++ fs) (List.range l'.capacity))
    (hsize : l'.size = l'.capacity - fs.length)
    (hoccU : ∀ n ∈ us, (l'.elems.getD n none).isSome = true)
    (hoccF : ∀ n ∈ fs, l'.elems.getD n none = none)
    (hlen : l'.nodes.length = l'.elems.length) : Wf l' :=
  ⟨us', fs, hEu', hEf', (hperm'.append_right fs).trans hperm, hsize,
   fun n hn => hoccU n (hperm'.mem_iff.mp hn), hoccF, hlen⟩

/-- `clear` yields the empty well-formed list. -/
theorem Wf_clear {α : Type} (l : IndexList α) : Wf (l.clear) := by
  refine ⟨[], [], ⟨rfl, rfl⟩, ⟨rfl, rfl⟩, by simp [IndexList.clear, IndexList.capacity],
    by simp [IndexList.clear, IndexList.capacity], ?_, ?_, by simp [IndexList.clear]⟩
  · intro n hn
    cases hn
  · intro n hn
    cases hn

/-- The head handle of a well-formed list is representable. -/
theorem Wf_head_valid {α : Type} {l : IndexList α} (h : Wf l)
    (hbig : l.nodes.length + 1 < U32) : (l.used.head).Valid := by
  obtain ⟨us, fs, hEu, _, _, _, _, _, _⟩ := h
  cases us with
  | nil => exact hEu.2 ▸ ListIndex.valid_new
  | cons u0 us' =>
    have hu0 : u0 < l.nodes.length := seg_mem_bound hEu u0 (by simp)
    rw [hEu.1]
    exact ListIndex.valid_fromNat (by omega)

/-- The tail handle of a well-formed list is representable. -/
theorem Wf_tail_valid {α : Type} {l : IndexList α} (h : Wf l)
    (hbig : l.nodes.length + 1 < U32) : (l.used.tail).Valid := by
  obtain ⟨us, fs, hEu, _, _, _, _, _, _⟩ := h
  rcases Nat.eq_zero_or_pos us.length with hzero | hpos
  · have husnil : us = [] := List.length_eq_zero.mp hzero
    subst husnil
    rw [← hEu.1]
    exact ListIndex.valid_new
  · have hq := seg_q_getD hEu hpos
    have hmem : us.getD (us.length - 1) 0 ∈ us := getD_mem 0 (by omega)
    have := seg_mem_bound hEu _ hmem
    rw [hq]
    exact ListIndex.valid_fromNat (by omega)

/-- `remove_first` preserves well-formedness. -/
theorem Wf_remove_first {α : Type} {l : IndexList α} (h : Wf l)
    (hbig : l.nodes.length + 1 < U32) : Wf (l.remove_first).2 :=
  Wf_remove _ h hbig (Wf_head_valid h hbig)

/-- `remove_last` preserves well-formedness. -/
theorem Wf_remove_last {α : Type} {l : IndexList α} (h : Wf l)
    (hbig : l.nodes.length + 1 < U32) : Wf (l.remove_last).2 :=
  Wf_remove _ h hbig (Wf_tail_valid h hbig)

/-- `insert_before` preserves well-formedness when the anchor handle is
null or names an occupied slot. -/
theorem Wf_insert_before {α : Type} {l : IndexList α} (index : ListIndex) (x : α)
    (h : Wf l) (hbig : l.nodes.length + 2 < U32) (hv : index.Valid)
    (hocc : index.isNone = true ∨ l.is_index_used index = true) :
    Wf (l.insert_before index x).2 := by
  by_cases hnone : index.isNone = true
  · have hval : l.insert_before index x = l.insert_first x := by
      simp only [IndexList.insert_before]
      rw [if_pos hnone]
    rw [hval]
    exact Wf_insert_first x h hbig
  · have hused : l.is_index_used index = true := by
      rcases hocc with h1 | h1
      · exact absurd h1 hnone
      · exact h1
    obtain ⟨us, fs, hEu, hEf, hperm, hsize, hoccU, hoccF, hlen⟩ := h
    obtain ⟨huslt, hfslt, hlensum, hndus, hndfs, hdisjuf⟩ := perm_facts hperm
    obtain ⟨t, v, hidx, ht1, hgett, htlt⟩ := valid_used_slot hv
      (by
        have h1 : U32 = 4294967296 := rfl
        have h2 : USIZEMAX = 18446744073709551615 := rfl
        omega) hused
    subst hidx
    have htus : t ∈ us := by
      have hrange : t ∈ List.range l.capacity := by
        simp only [IndexList.capacity]
        exact List.mem_range.mpr htlt
      rcases List.mem_append.mp (hperm.mem_iff.mpr hrange) with h1 | h1
      · exact h1
      · rw [hoccF t h1] at hgett
        cases hgett
    obtain ⟨A, B, husAB⟩ := List.append_of_mem htus
    subst husAB
    have hval : l.insert_before (ListIndex.fromNat t) x
        = ((l.new_node (some x)).1,
           (l.new_node (some x)).2.linkin_this_before_that (l.new_node (some x)).1
             (ListIndex.fromNat t)) := by
      simp only [IndexList.insert_before]
      rw [if_neg hnone]
    rw [hval]
    obtain ⟨k, fs', hk1, hcase, hEf', hused', hsize', hzero', hklt, hframe'⟩ :=
      new_node_spec (some x) hEf hndfs (by omega)
    have hknotus : k ∉ A ++ t :: B := by
      rcases hcase with ⟨hfs, _, _⟩ | ⟨_, _, hkcap, _, _⟩
      · intro hmem
        exact hdisjuf hmem (by rw [hfs]; simp)
      · intro hmem
        have := huslt k hmem
        simp only [IndexList.capacity] at this
        omega
    have hlen' : (l.new_node (some x)).2.nodes.length = l.nodes.length
        ∨ (l.new_node (some x)).2.nodes.length = l.nodes.length + 1 := by
      rcases hcase with ⟨_, hl, _⟩ | ⟨_, _, _, hl, _⟩
      · exact Or.inl hl
      · exact Or.inr hl
    have hbig2 : (l.new_node (some x)).2.nodes.length + 1 < U32 := by
      rcases hlen' with hl | hl <;> rw [hl] <;> omega
    have hEu2 : EndsOk (l.new_node (some x)).2.nodes (l.new_node (some x)).2.used
        (A ++ t :: B) := by
      rw [hused']
      refine seg_frame ?_ hEu
      intro m hm
      have hmfs : m ∉ fs := fun hmem => hdisjuf hm hmem
      have hmk : m ≠ k := fun hcon => hknotus (hcon ▸ hm)
      refine ⟨?_, hframe' m hmfs hmk⟩
      have := seg_mem_bound hEu m hm
      rcases hlen' with hl | hl <;> omega
    have hfs'sub : ∀ m ∈ fs', m ∈ fs := by
      rcases hcase with ⟨hfs, _, _⟩ | ⟨_, hfs', _, _, _⟩
      · intro m hm; rw [hfs]; exact List.mem_cons_of_mem _ hm
      · intro m hm; rw [hfs'] at hm; cases hm
    have hknotfs' : k ∉ fs' := by
      rcases hcase with ⟨hfs, _, _⟩ | ⟨_, hfs', _, _, _⟩
      · intro hmem
        have hx := hndfs
        rw [hfs] at hx
        exact (List.nodup_cons.mp hx).1 hmem
      · intro hmem; rw [hfs'] at hmem; cases hmem
    obtain ⟨hseg'', hfree'', helems'', hsize'', hlen'', hframe''⟩ :=
      linkin_before_spec (l := (l.new_node (some x)).2) (A := A) (B := B) (t := t)
        (n := k) hEu2 hndus hklt hknotus hbig2
    rw [hk1]
    show Wf ((l.new_node (some x)).2.linkin_this_before_that (ListIndex.fromNat k)
      (ListIndex.fromNat t))
    refine ⟨A ++ k :: t :: B, fs', hseg'', ?_, ?_, ?_, ?_, ?_, ?_⟩
    · rw [hfree'']
      refine seg_frame ?_ hEf'
      intro m hm
      have hmm : m ∉ A ++ k :: t :: B := by
        intro hmem
        have hmfs : m ∈ fs := hfs'sub m hm
        rcases List.mem_append.mp hmem with h1 | h1
        · exact hdisjuf (List.mem_append_left _ h1) hmfs
        · rcases List.mem_cons.mp h1 with rfl | h2
          · exact hknotfs' hm
          · exact hdisjuf (List.mem_append_right _ h2) hmfs
      refine ⟨?_, hframe'' m hmm⟩
      rw [hlen'']
      exact seg_mem_bound hEf' m hm
    · simp only [IndexList.capacity]
      rw [helems'']
      have hP1 : List.Perm ((A ++ k :: t :: B) ++ fs')
          (k :: ((A ++ t :: B) ++ fs')) := by
        have e1 : (A ++ k :: t :: B) ++ fs' = A ++ k :: ((t :: B) ++ fs') := by
          simp [List.append_assoc]
        have e2 : k :: ((A ++ t :: B) ++ fs') = k :: (A ++ ((t :: B) ++ fs')) := by
          simp [List.append_assoc]
        rw [e1, e2]
        exact List.perm_middle
      rcases hcase with ⟨hfs, _, helems⟩ | ⟨hfs, hfs', hkcap, _, helems⟩
      · rw [helems]
        have hcap : (l.elems.set k (some x)).length = l.capacity := by
          simp [IndexList.capacity]
        rw [hcap]
        refine hP1.trans (List.Perm.trans ?_ hperm)
        rw [hfs]
        exact List.perm_middle.symm
      · rw [helems, hfs']
        have hcap : (l.elems ++ [some x]).length = l.capacity + 1 := by
          simp [IndexList.capacity]
        rw [hcap, List.range_succ]
        have hkeq : k = l.capacity := by
          simp [IndexList.capacity, hkcap, hlen]
        rw [hfs'] at hP1
        simp only [List.append_nil] at hP1 ⊢
        refine hP1.trans ?_
        have h1 : List.Perm (k :: (A ++ t :: B)) ((A ++ t :: B) ++ [k]) :=
          (List.perm_append_singleton k _).symm
        refine h1.trans ?_
        have h2 := hperm
        rw [hfs, List.append_nil] at h2
        rw [hkeq]
        exact List.Perm.append h2 (List.Perm.refl _)
    · simp only [IndexList.capacity] at hsize hlensum ⊢
      rw [hsize'', hsize', hsize, helems'']
      rcases hcase with ⟨hfs, _, helems⟩ | ⟨hfs, hfs', hkcap, _, helems⟩
      · rw [helems]
        have hfsl : fs.length = fs'.length + 1 := by rw [hfs]; rfl
        simp only [List.length_set]
        omega
      · rw [helems, hfs']
        have hfsl : fs.length = 0 := by rw [hfs]; rfl
        simp only [List.length_append, List.length_cons, List.length_nil]
        omega
    · intro m hm
      rw [helems'']
      have hmem_or : m = k ∨ m ∈ A ++ t :: B := by
        rcases List.mem_append.mp hm with h1 | h1
        · exact Or.inr (List.mem_append_left _ h1)
        · rcases List.mem_cons.mp h1 with rfl | h2
          · exact Or.inl rfl
          · exact Or.inr (List.mem_append_right _ h2)
      rcases hmem_or with rfl | hmem
      · rcases hcase with ⟨hfs, _, helems⟩ | ⟨_, _, hkcap, _, helems⟩
        · rw [helems]
          have hkcapb : m < l.elems.length := by
            have := hfslt m (by rw [hfs]; simp)
            simpa [IndexList.capacity] using this
          rw [getD_set_eq _ _ _ hkcapb]
          rfl
        · rw [helems, hkcap, hlen, getD_append_last]
          rfl
      · have hmk : m ≠ k := fun hcon => hknotus (hcon ▸ hmem)
        rcases hcase with ⟨_, _, helems⟩ | ⟨_, _, hkcap, _, helems⟩
        · rw [helems, getD_set_ne _ _ _ (fun hcon => hmk hcon.symm)]
          exact hoccU m hmem
        · rw [helems, getD_append_elem _ _ _ (by
            have := huslt m hmem
            simp only [IndexList.capacity] at this
            omega)]
          exact hoccU m hmem
    · intro m hm
      rw [helems'']
      have hmfs : m ∈ fs := hfs'sub m hm
      have hmk : m ≠ k := fun hcon => hknotfs' (hcon ▸ hm)
      rcases hcase with ⟨_, _, helems⟩ | ⟨_, _, hkcap, _, helems⟩
      · rw [helems, getD_set_ne _ _ _ (fun hcon => hmk hcon.symm)]
        exact hoccF m hmfs
      · rw [helems, getD_append_elem _ _ _ (by
          have := hfslt m hmfs
          simp only [IndexList.capacity] at this
          omega)]
        exact hoccF m hmfs
    · rw [hlen'', helems'']
      rcases hcase with ⟨_, hnl, helems⟩ | ⟨_, _, _, hnl, helems⟩
      · rw [hnl, helems]
        simp [hlen]
      · rw [hnl, helems]
        simp [hlen]

/-- `insert_after` preserves well-formedness when the anchor handle is
null or names an occupied slot. -/
theorem Wf_insert_after {α : Type} {l : IndexList α} (index : ListIndex) (x : α)
    (h : Wf l) (hbig : l.nodes.length + 2 < U32) (hv : index.Valid)
    (hocc : index.isNone = true ∨ l.is_index_used index = true) :
    Wf (l.insert_after index x).2 := by
  by_cases hnone : index.isNone = true
  · have hval : l.insert_after index x = l.insert_last x := by
      simp only [IndexList.insert_after]
      rw [if_pos hnone]
    rw [hval]
    exact Wf_insert_last x h hbig
  · have hused : l.is_index_used index = true := by
      rcases hocc with h1 | h1
      · exact absurd h1 hnone
      · exact h1
    obtain ⟨us, fs, hEu, hEf, hperm, hsize, hoccU, hoccF, hlen⟩ := h
    obtain ⟨huslt, hfslt, hlensum, hndus, hndfs, hdisjuf⟩ := perm_facts hperm
    obtain ⟨t, v, hidx, ht1, hgett, htlt⟩ := valid_used_slot hv
      (by
        have h1 : U32 = 4294967296 := rfl
        have h2 : USIZEMAX = 18446744073709551615 := rfl
        omega) hused
    subst hidx
    have htus : t ∈ us := by
      have hrange : t ∈ List.range l.capacity := by
        simp only [IndexList.capacity]
        exact List.mem_range.mpr htlt
      rcases List.mem_append.mp (hperm.mem_iff.mpr hrange) with h1 | h1
      · exact h1
      · rw [hoccF t h1] at hgett
        cases hgett
    obtain ⟨A, B, husAB⟩ := List.append_of_mem htus
    subst husAB
    have hval : l.insert_after (ListIndex.fromNat t) x
        = ((l.new_node (some x)).1,
           (l.new_node (some x)).2.linkin_this_after_that (l.new_node (some x)).1
             (ListIndex.fromNat t)) := by
      simp only [IndexList.insert_after]
      rw [if_neg hnone]
    rw [hval]
    obtain ⟨k, fs', hk1, hcase, hEf', hused', hsize', hzero', hklt, hframe'⟩ :=
      new_node_spec (some x) hEf hndfs (by omega)
    have hknotus : k ∉ A ++ t :: B := by
      rcases hcase with ⟨hfs, _, _⟩ | ⟨_, _, hkcap, _, _⟩
      · intro hmem
        exact hdisjuf hmem (by rw [hfs]; simp)
      · intro hmem
        have := huslt k hmem
        simp only [IndexList.capacity] at this
        omega
    have hlen' : (l.new_node (some x)).2.nodes.length = l.nodes.length
        ∨ (l.new_node (some x)).2.nodes.length = l.nodes.length + 1 := by
      rcases hcase with ⟨_, hl, _⟩ | ⟨_, _, _, hl, _⟩
      · exact Or.inl hl
      · exact Or.inr hl
    have hbig2 : (l.new_node (some x)).2.nodes.length + 1 < U32 := by
      rcases hlen' with hl | hl <;> rw [hl] <;> omega
    have hEu2 : EndsOk (l.new_node (some x)).2.nodes (l.new_node (some x)).2.used
        (A ++ t :: B) := by
      rw [hused']
      refine seg_frame ?_ hEu
      intro m hm
      have hmfs : m ∉ fs := fun hmem => hdisjuf hm hmem
      have hmk : m ≠ k := fun hcon => hknotus (hcon ▸ hm)
      refine ⟨?_, hframe' m hmfs hmk⟩
      have := seg_mem_bound hEu m hm
      rcases hlen' with hl | hl <;> omega
    have hfs'sub : ∀ m ∈ fs', m ∈ fs := by
      rcases hcase with ⟨hfs, _, _⟩ | ⟨_, hfs', _, _, _⟩
      · intro m hm; rw [hfs]; exact List.mem_cons_of_mem _ hm
      · intro m hm; rw [hfs'] at hm; cases hm
    have hknotfs' : k ∉ fs' := by
      rcases hcase with ⟨hfs, _, _⟩ | ⟨_, hfs', _, _, _⟩
      · intro hmem
        have hx := hndfs
        rw [hfs] at hx
        exact (List.nodup_cons.mp hx).1 hmem
      · intro hmem; rw [hfs'] at hmem; cases hmem
    obtain ⟨hseg'', hfree'', helems'', hsize'', hlen'', hframe''⟩ :=
      linkin_after_spec (l := (l.new_node (some x)).2) (A := A) (B := B) (t := t)
        (n := k) hEu2 hndus hklt hknotus hbig2
    rw [hk1]
    show Wf ((l.new_node (some x)).2.linkin_this_after_that (ListIndex.fromNat k)
      (ListIndex.fromNat t))
    refine ⟨A ++ t :: k :: B, fs', hseg'', ?_, ?_, ?_, ?_, ?_, ?_⟩
    · rw [hfree'']
      refine seg_frame ?_ hEf'
      intro m hm
      have hmm : m ∉ A ++ t :: k :: B := by
        intro hmem
        have hmfs : m ∈ fs := hfs'sub m hm
        rcases List.mem_append.mp hmem with h1 | h1
        · exact hdisjuf (List.mem_append_left _ h1) hmfs
        · rcases List.mem_cons.mp h1 with rfl | h2
          · exact hdisjuf (List.mem_append_right _ (List.mem_cons_self _ _)) hmfs
          · rcases List.mem_cons.mp h2 with rfl | h3
            · exact hknotfs' hm
            · exact hdisjuf (List.mem_append_right _ (List.mem_cons_of_mem _ h3)) hmfs
      refine ⟨?_, hframe'' m hmm⟩
      rw [hlen'']
      exact seg_mem_bound hEf' m hm
    · simp only [IndexList.capacity]
      rw [helems'']
      have hP1 : List.Perm ((A ++ t :: k :: B) ++ fs')
          (k :: ((A ++ t :: B) ++ fs')) := by
        have e1 : (A ++ t :: k :: B) ++ fs' = (A ++ [t]) ++ k :: (B ++ fs') := by
          simp [List.append_assoc]
        have e2 : k :: ((A ++ t :: B) ++ fs') = k :: ((A ++ [t]) ++ (B ++ fs')) := by
          simp [List.append_assoc]
        rw [e1, e2]
        exact List.perm_middle
      rcases hcase with ⟨hfs, _, helems⟩ | ⟨hfs, hfs', hkcap, _, helems⟩
      · rw [helems]
        have hcap : (l.elems.set k (some x)).length = l.capacity := by
          simp [IndexList.capacity]
        rw [hcap]
        refine hP1.trans (List.Perm.trans ?_ hperm)
        rw [hfs]
        exact List.perm_middle.symm
      · rw [helems, hfs']
        have hcap : (l.elems ++ [some x]).length = l.capacity + 1 := by
          simp [IndexList.capacity]
        rw [hcap, List.range_succ]
        have hkeq : k = l.capacity := by
          simp [IndexList.capacity, hkcap, hlen]
        rw [hfs'] at hP1
        simp only [List.append_nil] at hP1 ⊢
        refine hP1.trans ?_
        have h1 : List.Perm (k :: (A ++ t :: B)) ((A ++ t :: B) ++ [k]) :=
          (List.perm_append_singleton k _).symm
        refine h1.trans ?_
        have h2 := hperm
        rw [hfs, List.append_nil] at h2
        rw [hkeq]
        exact List.Perm.append h2 (List.Perm.refl _)
    · simp only [IndexList.capacity] at hsize hlensum ⊢
      rw [hsize'', hsize', hsize, helems'']
      rcases hcase with ⟨hfs, _, helems⟩ | ⟨hfs, hfs', hkcap, _, helems⟩
      · rw [helems]
        have hfsl : fs.length = fs'.length + 1 := by rw [hfs]; rfl
        simp only [List.length_set]
        omega
      · rw [helems, hfs']
        have hfsl : fs.length = 0 := by rw [hfs]; rfl
        simp only [List.length_append, List.length_cons, List.length_nil]
        omega
    · intro m hm
      rw [helems'']
      have hmem_or : m = k ∨ m ∈ A ++ t :: B := by
        rcases List.mem_append.mp hm with h1 | h1
        · exact Or.inr (List.mem_append_left _ h1)
        · rcases List.mem_cons.mp h1 with rfl | h2
          · exact Or.inr (List.mem_append_right _ (List.mem_cons_self _ _))
          · rcases List.mem_cons.mp h2 with rfl | h3
            · exact Or.inl rfl
            · exact Or.inr (List.mem_append_right _ (List.mem_cons_of_mem _ h3))
      rcases hmem_or with rfl | hmem
      · rcases hcase with ⟨hfs, _, helems⟩ | ⟨_, _, hkcap, _, helems⟩
        · rw [helems]
          have hkcapb : m < l.elems.length := by
            have := hfslt m (by rw [hfs]; simp)
            simpa [IndexList.capacity] using this
          rw [getD_set_eq _ _ _ hkcapb]
          rfl
        · rw [helems, hkcap, hlen, getD_append_last]
          rfl
      · have hmk : m ≠ k := fun hcon => hknotus (hcon ▸ hmem)
        rcases hcase with ⟨_, _, helems⟩ | ⟨_, _, hkcap, _, helems⟩
        · rw [helems, getD_set_ne _ _ _ (fun hcon => hmk hcon.symm)]
          exact hoccU m hmem
        · rw [helems, getD_append_elem _ _ _ (by
            have := huslt m hmem
            simp only [IndexList.capacity] at this
            omega)]
          exact hoccU m hmem
    · intro m hm
      rw [helems'']
      have hmfs : m ∈ fs := hfs'sub m hm
      have hmk : m ≠ k := fun hcon => hknotfs' (hcon ▸ hm)
      rcases hcase with ⟨_, _, helems⟩ | ⟨_, _, hkcap, _, helems⟩
      · rw [helems, getD_set_ne _ _ _ (fun hcon => hmk hcon.symm)]
        exact hoccF m hmfs
      · rw [helems, getD_append_elem _ _ _ (by
          have := hfslt m hmfs
          simp only [IndexList.capacity] at this
          omega)]
        exact hoccF m hmfs
    · rw [hlen'', helems'']
      rcases hcase with ⟨_, hnl, helems⟩ | ⟨_, _, _, hnl, helems⟩
      · rw [hnl, helems]
        simp [hlen]
      · rw [hnl, helems]
        simp [hlen]

/-- `shift_index_before` preserves well-formedness for representable
handles; invalid or equal handles are a no-op. -/
theorem Wf_shift_index_before {α : Type} {l : IndexList α} (this that : ListIndex)
    (h : Wf l) (hbig : l.nodes.length + 1 < U32) (hvthis : this.Valid)
    (hvthat : that.Valid) : Wf (l.shift_index_before this that).2 := by
  simp only [IndexList.shift_index_before]
  by_cases hcond : (l.is_index_used this && l.is_index_used that
      && decide (this ≠ that)) = true
  · rw [if_pos hcond]
    have hcond' := hcond
    simp only [Bool.and_eq_true, decide_eq_true_eq] at hcond'
    obtain ⟨⟨hu1, hu2⟩, hne⟩ := hcond'
    obtain ⟨us, fs, hEu, hEf, hperm, hsize, hoccU, hoccF, hlen⟩ := h
    obtain ⟨huslt, hfslt, hlensum, hndus, hndfs, hdisjuf⟩ := perm_facts hperm
    have hsmall : l.elems.length ≤ USIZEMAX := by
      have h1 : U32 = 4294967296 := rfl
      have h2 : USIZEMAX = 18446744073709551615 := rfl
      omega
    obtain ⟨s, v, hidxs, hs1, hgets, hslt⟩ := valid_used_slot hvthis hsmall hu1
    obtain ⟨t, w, hidxt, ht1, hgett, htlt⟩ := valid_used_slot hvthat hsmall hu2
    subst hidxs
    subst hidxt
    have hst : s ≠ t := fun hcon => hne (by rw [hcon])
    have hmemus : ∀ {m : Nat} {u : α}, l.elems.getD m none = some u → m < l.elems.length
        → m ∈ us := by
      intro m u hm hmlt
      have hrange : m ∈ List.range l.capacity := by
        simp only [IndexList.capacity]
        exact List.mem_range.mpr hmlt
      rcases List.mem_append.mp (hperm.mem_iff.mpr hrange) with h1 | h1
      · exact h1
      · rw [hoccF m h1] at hm
        cases hm
    have hsus : s ∈ us := hmemus hgets hslt
    have htus : t ∈ us := hmemus hgett htlt
    obtain ⟨A, B, husAB⟩ := List.append_of_mem hsus
    subst husAB
    have hsnotA : s ∉ A := fun hmem =>
      List.disjoint_of_nodup_append hndus hmem (List.mem_cons_self _ _)
    have hsnotB : s ∉ B := (List.nodup_cons.mp hndus.of_append_right).1
    obtain ⟨hE2, hfree2, helems2, hsize2, hlen2, hzero2, hframe2⟩ :=
      linkout_used_spec (A := A) (B := B) (n := s) hEu hndus hbig
    have htAB : t ∈ A ++ B := by
      rcases List.mem_append.mp htus with h1 | h1
      · exact List.mem_append_left _ h1
      · rcases List.mem_cons.mp h1 with rfl | h2
        · exact absurd rfl hst
        · exact List.mem_append_right _ h2
    obtain ⟨A2, B2, hAB⟩ := List.append_of_mem htAB
    have hndAB : (A ++ B).Nodup := by
      have hsub : (A ++ B).Sublist (A ++ s :: B) :=
        List.Sublist.append_left (List.sublist_cons_self s B) A
      exact hndus.sublist hsub
    have hsnotAB : s ∉ A ++ B := by
      intro hmem
      rcases List.mem_append.mp hmem with h1 | h1
      · exact hsnotA h1
      · exact hsnotB h1
    have hABsub : ∀ m, m ∈ A ++ B → m ∈ A ++ s :: B := by
      intro m hm
      rcases List.mem_append.mp hm with h1 | h1
      · exact List.mem_append_left _ h1
      · exact List.mem_append_right _ (List.mem_cons_of_mem _ h1)
    have hE2' : EndsOk (l.linkout_used (ListIndex.fromNat s)).nodes
        (l.linkout_used (ListIndex.fromNat s)).used (A2 ++ t :: B2) := by
      rw [← hAB]
      exact hE2
    obtain ⟨hseg3, hfree3, helems3, hsize3, hlen3, hframe3⟩ :=
      linkin_before_spec (A := A2) (B := B2) (t := t) (n := s) hE2'
        (hAB ▸ hndAB) (by rw [hlen2]; omega) (hAB ▸ hsnotAB)
        (by rw [hlen2]; omega)
    show Wf ((l.linkout_used (ListIndex.fromNat s)).linkin_this_before_that
      (ListIndex.fromNat s) (ListIndex.fromNat t))
    have helems_all : ((l.linkout_used (ListIndex.fromNat s)).linkin_this_before_that
        (ListIndex.fromNat s) (ListIndex.fromNat t)).elems = l.elems := by
      rw [helems3, helems2]
    have hsize_all : ((l.linkout_used (ListIndex.fromNat s)).linkin_this_before_that
        (ListIndex.fromNat s) (ListIndex.fromNat t)).size = l.size := by
      rw [hsize3, hsize2]
    refine @Wf_reassemble _ _ _ (A ++ s :: B) fs hseg3 ?_ ?_ ?_ ?_ ?_ ?_ ?_
    · -- the free chain is untouched by both steps
      rw [hfree3, hfree2]
      refine seg_frame ?_ hEf
      intro m hm
      have hm1 : m ∉ A ++ s :: B := fun hmem => hdisjuf hmem hm
      have hm2 : m ∉ A2 ++ s :: t :: B2 := by
        intro hmem
        rcases List.mem_append.mp hmem with h1 | h1
        · exact hm1 (hABsub m (hAB ▸ List.mem_append_left _ h1))
        · rcases List.mem_cons.mp h1 with rfl | h2
          · exact hm1 (List.mem_append_right _ (List.mem_cons_self _ _))
          · rcases List.mem_cons.mp h2 with rfl | h3
            · exact hm1 (hABsub m htAB)
            · exact hm1 (hABsub m
                (hAB ▸ List.mem_append_right _ (List.mem_cons_of_mem _ h3)))
      refine ⟨?_, by rw [hframe3 m hm2, hframe2 m hm1]⟩
      rw [hlen3, hlen2]
      exact seg_mem_bound hEf m hm
    · -- the moved chain is a permutation of the original one
      have h1 : List.Perm (A2 ++ s :: t :: B2) (s :: (A2 ++ t :: B2)) := by
        have e1 : A2 ++ s :: t :: B2 = A2 ++ s :: (t :: B2) := rfl
        rw [e1]
        exact List.perm_middle
      refine h1.trans ?_
      rw [← hAB]
      exact List.perm_middle.symm
    · simp only [IndexList.capacity]
      rw [helems_all]
      exact hperm
    · rw [hsize_all]
      simp only [IndexList.capacity]
      rw [helems_all]
      exact hsize
    · intro n hn
      rw [helems_all]
      exact hoccU n hn
    · intro n hn
      rw [helems_all]
      exact hoccF n hn
    · rw [hlen3, hlen2, helems_all]
      exact hlen
  · rw [if_neg hcond]
    exact h

/-- `shift_index_after` preserves well-formedness for representable
handles; invalid or equal handles are a no-op. -/
theorem Wf_shift_index_after {α : Type} {l : IndexList α} (this that : ListIndex)
    (h : Wf l) (hbig : l.nodes.length + 1 < U32) (hvthis : this.Valid)
    (hvthat : that.Valid) : Wf (l.shift_index_after this that).2 := by
  simp only [IndexList.shift_index_after]
  by_cases hcond : (l.is_index_used this && l.is_index_used that
      && decide (this ≠ that)) = true
  · rw [if_pos hcond]
    have hcond' := hcond
    simp only [Bool.and_eq_true, decide_eq_true_eq] at hcond'
    obtain ⟨⟨hu1, hu2⟩, hne⟩ := hcond'
    obtain ⟨us, fs, hEu, hEf, hperm, hsize, hoccU, hoccF, hlen⟩ := h
    obtain ⟨huslt, hfslt, hlensum, hndus, hndfs, hdisjuf⟩ := perm_facts hperm
    have hsmall : l.elems.length ≤ USIZEMAX := by
      have h1 : U32 = 4294967296 := rfl
      have h2 : USIZEMAX = 18446744073709551615 := rfl
      omega
    obtain ⟨s, v, hidxs, hs1, hgets, hslt⟩ := valid_used_slot hvthis hsmall hu1
    obtain ⟨t, w, hidxt, ht1, hgett, htlt⟩ := valid_used_slot hvthat hsmall hu2
    subst hidxs
    subst hidxt
    have hst : s ≠ t := fun hcon => hne (by rw [hcon])
    have hmemus : ∀ {m : Nat} {u : α}, l.elems.getD m none = some u → m < l.elems.length
        → m ∈ us := by
      intro m u hm hmlt
      have hrange : m ∈ List.range l.capacity := by
        simp only [IndexList.capacity]
        exact List.mem_range.mpr hmlt
      rcases List.mem_append.mp (hperm.mem_iff.mpr hrange) with h1 | h1
      · exact h1
      · rw [hoccF m h1] at hm
        cases hm
    have hsus : s ∈ us := hmemus hgets hslt
    have htus : t ∈ us := hmemus hgett htlt
    obtain ⟨A, B, husAB⟩ := List.append_of_mem hsus
    subst husAB
    have hsnotA : s ∉ A := fun hmem =>
      List.disjoint_of_nodup_append hndus hmem (List.mem_cons_self _ _)
    have hsnotB : s ∉ B := (List.nodup_cons.mp hndus.of_append_right).1
    obtain ⟨hE2, hfree2, helems2, hsize2, hlen2, hzero2, hframe2⟩ :=
      linkout_used_spec (A := A) (B := B) (n := s) hEu hndus hbig
    have htAB : t ∈ A ++ B := by
      rcases List.mem_append.mp htus with h1 | h1
      · exact List.mem_append_left _ h1
      · rcases List.mem_cons.mp h1 with rfl | h2
        · exact absurd rfl hst
        · exact List.mem_append_right _ h2
    obtain ⟨A2, B2, hAB⟩ := List.append_of_mem htAB
    have hndAB : (A ++ B).Nodup := by
      have hsub : (A ++ B).Sublist (A ++ s :: B) :=
        List.Sublist.append_left (List.sublist_cons_self s B) A
      exact hndus.sublist hsub
    have hsnotAB : s ∉ A ++ B := by
      intro hmem
      rcases List.mem_append.mp hmem with h1 | h1
      · exact hsnotA h1
      · exact hsnotB h1
    have hABsub : ∀ m, m ∈ A ++ B → m ∈ A ++ s :: B := by
      intro m hm
      rcases List.mem_append.mp hm with h1 | h1
      · exact List.mem_append_left _ h1
      · exact List.mem_append_right _ (List.mem_cons_of_mem _ h1)
    have hE2' : EndsOk (l.linkout_used (ListIndex.fromNat s)).nodes
        (l.linkout_used (ListIndex.fromNat s)).used (A2 ++ t :: B2) := by
      rw [← hAB]
      exact hE2
    obtain ⟨hseg3, hfree3, helems3, hsize3, hlen3, hframe3⟩ :=
      linkin_after_spec (A := A2) (B := B2) (t := t) (n := s) hE2'
        (hAB ▸ hndAB) (by rw [hlen2]; omega) (hAB ▸ hsnotAB)
        (by rw [hlen2]; omega)
    show Wf ((l.linkout_used (ListIndex.fromNat s)).linkin_this_after_that
      (ListIndex.fromNat s) (ListIndex.fromNat t))
    have helems_all : ((l.linkout_used (ListIndex.fromNat s)).linkin_this_after_that
        (ListIndex.fromNat s) (ListIndex.fromNat t)).elems = l.elems := by
      rw [helems3, helems2]
    have hsize_all : ((l.linkout_used (ListIndex.fromNat s)).linkin_this_after_that
        (ListIndex.fromNat s) (ListIndex.fromNat t)).size = l.size := by
      rw [hsize3, hsize2]
    refine @Wf_reassemble _ _ _ (A ++ s :: B) fs hseg3 ?_ ?_ ?_ ?_ ?_ ?_ ?_
    · rw [hfree3, hfree2]
      refine seg_frame ?_ hEf
      intro m hm
      have hm1 : m ∉ A ++ s :: B := fun hmem => hdisjuf hmem hm
      have hm2 : m ∉ A2 ++ t :: s :: B2 := by
        intro hmem
        rcases List.mem_append.mp hmem with h1 | h1
        · exact hm1 (hABsub m (hAB ▸ List.mem_append_left _ h1))
        · rcases List.mem_cons.mp h1 with rfl | h2
          · exact hm1 (hABsub m htAB)
          · rcases List.mem_cons.mp h2 with rfl | h3
            · exact hm1 (List.mem_append_right _ (List.mem_cons_self _ _))
            · exact hm1 (hABsub m
                (hAB ▸ List.mem_append_right _ (List.mem_cons_of_mem _ h3)))
      refine ⟨?_, by rw [hframe3 m hm2, hframe2 m hm1]⟩
      rw [hlen3, hlen2]
      exact seg_mem_bound hEf m hm
    · have h1 : List.Perm (A2 ++ t :: s :: B2) (s :: (A2 ++ t :: B2)) := by
        have e1 : A2 ++ t :: s :: B2 = (A2 ++ [t]) ++ s :: B2 := by
          simp [List.append_assoc]
        have e2 : s :: (A2 ++ t :: B2) = s :: ((A2 ++ [t]) ++ B2) := by
          simp [List.append_assoc]
        rw [e1, e2]
        exact List.perm_middle
      refine h1.trans ?_
      rw [← hAB]
      exact List.perm_middle.symm
    · simp only [IndexList.capacity]
      rw [helems_all]
      exact hperm
    · rw [hsize_all]
      simp only [IndexList.capacity]
      rw [helems_all]
      exact hsize
    · intro n hn
      rw [helems_all]
      exact hoccU n hn
    · intro n hn
      rw [helems_all]
      exact hoccF n hn
    · rw [hlen3, hlen2, helems_all]
      exact hlen
  · rw [if_neg hcond]
    exact h

/-- `shift_index_to_front` preserves well-formedness for representable
handles; an unused handle is a no-op. -/
theorem Wf_shift_index_to_front {α : Type} {l : IndexList α} (this : ListIndex)
    (h : Wf l) (hbig : l.nodes.length + 1 < U32) (hvthis : this.Valid) :
    Wf (l.shift_index_to_front this).2 := by
  simp only [IndexList.shift_index_to_front]
  by_cases hcond : l.is_index_used this = true
  · rw [if_pos hcond]
    obtain ⟨us, fs, hEu, hEf, hperm, hsize, hoccU, hoccF, hlen⟩ := h
    obtain ⟨huslt, hfslt, hlensum, hndus, hndfs, hdisjuf⟩ := perm_facts hperm
    have hsmall : l.elems.length ≤ USIZEMAX := by
      have h1 : U32 = 4294967296 := rfl
      have h2 : USIZEMAX = 18446744073709551615 := rfl
      omega
    obtain ⟨s, v, hidxs, hs1, hgets, hslt⟩ := valid_used_slot hvthis hsmall hcond
    subst hidxs
    have hsus : s ∈ us := by
      have hrange : s ∈ List.range l.capacity := by
        simp only [IndexList.capacity]
        exact List.mem_range.mpr hslt
      rcases List.mem_append.mp (hperm.mem_iff.mpr hrange) with h1 | h1
      · exact h1
      · rw [hoccF s h1] at hgets
        cases hgets
    obtain ⟨A, B, husAB⟩ := List.append_of_mem hsus
    subst husAB
    have hsnotA : s ∉ A := fun hmem =>
      List.disjoint_of_nodup_append hndus hmem (List.mem_cons_self _ _)
    have hsnotB : s ∉ B := (List.nodup_cons.mp hndus.of_append_right).1
    obtain ⟨hE2, hfree2, helems2, hsize2, hlen2, hzero2, hframe2⟩ :=
      linkout_used_spec (A := A) (B := B) (n := s) hEu hndus hbig
    have hndAB : (A ++ B).Nodup := by
      have hsub : (A ++ B).Sublist (A ++ s :: B) :=
        List.Sublist.append_left (List.sublist_cons_self s B) A
      exact hndus.sublist hsub
    have hsnotAB : s ∉ A ++ B := by
      intro hmem
      rcases List.mem_append.mp hmem with h1 | h1
      · exact hsnotA h1
      · exact hsnotB h1
    have hABsub : ∀ m, m ∈ A ++ B → m ∈ A ++ s :: B := by
      intro m hm
      rcases List.mem_append.mp hm with h1 | h1
      · exact List.mem_append_left _ h1
      · exact List.mem_append_right _ (List.mem_cons_of_mem _ h1)
    obtain ⟨hseg3, hfree3, helems3, hsize3, hlen3, hframe3⟩ :=
      linkin_first_spec (n := s) hE2 hndAB
        (by rw [hlen2]; omega) hsnotAB (by rw [hzero2]; rfl)
        (by rw [hlen2]; omega)
    show Wf ((l.linkout_used (ListIndex.fromNat s)).linkin_first (ListIndex.fromNat s))
    have helems_all : ((l.linkout_used (ListIndex.fromNat s)).linkin_first
        (ListIndex.fromNat s)).elems = l.elems := by
      rw [helems3, helems2]
    have hsize_all : ((l.linkout_used (ListIndex.fromNat s)).linkin_first
        (ListIndex.fromNat s)).size = l.size := by
      rw [hsize3, hsize2]
    refine @Wf_reassemble _ _ _ (A ++ s :: B) fs hseg3 ?_ ?_ ?_ ?_ ?_ ?_ ?_
    · rw [hfree3, hfree2]
      refine seg_frame ?_ hEf
      intro m hm
      have hm1 : m ∉ A ++ s :: B := fun hmem => hdisjuf hmem hm
      have hm2 : m ∉ s :: (A ++ B) := by
        intro hmem
        rcases List.mem_cons.mp hmem with rfl | h2
        · exact hm1 (List.mem_append_right _ (List.mem_cons_self _ _))
        · exact hm1 (hABsub m h2)
      refine ⟨?_, by rw [hframe3 m hm2, hframe2 m hm1]⟩
      rw [hlen3, hlen2]
      exact seg_mem_bound hEf m hm
    · exact List.perm_middle.symm
    · simp only [IndexList.capacity]
      rw [helems_all]
      exact hperm
    · rw [hsize_all]
      simp only [IndexList.capacity]
      rw [helems_all]
      exact hsize
    · intro n hn
      rw [helems_all]
      exact hoccU n hn
    · intro n hn
      rw [helems_all]
      exact hoccF n hn
    · rw [hlen3, hlen2, helems_all]
      exact hlen
  · rw [if_neg hcond]
    exact h

/-- `shift_index_to_back` preserves well-formedness for representable
handles; an unused handle is a no-op. -/
theorem Wf_shift_index_to_back {α : Type} {l : IndexList α} (this : ListIndex)
    (h : Wf l) (hbig : l.nodes.length + 1 < U32) (hvthis : this.Valid) :
    Wf (l.shift_index_to_back this).2 := by
  simp only [IndexList.shift_index_to_back]
  by_cases hcond : l.is_index_used this = true
  · rw [if_pos hcond]
    obtain ⟨us, fs, hEu, hEf, hperm, hsize, hoccU, hoccF, hlen⟩ := h
    obtain ⟨huslt, hfslt, hlensum, hndus, hndfs, hdisjuf⟩ := perm_facts hperm
    have hsmall : l.elems.length ≤ USIZEMAX := by
      have h1 : U32 = 4294967296 := rfl
      have h2 : USIZEMAX = 18446744073709551615 := rfl
      omega
    obtain ⟨s, v, hidxs, hs1, hgets, hslt⟩ := valid_used_slot hvthis hsmall hcond
    subst hidxs
    have hsus : s ∈ us := by
      have hrange : s ∈ List.range l.capacity := by
        simp only [IndexList.capacity]
        exact List.mem_range.mpr hslt
      rcases List.mem_append.mp (hperm.mem_iff.mpr hrange) with h1 | h1
      · exact h1
      · rw [hoccF s h1] at hgets
        cases hgets
    obtain ⟨A, B, husAB⟩ := List.append_of_mem hsus
    subst husAB
    have hsnotA : s ∉ A := fun hmem =>
      List.disjoint_of_nodup_append hndus hmem (List.mem_cons_self _ _)
    have hsnotB : s ∉ B := (List.nodup_cons.mp hndus.of_append_right).1
    obtain ⟨hE2, hfree2, helems2, hsize2, hlen2, hzero2, hframe2⟩ :=
      linkout_used_spec (A := A) (B := B) (n := s) hEu hndus hbig
    have hndAB : (A ++ B).Nodup := by
      have hsub : (A ++ B).Sublist (A ++ s :: B) :=
        List.Sublist.append_left (List.sublist_cons_self s B) A
      exact hndus.sublist hsub
    have hsnotAB : s ∉ A ++ B := by
      intro hmem
      rcases List.mem_append.mp hmem with h1 | h1
      · exact hsnotA h1
      · exact hsnotB h1
    have hABsub : ∀ m, m ∈ A ++ B → m ∈ A ++ s :: B := by
      intro m hm
      rcases List.mem_append.mp hm with h1 | h1
      · exact List.mem_append_left _ h1
      · exact List.mem_append_right _ (List.mem_cons_of_mem _ h1)
    obtain ⟨hseg3, hfree3, helems3, hsize3, hlen3, hframe3⟩ :=
      linkin_last_spec (n := s) hE2 hndAB
        (by rw [hlen2]; omega) hsnotAB (by rw [hzero2]; rfl)
        (by rw [hlen2]; omega)
    show Wf ((l.linkout_used (ListIndex.fromNat s)).linkin_last (ListIndex.fromNat s))
    have helems_all : ((l.linkout_used (ListIndex.fromNat s)).linkin_last
        (ListIndex.fromNat s)).elems = l.elems := by
      rw [helems3, helems2]
    have hsize_all : ((l.linkout_used (ListIndex.fromNat s)).linkin_last
        (ListIndex.fromNat s)).size = l.size := by
      rw [hsize3, hsize2]
    refine @Wf_reassemble _ _ _ (A ++ s :: B) fs hseg3 ?_ ?_ ?_ ?_ ?_ ?_ ?_
    · rw [hfree3, hfree2]
      refine seg_frame ?_ hEf
      intro m hm
      have hm1 : m ∉ A ++ s :: B := fun hmem => hdisjuf hmem hm
      have hm2 : m ∉ (A ++ B) ++ [s] := by
        intro hmem
        rcases List.mem_append.mp hmem with h2 | h2
        · exact hm1 (hABsub m h2)
        · have : m = s := by simpa using h2
          exact hm1 (this ▸ List.mem_append_right _ (List.mem_cons_self _ _))
      refine ⟨?_, by rw [hframe3 m hm2, hframe2 m hm1]⟩
      rw [hlen3, hlen2]
      exact seg_mem_bound hEf m hm
    · exact (List.perm_append_singleton s _).trans List.perm_middle.symm
    · simp only [IndexList.capacity]
      rw [helems_all]
      exact hperm
    · rw [hsize_all]
      simp only [IndexList.capacity]
      rw [helems_all]
      exact hsize
    · intro n hn
      rw [helems_all]
      exact hoccU n hn
    · intro n hn
      rw [helems_all]
      exact hoccF n hn
    · rw [hlen3, hlen2, helems_all]
      exact hlen
  · rw [if_neg hcond]
    exact h

/-- Counting by positions: the number of entries satisfying `p` equals
the number of in-range positions whose `getD` satisfies `p`. -/
theorem countP_getD_range {β : Type} (p : Option β → Bool) :
    ∀ es : List (Option β),
      ((List.range es.length).filter (fun n => p (es.getD n none))).length
        = es.countP p := by
  intro es
  induction es using List.reverseRecOn with
  | nil => rfl
  | append_singleton es e ih =>
    rw [List.length_append, List.length_singleton, List.range_succ, List.filter_append,
      List.length_append, List.countP_append]
    congr 1
    · have hcong : (List.range es.length).filter
          (fun n => p ((es ++ [e]).getD n none))
          = (List.range es.length).filter (fun n => p (es.getD n none)) := by
        refine List.filter_congr (fun n hn => ?_)
        rw [getD_append_elem _ _ _ (by have := List.mem_range.mp hn; omega)]
      rw [hcong, ih]
    · have hlast : (es ++ [e]).getD es.length none = e := getD_append_last es e none
      rw [List.filter_singleton, hlast]
      cases hpe : p e <;> simp [List.countP_cons, hpe]

/-- On a well-formed list the stored-value count agrees with the `size`
field. -/
theorem Wf_countSome {α : Type} {l : IndexList α} (h : Wf l) :
    IndexList.countSome l.elems = l.size := by
  obtain ⟨us, fs, hEu, hEf, hperm, hsize, hoccus, hoccfs, hlen⟩ := h
  obtain ⟨huslt, hfslt, hlensum, hndus, hndfs, hdisj⟩ := perm_facts hperm
  have hcap : l.capacity = l.elems.length := rfl
  have hF : us.Perm ((List.range l.elems.length).filter
      (fun n => (l.elems.getD n none).isSome)) := by
    have hsub1 : us ⊆ (List.range l.elems.length).filter
        (fun n => (l.elems.getD n none).isSome) := by
      intro m hm
      rw [List.mem_filter, List.mem_range]
      refine ⟨?_, hoccus m hm⟩
      have h1 := huslt m hm
      rw [hcap] at h1
      exact h1
    have hsub2 : ((List.range l.elems.length).filter
        (fun n => (l.elems.getD n none).isSome)) ⊆ us := by
      intro m hm
      rw [List.mem_filter, List.mem_range] at hm
      obtain ⟨hm1, hm2⟩ := hm
      have hmr : m ∈ us ++ fs :=
        hperm.symm.subset (List.mem_range.mpr (by rw [hcap]; exact hm1))
      rcases List.mem_append.mp hmr with h1 | h1
      · exact h1
      · rw [hoccfs m h1] at hm2
        cases hm2
    exact (List.subperm_of_subset hndus hsub1).antisymm
      (List.subperm_of_subset ((List.nodup_range _).filter _) hsub2)
  rw [countSome_eq_countP]
  have hcnt := countP_getD_range (fun e : Option α => e.isSome) l.elems
  rw [← hcnt, ← hF.length_eq]
  omega

/-- `swap_index` touches only the element storage (it exchanges two
in-bounds entries), so every successful call preserves the structural
invariants: the chains, the slot partition and the size equation never
mention the stored values. -/
theorem StructInv_swap_index {α : Type} {l : IndexList α} (h : StructInv l)
    (i j : ListIndex) :
    ∀ q : IndexList α, l.swap_index i j = some q → StructInv q := by
  intro q hq
  cases hi : i.get with
  | none =>
    have hval : l.swap_index i j = some l := by
      unfold IndexList.swap_index
      rw [hi]
    rw [hval] at hq
    injection hq with hq
    rw [← hq]
    exact h
  | some here =>
    cases hj : j.get with
    | none =>
      have hval : l.swap_index i j = some l := by
        unfold IndexList.swap_index
        rw [hi, hj]
      rw [hval] at hq
      injection hq with hq
      rw [← hq]
      exact h
    | some there =>
      have hval : l.swap_index i j = l.swap_data here there := by
        unfold IndexList.swap_index
        rw [hi, hj]
      rw [hval] at hq
      unfold IndexList.swap_data at hq
      split at hq
      · injection hq with hq
        obtain ⟨us, fs, h1, h2, h3, h4⟩ := h
        rw [← hq]
        have hxlen : ((l.elems.set here (l.elems.getD there none)).set there
            (l.elems.getD here none)).length = l.elems.length := by
          simp
        refine ⟨us, fs, h1, h2, ?_, ?_⟩
        · show List.Perm (us ++ fs) (List.range
            ((l.elems.set here (l.elems.getD there none)).set there
              (l.elems.getD here none)).length)
          rw [hxlen]
          exact h3
        · show l.size = ((l.elems.set here (l.elems.getD there none)).set there
            (l.elems.getD here none)).length - fs.length
          rw [hxlen]
          exact h4
      · cases hq

/-- Clearing one occupied slot decrements the stored-value count. -/
theorem countSome_set_none {β : Type} {es : List (Option β)} {n : Nat} {v : β}
    (h : es.getD n none = some v) :
    IndexList.countSome (es.set n none) + 1 = IndexList.countSome es := by
  have hperm := (filterMap_take_perm es n v h).length_eq
  simp only [List.length_cons] at hperm
  show (List.filterMap id (es.set n none)).length + 1 = (List.filterMap id es).length
  omega

/-- Case analysis of `remove_elem_at_index`: either the handle names an
occupied slot (the value is taken and `size` decremented), or the state
is returned unchanged with no value. -/
theorem remove_elem_cases {α : Type} (l : IndexList α) (i : ListIndex) :
    (∃ a v, i.get = some a ∧ l.elems.getD a none = some v ∧
      l.remove_elem_at_index i = (some v,
        { l with elems := l.elems.set a none, size := l.size - 1 })) ∨
    (l.remove_elem_at_index i = (none, l)) := by
  unfold IndexList.remove_elem_at_index
  split
  next a hi =>
    split
    next v hv => exact Or.inl ⟨a, v, hi, hv, rfl⟩
    next hv => exact Or.inr rfl
  next hi => exact Or.inr rfl

/-- Case analysis of `remove`: hit (relink the slot into the free list)
or miss (state unchanged). -/
theorem remove_cases {α : Type} (l : IndexList α) (i : ListIndex) :
    (∃ a v, i.get = some a ∧ l.elems.getD a none = some v ∧
      l.remove i = (some v,
        (({ l with elems := l.elems.set a none, size := l.size - 1
          } : IndexList α).linkout_used i).linkin_free i)) ∨
    ((l.remove i).1 = none ∧ (l.remove i).2 = l) := by
  rcases remove_elem_cases l i with ⟨a, v, h1, h2, h3⟩ | h3
  · left
    refine ⟨a, v, h1, h2, ?_⟩
    unfold IndexList.remove
    rw [h3]
    rfl
  · right
    constructor
    · unfold IndexList.remove
      rw [h3]
      rfl
    · unfold IndexList.remove
      rw [h3]
      rfl

/-- A successful `remove` decrements the stored-value count. -/
theorem remove_2_countSome {α : Type} {l : IndexList α} {i : ListIndex} {x : α}
    (h : (l.remove i).1 = some x) :
    IndexList.countSome ((l.remove i).2).elems + 1 = IndexList.countSome l.elems := by
  rcases remove_cases l i with ⟨a, v, h1, h2, h3⟩ | ⟨h3, _⟩
  · rw [h3]
    show IndexList.countSome
      ((({ l with elems := l.elems.set a none, size := l.size - 1
        } : IndexList α).linkout_used i).linkin_free i).elems + 1 = _
    rw [IndexList.linkin_free_elems, IndexList.linkout_used_elems]
    exact countSome_set_none h2
  · rw [h3] at h
    cases h

/-- `remove` never changes the length of the node storage. -/
theorem remove_2_nodes_length {α : Type} (l : IndexList α) (i : ListIndex) :
    ((l.remove i).2).nodes.length = l.nodes.length := by
  rcases remove_cases l i with ⟨a, v, h1, h2, h3⟩ | ⟨_, h3⟩
  · rw [h3]
    show ((({ l with elems := l.elems.set a none, size := l.size - 1
      } : IndexList α).linkout_used i).linkin_free i).nodes.length = _
    rw [IndexList.linkin_free_nodes_length, IndexList.linkout_used_nodes_length]
  · rw [h3]

/-- `new_node` grows the node storage by at most one slot. -/
theorem new_node_nodes_le {α : Type} (l : IndexList α) (e : Option α) :
    (l.new_node e).2.nodes.length ≤ l.nodes.length + 1 := by
  unfold IndexList.new_node
  dsimp only
  split
  · dsimp only
    rw [IndexList.linkout_free_nodes_length]
    unfold IndexList.insert_elem_at_index
    cases l.free.head.get <;> simp
  · simp

/-- `insert_last` grows the node storage by at most one slot. -/
theorem insert_last_nodes_le {α : Type} (l : IndexList α) (x : α) :
    (l.insert_last x).2.nodes.length ≤ l.nodes.length + 1 := by
  show ((l.new_node (some x)).2.linkin_last (l.new_node (some x)).1).nodes.length ≤ _
  rw [IndexList.linkin_last_nodes_length]
  exact new_node_nodes_le l _

/-- `insert_first` grows the node storage by at most one slot. -/
theorem insert_first_nodes_le {α : Type} (l : IndexList α) (x : α) :
    (l.insert_first x).2.nodes.length ≤ l.nodes.length + 1 := by
  show ((l.new_node (some x)).2.linkin_first (l.new_node (some x)).1).nodes.length ≤ _
  rw [IndexList.linkin_first_nodes_length]
  exact new_node_nodes_le l _

/-- The `append` loop preserves well-formedness of both lists at every
fuel sufficient for termination. -/
theorem Wf_appendFuel {α : Type} :
    ∀ (f : Nat) (s o : IndexList α), Wf s → Wf o →
      IndexList.countSome o.elems < f →
      s.nodes.length + IndexList.countSome o.elems + 2 < U32 →
      o.nodes.length + 1 < U32 →
      Wf (IndexList.appendFuel f s o).1 ∧ Wf (IndexList.appendFuel f s o).2 := by
  intro f
  induction f with
  | zero =>
    intro s o hs ho hcnt hbigs hbigo
    exact absurd hcnt (by omega)
  | succ f ih =>
    intro s o hs ho hcnt hbigs hbigo
    cases hr : (o.remove_first).1 with
    | none =>
      have hval : IndexList.appendFuel (f + 1) s o = (s, (o.remove_first).2) := by
        unfold IndexList.appendFuel
        dsimp only
        rw [hr]
      have hr' : (o.remove o.first_index).1 = none := hr
      have ho2 : (o.remove_first).2 = o := by
        show (o.remove o.first_index).2 = o
        rcases remove_cases o o.first_index with ⟨a, v, h1, h2, h3⟩ | ⟨h4, h5⟩
        · rw [h3] at hr'
          cases hr'
        · exact h5
      rw [hval, ho2]
      exact ⟨hs, ho⟩
    | some x =>
      have hval : IndexList.appendFuel (f + 1) s o
          = IndexList.appendFuel f (s.insert_last x).2 (o.remove_first).2 := by
        conv_lhs => rw [IndexList.appendFuel]
        rw [hr]
      have hr' : (o.remove o.first_index).1 = some x := hr
      have hcnt' : IndexList.countSome ((o.remove_first).2).elems + 1
          = IndexList.countSome o.elems := remove_2_countSome hr'
      have hwf_o2 : Wf (o.remove_first).2 := Wf_remove_first ho (by omega)
      have hwf_s2 : Wf (s.insert_last x).2 := Wf_insert_last x hs (by omega)
      have hlen_s2 : (s.insert_last x).2.nodes.length ≤ s.nodes.length + 1 :=
        insert_last_nodes_le s x
      have hlen_o2 : ((o.remove_first).2).nodes.length = o.nodes.length :=
        remove_2_nodes_length o o.first_index
      rw [hval]
      exact ih (s.insert_last x).2 (o.remove_first).2 hwf_s2 hwf_o2
        (by omega) (by omega) (by omega)

/-- `append` preserves well-formedness of both lists, given handle-space
headroom for the elements that change sides. -/
theorem Wf_append {α : Type} {l other : IndexList α} (hl : Wf l) (ho : Wf other)
    (hbig : l.nodes.length + other.nodes.length + 2 < U32) :
    Wf (l.append other).1 ∧ Wf (l.append other).2 := by
  have hco := Wf_countSome ho
  have hsz_le : other.size ≤ other.elems.length := by
    obtain ⟨us, fs, -, -, -, hsizeq, -, -, -⟩ := id ho
    have hcap : other.capacity = other.elems.length := rfl
    rw [hcap] at hsizeq
    omega
  have hlen_eq : other.nodes.length = other.elems.length := by
    obtain ⟨us, fs, -, -, -, -, -, -, hlenx⟩ := id ho
    exact hlenx
  have hcnt : IndexList.countSome other.elems ≤ other.nodes.length := by omega
  exact Wf_appendFuel (IndexList.countSome other.elems + 1) l other hl ho
    (by omega) (by omega) (by omega)

/-- The `prepend` loop preserves well-formedness of both lists at every
fuel sufficient for termination. -/
theorem Wf_prependFuel {α : Type} :
    ∀ (f : Nat) (s o : IndexList α), Wf s → Wf o →
      IndexList.countSome o.elems < f →
      s.nodes.length + IndexList.countSome o.elems + 2 < U32 →
      o.nodes.length + 1 < U32 →
      Wf (IndexList.prependFuel f s o).1 ∧ Wf (IndexList.prependFuel f s o).2 := by
  intro f
  induction f with
  | zero =>
    intro s o hs ho hcnt hbigs hbigo
    exact absurd hcnt (by omega)
  | succ f ih =>
    intro s o hs ho hcnt hbigs hbigo
    cases hr : (o.remove_last).1 with
    | none =>
      have hval : IndexList.prependFuel (f + 1) s o = (s, (o.remove_last).2) := by
        unfold IndexList.prependFuel
        dsimp only
        rw [hr]
      have hr' : (o.remove o.last_index).1 = none := hr
      have ho2 : (o.remove_last).2 = o := by
        show (o.remove o.last_index).2 = o
        rcases remove_cases o o.last_index with ⟨a, v, h1, h2, h3⟩ | ⟨h4, h5⟩
        · rw [h3] at hr'
          cases hr'
        · exact h5
      rw [hval, ho2]
      exact ⟨hs, ho⟩
    | some x =>
      have hval : IndexList.prependFuel (f + 1) s o
          = IndexList.prependFuel f (s.insert_first x).2 (o.remove_last).2 := by
        conv_lhs => rw [IndexList.prependFuel]
        rw [hr]
      have hr' : (o.remove o.last_index).1 = some x := hr
      have hcnt' : IndexList.countSome ((o.remove_last).2).elems + 1
          = IndexList.countSome o.elems := remove_2_countSome hr'
      have hwf_o2 : Wf (o.remove_last).2 := Wf_remove_last ho (by omega)
      have hwf_s2 : Wf (s.insert_first x).2 := Wf_insert_first x hs (by omega)
      have hlen_s2 : (s.insert_first x).2.nodes.length ≤ s.nodes.length + 1 :=
        insert_first_nodes_le s x
      have hlen_o2 : ((o.remove_last).2).nodes.length = o.nodes.length :=
        remove_2_nodes_length o o.last_index
      rw [hval]
      exact ih (s.insert_first x).2 (o.remove_last).2 hwf_s2 hwf_o2
        (by omega) (by omega) (by omega)

/-- `prepend` preserves well-formedness of both lists, given handle-space
headroom for the elements that change sides. -/
theorem Wf_prepend {α : Type} {l other : IndexList α} (hl : Wf l) (ho : Wf other)
    (hbig : l.nodes.length + other.nodes.length + 2 < U32) :
    Wf (l.prepend other).1 ∧ Wf (l.prepend other).2 := by
  have hco := Wf_countSome ho
  have hsz_le : other.size ≤ other.elems.length := by
    obtain ⟨us, fs, -, -, -, hsizeq, -, -, -⟩ := id ho
    have hcap : other.capacity = other.elems.length := rfl
    rw [hcap] at hsizeq
    omega
  have hlen_eq : other.nodes.length = other.elems.length := by
    obtain ⟨us, fs, -, -, -, -, -, -, hlenx⟩ := id ho
    exact hlenx
  have hcnt : IndexList.countSome other.elems ≤ other.nodes.length := by omega
  exact Wf_prependFuel (IndexList.countSome other.elems + 1) l other hl ho
    (by omega) (by omega) (by omega)

/-- `remove_elem_at_index` at a handle naming an occupied slot: the
value is taken and the slot cleared. -/
theorem remove_elem_hit {α : Type} {l : IndexList α} {i : ListIndex} {a : Nat} {v : α}
    (h1 : i.get = some a) (h2 : l.elems.getD a none = some v) :
    l.remove_elem_at_index i = (some v,
      { l with elems := l.elems.set a none, size := l.size - 1 }) := by
  unfold IndexList.remove_elem_at_index
  split
  next a2 hi2 =>
    rw [h1] at hi2
    injection hi2 with ha2
    subst ha2
    split
    next v2 hv2 =>
      rw [h2] at hv2
      injection hv2 with hv2
      subst hv2
      rfl
    next hv2 =>
      rw [h2] at hv2
      cases hv2
  next hi2 =>
    rw [h1] at hi2
    cases hi2

/-- `remove` at a handle naming an occupied slot: the value is returned
and the slot moves to the free list. -/
theorem remove_hit {α : Type} {l : IndexList α} {i : ListIndex} {a : Nat} {v : α}
    (h1 : i.get = some a) (h2 : l.elems.getD a none = some v) :
    l.remove i = (some v,
      (({ l with elems := l.elems.set a none, size := l.size - 1
        } : IndexList α).linkout_used i).linkin_free i) := by
  unfold IndexList.remove
  rw [remove_elem_hit h1 h2]
  rfl

/-- On a well-formed list holding at least one value (witnessed by any
occupied handle), `remove_last` succeeds. -/
theorem remove_last_isSome {α : Type} {l : IndexList α} (h : Wf l)
    (hbig : l.nodes.length + 1 < U32) {i : ListIndex}
    (hused : l.is_index_used i = true) :
    ∃ x, (l.remove_last).1 = some x := by
  obtain ⟨us, fs, hEu, hEf, hperm, hsize, hoccus, hoccfs, hlen⟩ := id h
  obtain ⟨huslt, hfslt, hlensum, hndus, hndfs, hdisj⟩ := perm_facts hperm
  have hget : (l.get i).isSome = true := hused
  obtain ⟨v, hv⟩ := Option.isSome_iff_exists.mp hget
  have hv' : (l.elems.get? (i.get.getD USIZEMAX)).bind id = some v := hv
  have hlt : i.get.getD USIZEMAX < l.elems.length := by
    by_contra hcon
    rw [List.get?_eq_none.mpr (by omega)] at hv'
    cases hv'
  have hgd : l.elems.getD (i.get.getD USIZEMAX) none = some v := by
    cases hh : l.elems.get? (i.get.getD USIZEMAX) with
    | none =>
      rw [List.get?_eq_none] at hh
      omega
    | some w =>
      rw [hh] at hv'
      rw [List.getD_eq_get?, hh]
      simpa using hv'
  have hmem : i.get.getD USIZEMAX ∈ us := by
    have hmr : i.get.getD USIZEMAX ∈ us ++ fs :=
      hperm.symm.subset (List.mem_range.mpr (show _ < l.capacity from hlt))
    rcases List.mem_append.mp hmr with h1 | h1
    · exact h1
    · rw [hoccfs _ h1] at hgd
      cases hgd
  rcases List.eq_nil_or_concat us with rfl | ⟨U, u, hus⟩
  · cases hmem
  rw [List.concat_eq_append] at hus
  subst hus
  have hulst : u < l.nodes.length := seg_mem_bound hEu u (by simp)
  have hu1 : u + 1 < U32 := by omega
  have htail : l.used.tail = ListIndex.fromNat u := by
    have hq := seg_q_eq hEu
    rw [List.getLast?_concat] at hq
    dsimp only at hq
    exact hq
  obtain ⟨w, hw⟩ := Option.isSome_iff_exists.mp (hoccus u (by simp))
  refine ⟨w, ?_⟩
  show (l.remove l.used.tail).1 = some w
  rw [htail, remove_hit (ListIndex.fromNat_get hu1) hw]

/-- The empty list is well formed. -/
theorem Wf_new {α : Type} : Wf (IndexList.new : IndexList α) := by
  refine ⟨[], [], ⟨rfl, rfl⟩, ⟨rfl, rfl⟩, by simp [IndexList.new, IndexList.capacity],
    by simp [IndexList.new, IndexList.capacity], ?_, ?_, by simp [IndexList.new]⟩
  · intro n hn
    cases hn
  · intro n hn
    cases hn

/-- The `split` loop terminates successfully on well-formed inputs and
preserves well-formedness of both lists. -/
theorem Wf_splitFuel {α : Type} :
    ∀ (f : Nat) (s : IndexList α) (i : ListIndex) (acc : IndexList α),
      Wf s → Wf acc →
      IndexList.countSome s.elems < f →
      acc.nodes.length + IndexList.countSome s.elems + 2 < U32 →
      s.nodes.length + 1 < U32 →
      ∃ p : IndexList α × IndexList α, IndexList.splitFuel f s i acc = some p ∧
        Wf p.1 ∧ Wf p.2 := by
  intro f
  induction f with
  | zero =>
    intro s i acc hs hacc hcnt hbiga hbigs
    exact absurd hcnt (by omega)
  | succ f ih =>
    intro s i acc hs hacc hcnt hbiga hbigs
    by_cases hused : s.is_index_used i = true
    · obtain ⟨x, hx⟩ := remove_last_isSome hs hbigs hused
      have hval : IndexList.splitFuel (f + 1) s i acc
          = IndexList.splitFuel f (s.remove_last).2 i (acc.insert_first x).2 := by
        conv_lhs => rw [IndexList.splitFuel]
        rw [if_pos hused]
        simp only [hx]
      have hx' : (s.remove s.last_index).1 = some x := hx
      have hcnt' : IndexList.countSome ((s.remove_last).2).elems + 1
          = IndexList.countSome s.elems := remove_2_countSome hx'
      have hwf_s2 : Wf (s.remove_last).2 := Wf_remove_last hs (by omega)
      have hwf_a2 : Wf (acc.insert_first x).2 := Wf_insert_first x hacc (by omega)
      have hlen_a2 : (acc.insert_first x).2.nodes.length ≤ acc.nodes.length + 1 :=
        insert_first_nodes_le acc x
      have hlen_s2 : ((s.remove_last).2).nodes.length = s.nodes.length :=
        remove_2_nodes_length s s.last_index
      rw [hval]
      exact ih (s.remove_last).2 i (acc.insert_first x).2 hwf_s2 hwf_a2
        (by omega) (by omega) (by omega)
    · have hval : IndexList.splitFuel (f + 1) s i acc = some (s, acc) := by
        conv_lhs => rw [IndexList.splitFuel]
        rw [if_neg hused]
      exact ⟨(s, acc), hval, hs, hacc⟩

/-- `split` succeeds on every well-formed list (the source's `unwrap`
never panics) and both resulting lists are well formed. -/
theorem Wf_split {α : Type} {l : IndexList α} (h : Wf l) (i : ListIndex)
    (hbig : l.nodes.length + 2 < U32) :
    ∃ p : IndexList α × IndexList α, l.split i = some p ∧ Wf p.1 ∧ Wf p.2 := by
  have hco := Wf_countSome h
  have hsz_le : l.size ≤ l.elems.length := by
    obtain ⟨us, fs, -, -, -, hsizeq, -, -, -⟩ := id h
    have hcap : l.capacity = l.elems.length := rfl
    rw [hcap] at hsizeq
    omega
  have hlen_eq : l.nodes.length = l.elems.length := by
    obtain ⟨us, fs, -, -, -, -, -, -, hlenx⟩ := id h
    exact hlenx
  have hnl : (IndexList.new : IndexList α).nodes.length = 0 := rfl
  exact Wf_splitFuel (IndexList.countSome l.elems + 1) l i IndexList.new h Wf_new
    (by omega) (by omega) (by omega)

/-- Folding `linkout_free` over distinct members of the free chain
removes exactly those slots from the free chain, leaving the used chain,
the elements and the size untouched. -/
theorem fold_linkout_free_chain {α : Type} :
    ∀ (ds : List Nat) (l : IndexList α) (us fs : List Nat),
      EndsOk l.nodes l.used us → us.Nodup →
      EndsOk l.nodes l.free fs → fs.Nodup →
      (∀ m, m ∈ us → m ∉ fs) →
      (∀ d, d ∈ ds → d ∈ fs) → ds.Nodup →
      l.nodes.length + 1 < U32 →
      ∃ fs',
        EndsOk (ds.foldl (fun acc i => acc.linkout_free (ListIndex.fromNat i)) l).nodes
          (ds.foldl (fun acc i => acc.linkout_free (ListIndex.fromNat i)) l).used us ∧
        EndsOk (ds.foldl (fun acc i => acc.linkout_free (ListIndex.fromNat i)) l).nodes
          (ds.foldl (fun acc i => acc.linkout_free (ListIndex.fromNat i)) l).free fs' ∧
        List.Perm fs (ds ++ fs') ∧
        (ds.foldl (fun acc i => acc.linkout_free (ListIndex.fromNat i)) l).nodes.length
          = l.nodes.length ∧
        (ds.foldl (fun acc i => acc.linkout_free (ListIndex.fromNat i)) l).elems = l.elems ∧
        (ds.foldl (fun acc i => acc.linkout_free (ListIndex.fromNat i)) l).size = l.size := by
  intro ds
  induction ds with
  | nil =>
    intro l us fs hEu hndus hEf hndfs hdisj hds hndds hbig
    exact ⟨fs, hEu, hEf, by simp, rfl, rfl, rfl⟩
  | cons d rest ih =>
    intro l us fs hEu hndus hEf hndfs hdisj hds hndds hbig
    have hdfs : d ∈ fs := hds d (List.mem_cons_self _ _)
    obtain ⟨C, D, hfs⟩ := List.append_of_mem hdfs
    subst hfs
    obtain ⟨hEf1, hused1, helems1, hsize1, hlen1, hzero1, hframe1⟩ :=
      linkout_free_spec (A := C) (B := D) (n := d) hEf hndfs hbig
    set l1 := l.linkout_free (ListIndex.fromNat d) with hl1
    have hEu1 : EndsOk l1.nodes l1.used us := by
      rw [hused1]
      refine seg_frame ?_ hEu
      intro m hm
      refine ⟨by rw [hlen1]; exact seg_mem_bound hEu m hm,
        hframe1 m (fun hc => hdisj m hm hc)⟩
    have hnf := List.nodup_middle.mp hndfs
    have hd_notCD : d ∉ C ++ D := (List.nodup_cons.mp hnf).1
    have hndCD : (C ++ D).Nodup := (List.nodup_cons.mp hnf).2
    have hmem_ne_mid : ∀ m : Nat, m ∈ C ++ d :: D → m ≠ d → m ∈ C ++ D := by
      intro m hm hne
      rcases List.mem_append.mp hm with h1 | h1
      · exact List.mem_append_left _ h1
      · rcases List.mem_cons.mp h1 with h2 | h2
        · exact absurd h2 hne
        · exact List.mem_append_right _ h2
    have hmem_ins_mid : ∀ m : Nat, m ∈ C ++ D → m ∈ C ++ d :: D := by
      intro m hm
      rcases List.mem_append.mp hm with h1 | h1
      · exact List.mem_append_left _ h1
      · exact List.mem_append_right _ (List.mem_cons_of_mem _ h1)
    have hdisj1 : ∀ m, m ∈ us → m ∉ C ++ D :=
      fun m hm hc => hdisj m hm (hmem_ins_mid m hc)
    have hd_notrest : d ∉ rest := (List.nodup_cons.mp hndds).1
    have hrest : ∀ x, x ∈ rest → x ∈ C ++ D := by
      intro x hx
      have hxd : x ≠ d := fun hh => hd_notrest (hh ▸ hx)
      exact hmem_ne_mid x (hds x (List.mem_cons_of_mem _ hx)) hxd
    have hndrest : rest.Nodup := (List.nodup_cons.mp hndds).2
    obtain ⟨fs', H1, H2, H3, H4, H5, H6⟩ :=
      ih l1 us (C ++ D) hEu1 hndus hEf1 hndCD hdisj1 hrest hndrest
        (by rw [hlen1]; exact hbig)
    have hfold : ((d :: rest).foldl (fun acc i => acc.linkout_free (ListIndex.fromNat i)) l)
        = rest.foldl (fun acc i => acc.linkout_free (ListIndex.fromNat i)) l1 := rfl
    refine ⟨fs', ?_, ?_, ?_, ?_, ?_, ?_⟩
    · rw [hfold]
      exact H1
    · rw [hfold]
      exact H2
    · refine (List.perm_middle).trans ?_
      show List.Perm (d :: (C ++ D)) ((d :: rest) ++ fs')
      rw [List.cons_append]
      exact H3.cons d
    · rw [hfold, H4, hlen1]
    · rw [hfold, H5, helems1]
    · rw [hfold, H6, hsize1]

theorem getD_take_lt {β : Type} (xs : List β) {n m : Nat} (d : β) (h : m < n) :
    (xs.take n).getD m d = xs.getD m d := by
  rw [List.getD_eq_getElem?_getD, List.getD_eq_getElem?_getD, List.getElem?_take, if_pos h]

theorem range_split (a b : Nat) : List.range (a + b) = List.range a ++ List.range' a b := by
  rw [List.range_eq_range', List.range_eq_range']
  have h := List.range'_append 0 a b 1
  simp only [Nat.zero_add, Nat.one_mul] at h
  rw [Nat.add_comm a b, ← h]

/-- `trim_safe` preserves well-formedness: the trailing free run is
unlinked from the free chain and the truncation keeps every remaining
chain member in bounds. -/
theorem Wf_trim_safe {α : Type} {l : IndexList α} (h : Wf l)
    (hbig : l.nodes.length + 1 < U32) : Wf (l.trim_safe) := by
  obtain ⟨us, fs, hEu, hEf, hperm, hsize, hoccus, hoccfs, hlen⟩ := id h
  obtain ⟨huslt, hfslt, hlensum, hndus, hndfs, hdisj⟩ := perm_facts hperm
  have hcap : l.capacity = l.elems.length := rfl
  have hr_eq := trimRemoved_eq_range l
  have hr_none := trimRemoved_mem_none l
  have hr_lecap := trimRemoved_length_le_cap l
  have hr_bound : ∀ i ∈ trimRemoved l,
      l.capacity - (trimRemoved l).length ≤ i ∧ i < l.capacity := by
    intro i hi
    rw [hr_eq, List.mem_reverse, List.mem_range'_1] at hi
    omega
  have hr_fs : ∀ i ∈ trimRemoved l, i ∈ fs := by
    intro i hi
    have h1 := (hr_bound i hi).2
    have hmr : i ∈ us ++ fs := hperm.symm.subset (List.mem_range.mpr h1)
    rcases List.mem_append.mp hmr with h2 | h2
    · have h3 := hoccus i h2
      rw [hr_none i hi] at h3
      cases h3
    · exact h2
  have hr_nd : (trimRemoved l).Nodup := by
    rw [hr_eq]
    exact List.nodup_reverse.mpr (List.nodup_range' _ _)
  obtain ⟨fs', H1, H2, H3, H4, H5, H6⟩ :=
    fold_linkout_free_chain (trimRemoved l) l us fs hEu hndus hEf hndfs
      (fun m hm hc => hdisj hm hc) hr_fs hr_nd hbig
  cases hemp : (trimRemoved l).isEmpty with
  | true =>
    have hnil : trimRemoved l = [] := List.isEmpty_iff.mp hemp
    rw [trim_safe_eq l, if_pos hemp, hnil]
    exact h
  | false =>
    rw [trim_safe_eq l, if_neg (by rw [hemp]; exact Bool.false_ne_true)]
    set F := (trimRemoved l).foldl
      (fun acc i => acc.linkout_free (ListIndex.fromNat i)) l with hF
    have hFelems : F.elems.length = l.elems.length := by rw [H5]
    have hFcap : F.capacity = l.capacity := hFelems
    rw [hFcap]
    set L := l.capacity - (trimRemoved l).length with hL
    set r := (trimRemoved l).length with hr
    have hfs'_sub : ∀ m, m ∈ fs' → m ∈ fs := by
      intro m hm
      exact H3.symm.subset (List.mem_append_right _ hm)
    have hnd_rf : ((trimRemoved l) ++ fs').Nodup := H3.nodup_iff.mp hndfs
    have hfs'_notr : ∀ m, m ∈ fs' → m ∉ trimRemoved l := by
      intro m hm hc
      exact List.disjoint_of_nodup_append hnd_rf hc hm
    have hus_ltL : ∀ m ∈ us, m < L := by
      intro m hm
      by_contra hcon
      push_neg at hcon
      have h1 : m < l.capacity := huslt m hm
      have h2 := mem_trimRemoved_of_ge l m hcon h1
      exact hdisj hm (hr_fs m h2)
    have hfs'_ltL : ∀ m ∈ fs', m < L := by
      intro m hm
      by_contra hcon
      push_neg at hcon
      have h1 : m < l.capacity := hfslt m (hfs'_sub m hm)
      have h2 := mem_trimRemoved_of_ge l m hcon h1
      exact hfs'_notr m hm h2
    have hEu2 : EndsOk (F.nodes.take L) F.used us := by
      refine seg_frame ?_ H1
      intro m hm
      refine ⟨?_, getD_take_lt _ _ (hus_ltL m hm)⟩
      rw [List.length_take]
      have h1 := seg_mem_bound H1 m hm
      have h2 := hus_ltL m hm
      omega
    have hEf2 : EndsOk (F.nodes.take L) F.free fs' := by
      refine seg_frame ?_ H2
      intro m hm
      refine ⟨?_, getD_take_lt _ _ (hfs'_ltL m hm)⟩
      rw [List.length_take]
      have h1 := seg_mem_bound H2 m hm
      have h2 := hfs'_ltL m hm
      omega
    have hsplit : l.capacity = L + r := by
      rw [hL]
      omega
    have hrange : List.range l.capacity = List.range L ++ List.range' L r := by
      rw [hsplit]
      exact range_split L r
    have hrem_perm : List.Perm (trimRemoved l) (List.range' L r) := by
      rw [hr_eq]
      exact (List.range' L r).reverse_perm
    have hperm2 : List.Perm (us ++ (trimRemoved l ++ fs')) (List.range l.capacity) :=
      ((H3.append_left us).symm).trans hperm
    have hcomm : List.Perm (us ++ (trimRemoved l ++ fs'))
        (trimRemoved l ++ (us ++ fs')) := by
      have h1 : us ++ (trimRemoved l ++ fs') = (us ++ trimRemoved l) ++ fs' :=
        (List.append_assoc _ _ _).symm
      rw [h1]
      refine (List.perm_append_comm.append_right fs').trans ?_
      rw [List.append_assoc]
    have hrangeperm : List.Perm (List.range l.capacity)
        (trimRemoved l ++ List.range L) := by
      rw [hrange]
      refine (List.perm_append_comm).trans ?_
      exact hrem_perm.symm.append_right (List.range L)
    have hcancel : List.Perm (us ++ fs') (List.range L) :=
      (List.perm_append_left_iff _).mp ((hcomm.symm.trans hperm2).trans hrangeperm)
    have hltcap : (F.elems.take L).length = L := by
      rw [List.length_take, hFelems]
      omega
    have hflen : fs.length = r + fs'.length := by
      have h1 := H3.length_eq
      rw [List.length_append] at h1
      exact h1
    refine ⟨us, fs', hEu2, hEf2, ?_, ?_, ?_, ?_, ?_⟩
    · show List.Perm (us ++ fs') (List.range (F.elems.take L).length)
      rw [hltcap]
      exact hcancel
    · show F.size = (F.elems.take L).length - fs'.length
      rw [H6, hltcap]
      omega
    · intro n hn
      show ((F.elems.take L).getD n none).isSome = true
      rw [getD_take_lt _ _ (hus_ltL n hn), H5]
      exact hoccus n hn
    · intro n hn
      show (F.elems.take L).getD n none = none
      rw [getD_take_lt _ _ (hfs'_ltL n hn), H5]
      exact hoccfs n (hfs'_sub n hn)
    · show (F.nodes.take L).length = (F.elems.take L).length
      rw [List.length_take, List.length_take, H4, H5, hlen]

/-- `replace_dest_with_source` relinks the free slot `dst` into the used
chain at exactly the position of `src`, removing `dst` from the free
chain: the traversal order is preserved slot-for-slot. -/
theorem replace_spec {α : Type} {l : IndexList α} {A B C D : List Nat} {src dst : Nat}
    (hEu : EndsOk l.nodes l.used (A ++ src :: B)) (hndus : (A ++ src :: B).Nodup)
    (hEf : EndsOk l.nodes l.free (C ++ dst :: D)) (hndfs : (C ++ dst :: D).Nodup)
    (hdisj : (A ++ src :: B).Disjoint (C ++ dst :: D))
    (hbig : l.nodes.length + 1 < U32) :
    EndsOk (l.replace_dest_with_source src dst).nodes
      (l.replace_dest_with_source src dst).used (A ++ dst :: B) ∧
    EndsOk (l.replace_dest_with_source src dst).nodes
      (l.replace_dest_with_source src dst).free (C ++ D) ∧
    (l.replace_dest_with_source src dst).nodes.length = l.nodes.length := by
  have hsrcmem : src ∈ A ++ src :: B := by simp
  have hdstmem : dst ∈ C ++ dst :: D := by simp
  have hsrclt : src < l.nodes.length := seg_mem_bound hEu _ hsrcmem
  have hdstlt : dst < l.nodes.length := seg_mem_bound hEf _ hdstmem
  have hsrc1 : src + 1 < U32 := by omega
  have hdst1 : dst + 1 < U32 := by omega
  have hCD_sub : ∀ m, m ∈ C ++ D → m ∈ C ++ dst :: D := by
    intro m hm
    rcases List.mem_append.mp hm with h1 | h1
    · exact List.mem_append_left _ h1
    · exact List.mem_append_right _ (List.mem_cons_of_mem _ h1)
  have hdstnotCD : dst ∉ C ++ D := by
    intro hmem
    rcases List.mem_append.mp hmem with h1 | h1
    · exact List.disjoint_of_nodup_append hndfs h1 (List.mem_cons_self _ _)
    · exact (List.nodup_cons.mp hndfs.of_append_right).1 h1
  obtain ⟨hEf1, hused1, helems1, hsize1, hlen1, hzero1, hframe1⟩ :=
    linkout_free_spec (A := C) (B := D) (n := dst) hEf hndfs hbig
  set l1 := l.linkout_free (ListIndex.fromNat dst) with hl1
  have hEu1 : EndsOk l1.nodes l1.used (A ++ src :: B) := by
    rw [hused1]
    refine seg_frame ?_ hEu
    intro m hm
    refine ⟨by rw [hlen1]; exact seg_mem_bound hEu m hm,
      hframe1 m (fun hc => hdisj hm hc)⟩
  have hsrcnode : l1.nodes.getD src default = l.nodes.getD src default :=
    hframe1 src (fun hc => hdisj hsrcmem hc)
  obtain ⟨hEu2, hfree2, helems2, hsize2, hlen2, hzero2, hframe2⟩ :=
    linkout_used_spec (A := A) (B := B) (n := src) hEu1 hndus
      (by rw [hlen1]; exact hbig)
  set l2 := l1.linkout_used (ListIndex.fromNat src) with hl2
  have hEf2 : EndsOk l2.nodes l2.free (C ++ D) := by
    rw [hfree2]
    refine seg_frame ?_ hEf1
    intro m hm
    have hmnotus : m ∉ A ++ src :: B := fun hc => hdisj hc (hCD_sub m hm)
    refine ⟨?_, hframe2 m hmnotus⟩
    rw [hlen2]
    exact seg_mem_bound hEf1 m hm
  have hdst_zero2 : l2.nodes.getD dst default = ListNode.new := by
    have hdstnotus : dst ∉ A ++ src :: B := fun hc => hdisj hc hdstmem
    rw [hframe2 dst hdstnotus]
    exact hzero1
  have hndAB : (A ++ B).Nodup := by
    have hsub : (A ++ B).Sublist (A ++ src :: B) :=
      List.Sublist.append_left (List.sublist_cons_self src B) A
    exact hndus.sublist hsub
  have hdstnotAB : dst ∉ A ++ B := by
    intro hmem
    refine hdisj ?_ hdstmem
    rcases List.mem_append.mp hmem with h1 | h1
    · exact List.mem_append_left _ h1
    · exact List.mem_append_right _ (List.mem_cons_of_mem _ h1)
  obtain ⟨qA, iS, hA, hS⟩ := seg_append.mp hEu
  obtain ⟨hiS, _, hprevs, hBseg⟩ := hS
  subst hiS
  cases B with
  | cons b B' =>
    have hblt : b < l.nodes.length := seg_mem_bound hEu b (by simp)
    have hnextl : (l1.nodes.getD src default).next = ListIndex.fromNat b := by
      rw [hsrcnode]
      exact hBseg.1
    have hval : l.replace_dest_with_source src dst
        = ({ l2 with
            elems := ((l2.elems.set src none).set dst (l2.elems.getD src none))
            } : IndexList α).linkin_this_before_that (ListIndex.fromNat dst)
            (ListIndex.fromNat b) := by
      simp only [IndexList.replace_dest_with_source]
      rw [← hl1, hnextl, ← hl2]
      rw [if_pos (ListIndex.fromNat_isSome (by omega))]
    rw [hval]
    obtain ⟨hseg3, hfree3, helems3, hsize3, hlen3, hframe3⟩ :=
      linkin_before_spec (A := A) (B := B') (t := b) (n := dst)
        (l := { l2 with
            elems := ((l2.elems.set src none).set dst (l2.elems.getD src none)) })
        (show EndsOk l2.nodes l2.used (A ++ b :: B') from hEu2) hndAB
        (show dst < l2.nodes.length by rw [hlen2, hlen1]; exact hdstlt) hdstnotAB
        (show l2.nodes.length + 1 < U32 by rw [hlen2, hlen1]; exact hbig)
    refine ⟨hseg3, ?_, ?_⟩
    · rw [hfree3]
      refine seg_frame ?_ hEf2
      intro m hm
      have hmm : m ∉ A ++ dst :: b :: B' := by
        intro hmem
        rcases List.mem_append.mp hmem with h1 | h1
        · exact hdisj (List.mem_append_left _ h1) (hCD_sub m hm)
        · rcases List.mem_cons.mp h1 with rfl | h2
          · exact hdstnotCD hm
          · exact hdisj (List.mem_append_right _ (List.mem_cons_of_mem _ h2))
              (hCD_sub m hm)
      refine ⟨?_, hframe3 m hmm⟩
      rw [hlen3]
      exact seg_mem_bound hEf2 m hm
    · rw [hlen3]
      show l2.nodes.length = l.nodes.length
      rw [hlen2, hlen1]
  | nil =>
    have hnextnil : (l1.nodes.getD src default).next = ListIndex.new := by
      rw [hsrcnode]
      exact hBseg.2
    rcases List.eq_nil_or_concat A with rfl | ⟨A2, a, rfl⟩
    · -- the only used slot is replaced: relink as first
      obtain ⟨hqAnil, hh0⟩ := hA
      have hprevnil : (l1.nodes.getD src default).prev = ListIndex.new := by
        rw [hsrcnode, hprevs, ← hqAnil]
      have hval : l.replace_dest_with_source src dst
          = ({ l2 with
              elems := ((l2.elems.set src none).set dst (l2.elems.getD src none))
              } : IndexList α).linkin_first (ListIndex.fromNat dst) := by
        simp only [IndexList.replace_dest_with_source]
        rw [← hl1, hnextnil, hprevnil, ← hl2]
        rw [if_neg (show ¬(ListIndex.new.isSome = true) by
          simp [ListIndex.isSome, ListIndex.new])]
        rw [if_neg (show ¬(ListIndex.new.isSome = true) by
          simp [ListIndex.isSome, ListIndex.new])]
      rw [hval]
      obtain ⟨hseg3, hfree3, helems3, hsize3, hlen3, hframe3⟩ :=
        linkin_first_spec (n := dst)
          (l := { l2 with
              elems := ((l2.elems.set src none).set dst (l2.elems.getD src none)) })
          (show EndsOk l2.nodes l2.used [] from hEu2) (by simp)
          (show dst < l2.nodes.length by rw [hlen2, hlen1]; exact hdstlt) (by simp)
          (show (l2.nodes.getD dst default).prev = ListIndex.new by
            rw [hdst_zero2]; rfl)
          (show l2.nodes.length + 1 < U32 by rw [hlen2, hlen1]; exact hbig)
      refine ⟨hseg3, ?_, ?_⟩
      · rw [hfree3]
        refine seg_frame ?_ hEf2
        intro m hm
        have hmm : m ∉ [dst] := by
          intro hmem
          have : m = dst := by simpa using hmem
          exact hdstnotCD (this ▸ hm)
        refine ⟨?_, hframe3 m hmm⟩
        rw [hlen3]
        exact seg_mem_bound hEf2 m hm
      · rw [hlen3]
        show l2.nodes.length = l.nodes.length
        rw [hlen2, hlen1]
    · -- the used tail is replaced: relink after its predecessor
      rw [List.concat_eq_append] at hA hndus hndAB hdstnotAB hdisj hEu2 ⊢
      have hqA := seg_q_eq hA
      rw [List.getLast?_concat] at hqA
      dsimp only at hqA
      have hamem : a ∈ (A2 ++ [a]) ++ src :: [] := by simp
      have halt : a < l.nodes.length := by
        refine seg_mem_bound hEu a ?_
        rw [List.concat_eq_append]
        exact hamem
      have hprevl : (l1.nodes.getD src default).prev = ListIndex.fromNat a := by
        rw [hsrcnode, hprevs, hqA]
      have hval : l.replace_dest_with_source src dst
          = ({ l2 with
              elems := ((l2.elems.set src none).set dst (l2.elems.getD src none))
              } : IndexList α).linkin_this_after_that (ListIndex.fromNat dst)
              (ListIndex.fromNat a) := by
        simp only [IndexList.replace_dest_with_source]
        rw [← hl1, hnextnil, hprevl, ← hl2]
        rw [if_neg (show ¬(ListIndex.new.isSome = true) by
          simp [ListIndex.isSome, ListIndex.new])]
        rw [if_pos (ListIndex.fromNat_isSome (by omega))]
      rw [hval]
      have hEu2' : EndsOk l2.nodes l2.used (A2 ++ a :: ([] : List Nat)) := by
        have h1 : A2 ++ a :: ([] : List Nat) = (A2 ++ [a]) ++ [] := by simp
        rw [h1]
        exact hEu2
      obtain ⟨hseg3, hfree3, helems3, hsize3, hlen3, hframe3⟩ :=
        linkin_after_spec (A := A2) (B := ([] : List Nat)) (t := a) (n := dst)
          (l := { l2 with
              elems := ((l2.elems.set src none).set dst (l2.elems.getD src none)) })
          hEu2' (by simpa using hndAB)
          (show dst < l2.nodes.length by rw [hlen2, hlen1]; exact hdstlt)
          (by simpa using hdstnotAB)
          (show l2.nodes.length + 1 < U32 by rw [hlen2, hlen1]; exact hbig)
      have hchain_eq : A2 ++ a :: dst :: ([] : List Nat) = (A2 ++ [a]) ++ dst :: [] := by
        simp
      rw [hchain_eq] at hseg3
      refine ⟨hseg3, ?_, ?_⟩
      · rw [hfree3]
        refine seg_frame ?_ hEf2
        intro m hm
        have hmm : m ∉ A2 ++ a :: dst :: ([] : List Nat) := by
          intro hmem
          rcases List.mem_append.mp hmem with h1 | h1
          · exact hdisj (List.mem_append_left _ (List.mem_append_left _ h1))
              (hCD_sub m hm)
          · rcases List.mem_cons.mp h1 with rfl | h2
            · exact hdisj (List.mem_append_left _ (List.mem_append_right _
                (List.mem_cons_self _ _))) (hCD_sub m hm)
            · rcases List.mem_cons.mp h2 with rfl | h3
              · exact hdstnotCD hm
              · cases h3
        refine ⟨?_, hframe3 m hmm⟩
        rw [hlen3]
        exact seg_mem_bound hEf2 m hm
      · rw [hlen3]
        show l2.nodes.length = l.nodes.length
        rw [hlen2, hlen1]

/-- Folding `replace_dest_with_source` over a list of (source, destination)
pairs with distinct sources, distinct destinations and sources disjoint
from destinations rewrites the used chain by substituting each source slot
with its destination slot in place, preserving the traversed value
sequence. -/
theorem fold_replace_chain {α : Type} :
    ∀ (pairs : List (Nat × Nat)) (l : IndexList α) (us fs : List Nat),
      EndsOk l.nodes l.used us → us.Nodup →
      EndsOk l.nodes l.free fs → fs.Nodup →
      (∀ m, m ∈ us → m ∉ fs) →
      (∀ p, p ∈ pairs → p.1 ∈ us ∧ p.2 ∈ fs) →
      (pairs.map Prod.fst).Nodup →
      (pairs.map Prod.snd).Nodup →
      (∀ p, p ∈ pairs → ∀ q, q ∈ pairs → p.1 ≠ q.2) →
      l.nodes.length + 1 < U32 →
      l.nodes.length = l.elems.length →
      ∃ us',
        EndsOk (pairs.foldl (fun acc p => acc.replace_dest_with_source p.1 p.2) l).nodes
          (pairs.foldl (fun acc p => acc.replace_dest_with_source p.1 p.2) l).used us' ∧
        us'.Nodup ∧
        us'.map (fun n =>
            (pairs.foldl (fun acc p => acc.replace_dest_with_source p.1 p.2) l).elems.getD n none)
          = us.map (fun n => l.elems.getD n none) ∧
        (∀ m, m ∈ us' → m ∈ pairs.map Prod.snd ∨ (m ∈ us ∧ m ∉ pairs.map Prod.fst)) ∧
        (pairs.foldl (fun acc p => acc.replace_dest_with_source p.1 p.2) l).nodes.length
          = l.nodes.length ∧
        (pairs.foldl (fun acc p => acc.replace_dest_with_source p.1 p.2) l).elems.length
          = l.elems.length := by
  intro pairs
  induction pairs with
  | nil =>
    intro l us fs hEu hndus hEf hndfs hdisj hpairs hfst hsnd hcross hbig hne
    exact ⟨us, hEu, hndus, rfl, fun m hm => Or.inr ⟨hm, by simp⟩, rfl, rfl⟩
  | cons p rest ih =>
    intro l us fs hEu hndus hEf hndfs hdisj hpairs hfst hsnd hcross hbig hne
    obtain ⟨s, d⟩ := p
    rw [List.map_cons] at hfst hsnd
    have hs_notrest : s ∉ rest.map Prod.fst := (List.nodup_cons.mp hfst).1
    have hd_notrest : d ∉ rest.map Prod.snd := (List.nodup_cons.mp hsnd).1
    obtain ⟨hs_mem, hd_mem⟩ := hpairs (s, d) (List.mem_cons_self _ _)
    obtain ⟨A, B, hus⟩ := List.append_of_mem hs_mem
    obtain ⟨C, D, hfs⟩ := List.append_of_mem hd_mem
    subst hus
    subst hfs
    have hmem_ne_mid : ∀ (x : Nat) (X Y : List Nat) (m : Nat),
        m ∈ X ++ x :: Y → m ≠ x → m ∈ X ++ Y := by
      intro x X Y m hm hne'
      rcases List.mem_append.mp hm with h1 | h1
      · exact List.mem_append_left _ h1
      · rcases List.mem_cons.mp h1 with h2 | h2
        · exact absurd h2 hne'
        · exact List.mem_append_right _ h2
    have hmem_ins_mid : ∀ (x : Nat) (X Y : List Nat) (m : Nat),
        m ∈ X ++ Y → m ∈ X ++ x :: Y := by
      intro x X Y m hm
      rcases List.mem_append.mp hm with h1 | h1
      · exact List.mem_append_left _ h1
      · exact List.mem_append_right _ (List.mem_cons_of_mem _ h1)
    have hd_notus : d ∉ A ++ s :: B := fun hc => hdisj d hc hd_mem
    have hnm := List.nodup_middle.mp hndus
    have hs_notAB : s ∉ A ++ B := (List.nodup_cons.mp hnm).1
    have hndAB : (A ++ B).Nodup := (List.nodup_cons.mp hnm).2
    have hnf := List.nodup_middle.mp hndfs
    have hd_notCD : d ∉ C ++ D := (List.nodup_cons.mp hnf).1
    have hndCD : (C ++ D).Nodup := (List.nodup_cons.mp hnf).2
    have hslt : s < l.nodes.length := seg_mem_bound hEu s hs_mem
    have hdlt : d < l.nodes.length := seg_mem_bound hEf d hd_mem
    obtain ⟨hEu1, hEf1, hlen1⟩ :=
      replace_spec hEu hndus hEf hndfs (fun {m} ha hb => hdisj m ha hb) hbig
    set l' := l.replace_dest_with_source s d with hl'
    have helems' : l'.elems = (l.elems.set s none).set d (l.elems.getD s none) :=
      IndexList.replace_elems l s d
    have hdlt_e : d < (l.elems.set s none).length := by
      rw [List.length_set]
      omega
    have hfd : l'.elems.getD d none = l.elems.getD s none := by
      rw [helems', getD_set_eq _ _ _ hdlt_e]
    have hframe_val : ∀ m, m ≠ s → m ≠ d → l'.elems.getD m none = l.elems.getD m none := by
      intro m h1 h2
      rw [helems', getD_set_ne _ _ _ (fun h => h2 h.symm),
        getD_set_ne _ _ _ (fun h => h1 h.symm)]
    have hvalstep : (A ++ d :: B).map (fun n => l'.elems.getD n none)
        = (A ++ s :: B).map (fun n => l.elems.getD n none) := by
      have hA : A.map (fun n => l'.elems.getD n none)
          = A.map (fun n => l.elems.getD n none) := by
        refine List.map_congr_left (fun m hm => hframe_val m ?_ ?_)
        · intro hms
          exact hs_notAB (hms ▸ List.mem_append_left B hm)
        · intro hmd
          exact hd_notus (by rw [← hmd]; exact List.mem_append_left _ hm)
      have hB : B.map (fun n => l'.elems.getD n none)
          = B.map (fun n => l.elems.getD n none) := by
        refine List.map_congr_left (fun m hm => hframe_val m ?_ ?_)
        · intro hms
          exact hs_notAB (hms ▸ List.mem_append_right A hm)
        · intro hmd
          exact hd_notus (by
            rw [← hmd]
            exact List.mem_append_right _ (List.mem_cons_of_mem _ hm))
      rw [List.map_append, List.map_append, List.map_cons, List.map_cons, hA, hB, hfd]
    have hndus1 : (A ++ d :: B).Nodup := by
      refine List.nodup_middle.mpr (List.nodup_cons.mpr ⟨?_, hndAB⟩)
      intro hc
      exact hdisj d (hmem_ins_mid s A B d hc) hd_mem
    have hdisj1 : ∀ m, m ∈ A ++ d :: B → m ∉ C ++ D := by
      intro m hm hc
      by_cases hmd : m = d
      · exact hd_notCD (hmd ▸ hc)
      · exact hdisj m (hmem_ins_mid s A B m (hmem_ne_mid d A B m hm hmd))
          (hmem_ins_mid d C D m hc)
    have hpairs1 : ∀ p, p ∈ rest → p.1 ∈ A ++ d :: B ∧ p.2 ∈ C ++ D := by
      intro p hp
      obtain ⟨hp1, hp2⟩ := hpairs p (List.mem_cons_of_mem _ hp)
      constructor
      · have hp1s : p.1 ≠ s := by
          intro hc
          exact hs_notrest (hc ▸ List.mem_map_of_mem Prod.fst hp)
        exact hmem_ins_mid d A B p.1 (hmem_ne_mid s A B p.1 hp1 hp1s)
      · have hp2d : p.2 ≠ d := by
          intro hc
          exact hd_notrest (hc ▸ List.mem_map_of_mem Prod.snd hp)
        exact hmem_ne_mid d C D p.2 hp2 hp2d
    have hcross1 : ∀ p, p ∈ rest → ∀ q, q ∈ rest → p.1 ≠ q.2 :=
      fun p hp q hq =>
        hcross p (List.mem_cons_of_mem _ hp) q (List.mem_cons_of_mem _ hq)
    have hbig1 : l'.nodes.length + 1 < U32 := by
      rw [hlen1]
      exact hbig
    have hne1 : l'.nodes.length = l'.elems.length := by
      rw [hlen1, hl', IndexList.replace_elems_length]
      exact hne
    obtain ⟨us'', H1, H2, H3, H4, H5, H6⟩ :=
      ih l' (A ++ d :: B) (C ++ D) hEu1 hndus1 hEf1 hndCD hdisj1 hpairs1
        (List.nodup_cons.mp hfst).2 (List.nodup_cons.mp hsnd).2 hcross1 hbig1 hne1
    have hfold : ((s, d) :: rest).foldl (fun acc p => acc.replace_dest_with_source p.1 p.2) l
        = rest.foldl (fun acc p => acc.replace_dest_with_source p.1 p.2) l' := rfl
    refine ⟨us'', ?_, H2, ?_, ?_, ?_, ?_⟩
    · rw [hfold]
      exact H1
    · rw [hfold]
      exact H3.trans hvalstep
    · intro m hm
      rcases H4 m hm with h1 | ⟨h2, h3⟩
      · left
        rw [List.map_cons]
        exact List.mem_cons_of_mem _ h1
      · by_cases hmd : m = d
        · left
          rw [List.map_cons]
          subst hmd
          exact List.mem_cons_self _ _
        · right
          refine ⟨hmem_ins_mid s A B m (hmem_ne_mid d A B m h2 hmd), ?_⟩
          rw [List.map_cons]
          intro hc
          rcases List.mem_cons.mp hc with h4 | h4
          · refine hs_notAB ?_
            have h4' : m = s := h4
            rw [← h4']
            exact hmem_ne_mid d A B m h2 hmd
          · exact h3 h4
    · rw [hfold, H5, hlen1]
    · rw [hfold, H6, hl', IndexList.replace_elems_length]


theorem cycleOf_getD_lt {us : List Nat} {k : Nat} (hk : k < us.length) :
    (cycleOf us).getD k ListIndex.new = ListIndex.fromNat (us.getD k 0) := by
  unfold cycleOf
  rw [List.getD_append _ _ _ _ (by simpa using hk)]
  exact map_getD_lt _ 0 _ us k hk

theorem cycleOf_getD_len (us : List Nat) :
    (cycleOf us).getD us.length ListIndex.new = ListIndex.new := by
  unfold cycleOf
  rw [List.getD_append_right _ _ _ _ (by simp)]
  simp

/-- Traversal from the `k`-th handle of a well-formed used chain yields
exactly the remaining values, truncated by the fuel. -/
theorem traverseFrom_spec {α : Type} {l : IndexList α} {us : List Nat} {vs : List α}
    (hE : EndsOk l.nodes l.used us) (hbig : l.nodes.length + 1 < U32)
    (hne : l.nodes.length = l.elems.length)
    (hvals : us.map (fun n => l.elems.getD n none) = vs.map some) :
    ∀ fuel k, k ≤ us.length →
      l.traverseFrom fuel ((cycleOf us).getD k ListIndex.new) = (vs.drop k).take fuel := by
  have hU : U32 = 4294967296 := rfl
  have hUS : USIZEMAX = 18446744073709551615 := rfl
  have hvslen : vs.length = us.length := by
    have h := congrArg List.length hvals
    simpa using h.symm
  intro fuel
  induction fuel with
  | zero =>
    intro k hk
    simp [IndexList.traverseFrom]
  | succ fuel ih =>
    intro k hk
    rcases Nat.lt_or_ge k us.length with hlt | hge
    · have hmem : us.getD k 0 ∈ us := getD_mem 0 hlt
      have hb : us.getD k 0 < l.nodes.length := seg_mem_bound hE _ hmem
      have h1 : us.getD k 0 + 1 < U32 := by omega
      obtain ⟨v, hv, hval⟩ := chain_val hvals hlt
      have hget : l.get ((cycleOf us).getD k ListIndex.new) = some v := by
        rw [cycleOf_getD_lt hlt, get_slot h1 (by omega)]
        exact hval
      have hnext : l.next_index ((cycleOf us).getD k ListIndex.new)
          = (cycleOf us).getD (k + 1) ListIndex.new := by
        rw [next_index_cycle hE hbig (by omega), Nat.mod_eq_of_lt (by omega)]
      show (match l.get ((cycleOf us).getD k ListIndex.new) with
        | none => []
        | some v => v :: l.traverseFrom fuel
            (l.next_index ((cycleOf us).getD k ListIndex.new))) = _
      rw [hget, hnext, ih (k + 1) (by omega)]
      have hkvs : k < vs.length := by omega
      rw [List.drop_eq_getElem_cons hkvs, List.take_succ_cons]
      have hveq : vs[k] = v := by
        have h2 : vs.get? k = some vs[k] := by
          rw [List.get?_eq_getElem?]
          exact List.getElem?_eq_getElem hkvs
        rw [h2] at hv
        injection hv
      rw [hveq]
    · have hkeq : k = us.length := by omega
      subst hkeq
      have hget : l.get ((cycleOf us).getD us.length ListIndex.new) = none := by
        rw [cycleOf_getD_len]
        exact get_new_eq_none l (by omega)
      show (match l.get ((cycleOf us).getD us.length ListIndex.new) with
        | none => []
        | some v => v :: l.traverseFrom fuel
            (l.next_index ((cycleOf us).getD us.length ListIndex.new))) = _
      rw [hget]
      rw [List.drop_eq_nil_of_le (by omega)]
      simp

theorem map_eq_filterMap_some {β γ : Type} (f : β → Option γ) :
    ∀ us : List β, (∀ n ∈ us, (f n).isSome = true) →
      us.map f = (us.filterMap f).map some := by
  intro us
  induction us with
  | nil => intro _; rfl
  | cons n rest ih =>
    intro h
    obtain ⟨v, hv⟩ := Option.isSome_iff_exists.mp (h n (List.mem_cons_self _ _))
    have hfm : List.filterMap f (n :: rest) = v :: List.filterMap f rest := by
      simp [List.filterMap_cons, hv]
    rw [List.map_cons, hv, hfm, List.map_cons,
      ih (fun m hm => h m (List.mem_cons_of_mem _ hm))]

/-- **C9** (confirmed).  For every well-formed list whose size field is
consistent with its element storage, `trim_swap()` preserves the relative
order of the live elements: forward traversal from `first_index()` after
the call yields exactly the same sequence of element values as forward
traversal before the call (for every traversal length), because each
relocated slot is re-linked into the used list at the position of the
slot it replaces. -/
theorem C9_trim_swap_order :
    ∀ (α : Type) (l : IndexList α), Wf l → l.size = IndexList.countSome l.elems →
      l.nodes.length + 1 < U32 →
      ∀ fuel, l.trim_swap.traverseFrom fuel l.trim_swap.first_index
        = l.traverseFrom fuel l.first_index := by
  intro α l hWf hsz hbig fuel
  obtain ⟨us, fs, hEu, hEf, hperm, hsizeq, hoccus, hoccfs, hne⟩ := hWf
  have hcap : l.capacity = l.elems.length := rfl
  have hndusfs : (us ++ fs).Nodup := hperm.nodup_iff.mpr (List.nodup_range _)
  have hndus : us.Nodup := hndusfs.of_append_left
  have hndfs : fs.Nodup := hndusfs.of_append_right
  have hdisj : ∀ m, m ∈ us → m ∉ fs :=
    fun m hm hc => List.disjoint_of_nodup_append hndusfs hm hc
  have hmem_range : ∀ m, m ∈ us ++ fs → m < l.elems.length := by
    intro m hm
    have h1 := hperm.subset hm
    rw [List.mem_range, hcap] at h1
    exact h1
  have hus_lt : ∀ m ∈ us, m < l.elems.length :=
    fun m hm => hmem_range m (List.mem_append_left _ hm)
  have hmem_of_some : ∀ m, m < l.elems.length →
      (l.elems.getD m none).isSome = true → m ∈ us := by
    intro m hm hsome
    have hmr : m ∈ us ++ fs :=
      hperm.symm.subset (List.mem_range.mpr (by rw [hcap]; exact hm))
    rcases List.mem_append.mp hmr with h | h
    · exact h
    · rw [hoccfs m h] at hsome
      cases hsome
  have hmem_of_none : ∀ m, m < l.elems.length →
      l.elems.getD m none = none → m ∈ fs := by
    intro m hm hnone
    have hmr : m ∈ us ++ fs :=
      hperm.symm.subset (List.mem_range.mpr (by rw [hcap]; exact hm))
    rcases List.mem_append.mp hmr with h | h
    · have h2 := hoccus m h
      rw [hnone] at h2
      cases h2
    · exact h
  have hle : l.size ≤ l.elems.length := by
    rw [hcap] at hsizeq
    omega
  have hlen_zip := trim_lengths_eq l hsz hle
  have hfst_eq : ((trimSrc l).zip (trimDst l)).map Prod.fst = trimSrc l :=
    List.map_fst_zip _ _ (by omega)
  have hsnd_eq : ((trimSrc l).zip (trimDst l)).map Prod.snd = trimDst l :=
    List.map_snd_zip _ _ (by omega)
  have hpairsP : ∀ p, p ∈ (trimSrc l).zip (trimDst l) → p.1 ∈ us ∧ p.2 ∈ fs := by
    intro p hp
    obtain ⟨a, b⟩ := p
    obtain ⟨h1, h2⟩ := List.of_mem_zip hp
    obtain ⟨_, hs2, hs3⟩ := mem_trimSrc h1
    obtain ⟨_, hd2, hd3⟩ := mem_trimDst h2
    exact ⟨hmem_of_some a hs2 hs3, hmem_of_none b hd2 hd3⟩
  have hfstnd : (((trimSrc l).zip (trimDst l)).map Prod.fst).Nodup := by
    rw [hfst_eq]
    exact nodup_trimSrc l
  have hsndnd : (((trimSrc l).zip (trimDst l)).map Prod.snd).Nodup := by
    rw [hsnd_eq]
    exact nodup_trimDst l
  have hcross : ∀ p, p ∈ (trimSrc l).zip (trimDst l) →
      ∀ q, q ∈ (trimSrc l).zip (trimDst l) → p.1 ≠ q.2 := by
    intro p hp q hq
    obtain ⟨a, b⟩ := p
    obtain ⟨c, d⟩ := q
    obtain ⟨hp1, _⟩ := List.of_mem_zip hp
    obtain ⟨_, hq2⟩ := List.of_mem_zip hq
    have h1 := (mem_trimSrc hp1).1
    have h2 := (mem_trimDst hq2).1
    intro hc
    have hc' : a = d := hc
    omega
  obtain ⟨us', H1, H2, H3, H4, H5, H6⟩ :=
    fold_replace_chain ((trimSrc l).zip (trimDst l)) l us fs hEu hndus hEf hndfs
      hdisj hpairsP hfstnd hsndnd hcross hbig hne
  set F := ((trimSrc l).zip (trimDst l)).foldl
    (fun acc p => acc.replace_dest_with_source p.1 p.2) l with hF
  have hus'_lt : ∀ m ∈ us', m < l.size := by
    intro m hm
    rcases H4 m hm with h1 | ⟨h2, h3⟩
    · rw [hsnd_eq] at h1
      exact (mem_trimDst h1).1
    · rw [hfst_eq] at h3
      by_contra hcon
      push_neg at hcon
      exact h3 (mem_trimSrc_of hcon (hus_lt m h2) (hoccus m h2))
  have hus'_ltF : ∀ m ∈ us', m < F.nodes.length := fun m hm => seg_mem_bound H1 m hm
  have hEtrim : EndsOk l.trim_swap.nodes l.trim_swap.used us' := by
    show EndsOk (F.nodes.take l.size) F.used us'
    refine seg_frame ?_ H1
    intro m hm
    refine ⟨?_, getD_take_lt _ _ (hus'_lt m hm)⟩
    rw [List.length_take]
    have h1 := hus'_ltF m hm
    have h2 := hus'_lt m hm
    omega
  have hvalstrim : us'.map (fun n => l.trim_swap.elems.getD n none)
      = us'.map (fun n => F.elems.getD n none) := by
    refine List.map_congr_left (fun m hm => ?_)
    show (F.elems.take l.size).getD m none = _
    exact getD_take_lt _ _ (hus'_lt m hm)
  set vs := us.filterMap (fun n => l.elems.getD n none) with hvs
  have hvals_l : us.map (fun n => l.elems.getD n none) = vs.map some :=
    map_eq_filterMap_some _ us hoccus
  have hvals_trim : us'.map (fun n => l.trim_swap.elems.getD n none) = vs.map some :=
    hvalstrim.trans (H3.trans hvals_l)
  have hlen_trim : l.trim_swap.nodes.length = l.trim_swap.elems.length := by
    show (F.nodes.take l.size).length = (F.elems.take l.size).length
    rw [List.length_take, List.length_take, H5, H6, hne]
  have hbig_trim : l.trim_swap.nodes.length + 1 < U32 := by
    show (F.nodes.take l.size).length + 1 < U32
    rw [List.length_take, H5]
    have h1 : min l.size l.nodes.length ≤ l.nodes.length := Nat.min_le_right _ _
    omega
  have h_first_l : l.first_index = (cycleOf us).getD 0 ListIndex.new := seg_head_eq hEu
  have h_first_trim : l.trim_swap.first_index = (cycleOf us').getD 0 ListIndex.new :=
    seg_head_eq hEtrim
  rw [h_first_l, h_first_trim,
    traverseFrom_spec hEu hbig hne hvals_l fuel 0 (by omega),
    traverseFrom_spec hEtrim hbig_trim hlen_trim hvals_trim fuel 0 (by omega)]


/-- Witness for C9: a concrete trim that relocates slot 2 into the hole
at slot 1 while the traversal sequence is unchanged. -/
theorem C9_witness :
    exampleC9.trim_swap.traverseFrom 5 exampleC9.trim_swap.first_index
      = exampleC9.traverseFrom 5 exampleC9.first_index :=
  C9_trim_swap_order Nat exampleC9
    ⟨[0, 2], [1], by decide, by decide, by decide, by decide, by decide, by decide, rfl⟩
    (by decide) (by decide) 5

theorem fold_replace_size {α : Type} :
    ∀ (pairs : List (Nat × Nat)) (l : IndexList α),
      (pairs.foldl (fun acc p => acc.replace_dest_with_source p.1 p.2) l).size = l.size := by
  intro pairs
  induction pairs with
  | nil => intro l; rfl
  | cons p rest ih =>
    intro l
    rw [List.foldl_cons, ih]
    exact IndexList.replace_size l p.1 p.2

/-- `trim_swap` preserves well-formedness: the relocations keep the used
chain intact below the cut, the free chain is emptied, and the surviving
slots are exactly `[0, size)`. -/
theorem Wf_trim_swap {α : Type} {l : IndexList α} (h : Wf l)
    (hbig : l.nodes.length + 1 < U32) : Wf (l.trim_swap) := by
  have hsz : l.size = IndexList.countSome l.elems := (Wf_countSome h).symm
  obtain ⟨us, fs, hEu, hEf, hperm, hsizeq, hoccus, hoccfs, hne⟩ := id h
  have hcap : l.capacity = l.elems.length := rfl
  obtain ⟨huslt, hfslt, hlensum, hndus, hndfs, hdisjP⟩ := perm_facts hperm
  have hdisj : ∀ m, m ∈ us → m ∉ fs := fun m hm hc => hdisjP hm hc
  have hmem_of_some : ∀ m, m < l.elems.length →
      (l.elems.getD m none).isSome = true → m ∈ us := by
    intro m hm hsome
    have hmr : m ∈ us ++ fs :=
      hperm.symm.subset (List.mem_range.mpr (by rw [hcap]; exact hm))
    rcases List.mem_append.mp hmr with h1 | h1
    · exact h1
    · rw [hoccfs m h1] at hsome
      cases hsome
  have hmem_of_none : ∀ m, m < l.elems.length →
      l.elems.getD m none = none → m ∈ fs := by
    intro m hm hnone
    have hmr : m ∈ us ++ fs :=
      hperm.symm.subset (List.mem_range.mpr (by rw [hcap]; exact hm))
    rcases List.mem_append.mp hmr with h1 | h1
    · have h2 := hoccus m h1
      rw [hnone] at h2
      cases h2
    · exact h1
  have hle : l.size ≤ l.elems.length := by
    rw [hcap] at hsizeq
    omega
  have hlen_zip := trim_lengths_eq l hsz hle
  have hfst_eq : ((trimSrc l).zip (trimDst l)).map Prod.fst = trimSrc l :=
    List.map_fst_zip _ _ (by omega)
  have hsnd_eq : ((trimSrc l).zip (trimDst l)).map Prod.snd = trimDst l :=
    List.map_snd_zip _ _ (by omega)
  have hpairsP : ∀ p, p ∈ (trimSrc l).zip (trimDst l) → p.1 ∈ us ∧ p.2 ∈ fs := by
    intro p hp
    obtain ⟨a, b⟩ := p
    obtain ⟨h1, h2⟩ := List.of_mem_zip hp
    obtain ⟨_, hs2, hs3⟩ := mem_trimSrc h1
    obtain ⟨_, hd2, hd3⟩ := mem_trimDst h2
    exact ⟨hmem_of_some a hs2 hs3, hmem_of_none b hd2 hd3⟩
  have hfstnd : (((trimSrc l).zip (trimDst l)).map Prod.fst).Nodup := by
    rw [hfst_eq]
    exact nodup_trimSrc l
  have hsndnd : (((trimSrc l).zip (trimDst l)).map Prod.snd).Nodup := by
    rw [hsnd_eq]
    exact nodup_trimDst l
  have hcross : ∀ p, p ∈ (trimSrc l).zip (trimDst l) →
      ∀ q, q ∈ (trimSrc l).zip (trimDst l) → p.1 ≠ q.2 := by
    intro p hp q hq
    obtain ⟨a, b⟩ := p
    obtain ⟨c, d⟩ := q
    obtain ⟨hp1, _⟩ := List.of_mem_zip hp
    obtain ⟨_, hq2⟩ := List.of_mem_zip hq
    have h1 := (mem_trimSrc hp1).1
    have h2 := (mem_trimDst hq2).1
    intro hc
    have hc' : a = d := hc
    omega
  obtain ⟨us', H1, H2, H3, H4, H5, H6⟩ :=
    fold_replace_chain ((trimSrc l).zip (trimDst l)) l us fs hEu hndus hEf hndfs
      hdisj hpairsP hfstnd hsndnd hcross hbig hne
  set F := ((trimSrc l).zip (trimDst l)).foldl
    (fun acc p => acc.replace_dest_with_source p.1 p.2) l with hF
  have hus'_lt : ∀ m ∈ us', m < l.size := by
    intro m hm
    rcases H4 m hm with h1 | ⟨h2, h3⟩
    · rw [hsnd_eq] at h1
      exact (mem_trimDst h1).1
    · rw [hfst_eq] at h3
      by_contra hcon
      push_neg at hcon
      refine h3 (mem_trimSrc_of hcon ?_ (hoccus m h2))
      have := huslt m h2
      rw [hcap] at this
      exact this
  have hEtrim : EndsOk (F.nodes.take l.size) F.used us' := by
    refine seg_frame ?_ H1
    intro m hm
    refine ⟨?_, getD_take_lt _ _ (hus'_lt m hm)⟩
    rw [List.length_take]
    have h1 := seg_mem_bound H1 m hm
    have h2 := hus'_lt m hm
    omega
  have hsize_eq : F.size = l.size := fold_replace_size _ l
  have hlen_us' : us'.length = us.length := by
    have h1 := congrArg List.length H3
    simpa using h1
  have hus_len_sz : us.length = l.size := by omega
  have hocc' : ∀ m ∈ us', (F.elems.getD m none).isSome = true := by
    intro m hm
    obtain ⟨k, hk, hkm⟩ := List.mem_iff_getElem.mp hm
    have hk2 : k < us.length := by omega
    have h1 := congrArg (fun t => t.getD k none) H3
    dsimp only at h1
    rw [map_getD_lt _ 0 _ us' k hk, map_getD_lt _ 0 _ us k hk2] at h1
    have hgm : us'.getD k 0 = m := by
      rw [List.getD_eq_getElem us' 0 hk]
      exact hkm
    rw [hgm] at h1
    rw [h1]
    exact hoccus _ (getD_mem 0 hk2)
  have hperm' : List.Perm us' (List.range l.size) := by
    have hsub : us' ⊆ List.range l.size := by
      intro m hm
      exact List.mem_range.mpr (hus'_lt m hm)
    refine (List.subperm_of_subset H2 hsub).perm_of_length_le ?_
    rw [List.length_range, hlen_us']
    omega
  rw [trim_swap_eq l]
  refine ⟨us', [], hEtrim, ⟨rfl, rfl⟩, ?_, ?_, ?_, ?_, ?_⟩
  · rw [List.append_nil]
    have hltcap : (F.elems.take l.size).length = l.size := by
      rw [List.length_take, H6]
      omega
    show List.Perm us' (List.range (F.elems.take l.size).length)
    rw [hltcap]
    exact hperm'
  · show F.size = (F.elems.take l.size).length - ([] : List Nat).length
    rw [hsize_eq, List.length_take, H6, List.length_nil]
    omega
  · intro n hn
    show ((F.elems.take l.size).getD n none).isSome = true
    rw [getD_take_lt _ _ (hus'_lt n hn)]
    exact hocc' n hn
  · intro n hn
    cases hn
  · show (F.nodes.take l.size).length = (F.elems.take l.size).length
    rw [List.length_take, List.length_take, H5, H6, hne]

/-- **C1 (amended)**: the structural invariants (chain well-formedness
with link symmetry and null end-caps, exact partition of the slot range
by the used and free chains, and `size = capacity - |free|`) are
preserved by every public mutating operation given handle-space headroom:
by `clear`, by the insertion family when the anchor handle is null or
occupied, by `remove`/`remove_first`/`remove_last` unconditionally, by
the shift family, by every successful `swap_index` (which exchanges only
stored values), by `trim_safe` and `trim_swap`, by `append` and `prepend`
(for both lists), and by `split` (which always succeeds and yields two
invariant-satisfying lists); they are *not* preserved by every public
call: `insert_before`/`insert_after` with a stale free-slot handle
corrupts the chains (see the counterexample). -/
theorem C1_invariants_amended {α : Type} {l : IndexList α} (h : Wf l)
    (hbig : l.nodes.length + 2 < U32) :
    Wf l.clear ∧
    (∀ x : α, Wf (l.insert_first x).2) ∧
    (∀ x : α, Wf (l.insert_last x).2) ∧
    (∀ (i : ListIndex) (x : α), i.Valid →
      (i.isNone = true ∨ l.is_index_used i = true) → Wf (l.insert_before i x).2) ∧
    (∀ (i : ListIndex) (x : α), i.Valid →
      (i.isNone = true ∨ l.is_index_used i = true) → Wf (l.insert_after i x).2) ∧
    (∀ i : ListIndex, i.Valid → Wf (l.remove i).2) ∧
    Wf (l.remove_first).2 ∧
    Wf (l.remove_last).2 ∧
    (∀ i j : ListIndex, i.Valid → j.Valid → Wf (l.shift_index_before i j).2) ∧
    (∀ i j : ListIndex, i.Valid → j.Valid → Wf (l.shift_index_after i j).2) ∧
    (∀ i : ListIndex, i.Valid → Wf (l.shift_index_to_front i).2) ∧
    (∀ i : ListIndex, i.Valid → Wf (l.shift_index_to_back i).2) ∧
    (∀ i j : ListIndex, ∀ q : IndexList α, l.swap_index i j = some q → StructInv q) ∧
    Wf l.trim_safe ∧
    Wf l.trim_swap ∧
    (∀ other : IndexList α, Wf other →
      l.nodes.length + other.nodes.length + 2 < U32 →
      Wf (l.append other).1 ∧ Wf (l.append other).2) ∧
    (∀ other : IndexList α, Wf other →
      l.nodes.length + other.nodes.length + 2 < U32 →
      Wf (l.prepend other).1 ∧ Wf (l.prepend other).2) ∧
    (∀ i : ListIndex, ∃ p : IndexList α × IndexList α,
      l.split i = some p ∧ Wf p.1 ∧ Wf p.2) :=
  ⟨Wf_clear l, fun x => Wf_insert_first x h hbig, fun x => Wf_insert_last x h hbig,
   fun i x hv hocc => Wf_insert_before i x h hbig hv hocc,
   fun i x hv hocc => Wf_insert_after i x h hbig hv hocc,
   fun i hv => Wf_remove i h (by omega) hv,
   Wf_remove_first h (by omega), Wf_remove_last h (by omega),
   fun i j hvi hvj => Wf_shift_index_before i j h (by omega) hvi hvj,
   fun i j hvi hvj => Wf_shift_index_after i j h (by omega) hvi hvj,
   fun i hv => Wf_shift_index_to_front i h (by omega) hv,
   fun i hv => Wf_shift_index_to_back i h (by omega) hv,
   fun i j => StructInv_swap_index h.structInv i j,
   Wf_trim_safe h (by omega),
   Wf_trim_swap h (by omega),
   fun other ho hb => Wf_append h ho hb,
   fun other ho hb => Wf_prepend h ho hb,
   fun i => Wf_split h i hbig⟩

/-- Witness for the amended C1 at a concrete input: the one-element list
`[10]` is well formed and stays well formed after `insert_last 20` and
after `trim_safe`. -/
theorem C1_witness :
    Wf (IndexList.fromVec [10]) ∧ Wf ((IndexList.fromVec [10]).insert_last 20).2 ∧
    Wf (IndexList.fromVec [10]).trim_safe :=
  have hwf : Wf (IndexList.fromVec [10]) :=
    ⟨[0], [], by decide, by decide, by decide, by decide, by decide, by decide,
     by decide⟩
  ⟨hwf, (C1_invariants_amended hwf (by decide)).2.2.1 20,
   (C1_invariants_amended hwf (by decide)).2.2.2.2.2.2.2.2.2.2.2.2.2.1⟩
